import Mathlib

/-!
# MetroFlow route search: a verification development

Shallow embedding of `src/demo.cpp` (graph store, `bfsLeastStops`, `dijkstra`
and the path reconstruction both searches end with) together with theorems
about it.

Modelling conventions.

* `std::unordered_map<string, T>` read only through `operator[]` is a total
  function `String → T` whose value at a key never written is the
  value-initialised `T` (`0`, `false`); `parent`, which is also queried with
  `find`, is a function into `Option String`.
* `graph` is an association list with in-place update of the first entry of a
  key; `graph[k]` reads the stored list, or the empty list for a missing key
  (the empty vector `operator[]` would insert there is never observed by the
  search that inserted it).
* `int` is `Int` and the one arithmetic operation of the program,
  `cost[curr] + weight`, is reduced to the 32-bit two's complement range by
  `wrapInt`.
* `std::queue` is a list (front = head).  `std::priority_queue` is any
  implementation of the interface `MinQueue`: `top`/`pop` deliver some entry
  whose first component is minimal, the choice among ties is left to the
  implementation.
* Loops take a fuel argument and return `none` when it runs out.
-/

namespace MetroFlow

/-! ## Data model -/

/-- Connection record `struct Edge` (demo.cpp lines 15-24).  The `double`
field is only ever copied, it is kept as a rational number; the member `to`
is spelled `dst`, `to` being reserved. -/
structure Edge where
  dst : String
  time : Int
  distance : Rat
  cost : Int
  line : String
deriving DecidableEq

/-- The global `unordered_map<string, vector<Edge>> graph` (line 26). -/
abbrev Graph := List (String × List Edge)

/-- Reading `graph[k]`. -/
def graphAt (g : Graph) (k : String) : List Edge :=
  match g with
  | [] => []
  | (k', es) :: rest => if k' = k then es else graphAt rest k

/-- Keys of the map, the stations visited by `for (auto& entry : graph)`. -/
def graphKeys (g : Graph) : List String := g.map Prod.fst

/-- Statement `graph[k].push_back(e)`. -/
def pushEdge (g : Graph) (k : String) (e : Edge) : Graph :=
  match g with
  | [] => [(k, [e])]
  | (k', es) :: rest =>
    if k' = k then (k', es ++ [e]) :: rest else (k', es) :: pushEdge rest k e

/-- One well-formed row of the input file after `stoi`/`stod`. -/
structure Record where
  src : String
  dst : String
  time : Int
  distance : Rat
  cost : Int
  line : String
deriving DecidableEq

/-- The two `push_back` statements of `loadMetroData` (lines 54-55), the
operation the specification calls `addConnection`. -/
def addConnection (g : Graph) (r : Record) : Graph :=
  pushEdge (pushEdge g r.src ⟨r.dst, r.time, r.distance, r.cost, r.line⟩)
    r.dst ⟨r.src, r.time, r.distance, r.cost, r.line⟩

/-- The reading loop of `loadMetroData` over the well-formed rows. -/
def loadMetroData (g : Graph) (rs : List Record) : Graph :=
  rs.foldl addConnection g

/-- The graph `loadMetroData` builds from an initially empty map. -/
def buildGraph (rs : List Record) : Graph := loadMetroData [] rs

/-! ## Maps and integers -/

/-- Assignment `m[k] = v`. -/
def setKey {β : Type} (m : String → β) (k : String) (v : β) : String → β :=
  fun x => if x = k then v else m x

/-- The constant `numeric_limits<int>::max()`. -/
def INT_MAX : Int := 2147483647

/-- Reduction of an integer to the range of a 32-bit `int`. -/
def wrapInt (x : Int) : Int := (x + 2147483648) % 4294967296 - 2147483648

/-! ## Path reconstruction (lines 91-103 and 135-147) -/

/-- The `while (current != start && parent.find(current) != parent.end())`
loop followed by the final `if`.  `path` is the vector built so far. -/
def reconstructLoop (parent : String → Option String) (start : String) :
    Nat → String → List String → Option (List String)
  | 0, _, _ => none
  | fuel + 1, current, path =>
    if current = start then some (path ++ [start]).reverse
    else
      match parent current with
      | none => some []
      | some p => reconstructLoop parent start fuel p (path ++ [current])

/-- Path reconstruction from `end_` with an initially empty vector. -/
def reconstructPath (parent : String → Option String) (start end_ : String)
    (fuel : Nat) : Option (List String) :=
  reconstructLoop parent start fuel end_ []

/-! ## Breadth-first search (lines 71-104) -/

/-- Local variables of `bfsLeastStops`. -/
structure BfsState where
  visited : String → Bool
  parent : String → Option String
  q : List String

/-- The `for (const auto& edge : graph[curr])` loop of `bfsLeastStops`. -/
def bfsExpand (curr : String) : List Edge → BfsState → BfsState
  | [], st => st
  | edge :: es, st =>
    if st.visited edge.dst then bfsExpand curr es st
    else
      bfsExpand curr es
        { visited := setKey st.visited edge.dst true
          parent := setKey st.parent edge.dst (some curr)
          q := st.q ++ [edge.dst] }

/-- The `while (!q.empty())` loop of `bfsLeastStops`. -/
def bfsLoop (g : Graph) (end_ : String) : Nat → BfsState → Option BfsState
  | 0, _ => none
  | fuel + 1, st =>
    match st.q with
    | [] => some st
    | curr :: rest =>
      if curr = end_ then some { st with q := rest }
      else bfsLoop g end_ fuel (bfsExpand curr (graphAt g curr) { st with q := rest })

/-- State before the loop: `visited[start] = true; q.push(start);`. -/
def bfsInit (start : String) : BfsState :=
  { visited := setKey (fun _ => false) start true
    parent := fun _ => none
    q := [start] }

/-- Function `bfsLeastStops(start, end)`. -/
def bfsLeastStops (g : Graph) (fuel : Nat) (start end_ : String) : Option (List String) :=
  match bfsLoop g end_ fuel (bfsInit start) with
  | none => none
  | some st => reconstructPath st.parent start end_ fuel

/-! ## Weighted search (lines 106-148) -/

/-- Interface of `std::priority_queue<pair<int, string>, ..., cmp>` with
`cmp(a, b) = a.first > b.first`: `pop` delivers `top()` together with the
queue after `pop()`, and `top()` is an entry with the least first component. -/
structure MinQueue where
  Q : Type
  empty : Q
  push : Int × String → Q → Q
  pop : Q → Option ((Int × String) × Q)
  toList : Q → List (Int × String)
  toList_empty : toList empty = []
  toList_push : ∀ x q, (toList (push x q)).Perm (x :: toList q)
  pop_none : ∀ q, pop q = none ↔ toList q = []
  pop_some : ∀ q x q', pop q = some (x, q') →
    (toList q).Perm (x :: toList q') ∧ ∀ y ∈ toList q, x.1 ≤ y.1

/-- Leftmost entry with the least first component, and the other entries. -/
def popMin : List (Int × String) → Option ((Int × String) × List (Int × String))
  | [] => none
  | x :: xs =>
    match popMin xs with
    | none => some (x, [])
    | some (y, ys) => if x.1 ≤ y.1 then some (x, xs) else some (y, x :: ys)

/-- Local variables of `dijkstra`. -/
structure DState (P : MinQueue) where
  cost : String → Int
  parent : String → Option String
  pq : P.Q

/-- The expression `(criteria == "time") ? edge.time : edge.cost`. -/
def weightOf (criteria : String) (edge : Edge) : Int :=
  if criteria = "time" then edge.time else edge.cost

/-- The `for (const auto& edge : graph[curr])` loop of `dijkstra`. -/
def relaxEdges (P : MinQueue) (criteria curr : String) :
    List Edge → DState P → DState P
  | [], st => st
  | edge :: es, st =>
    let weight := weightOf criteria edge
    if wrapInt (st.cost curr + weight) < st.cost edge.dst then
      let cost' := setKey st.cost edge.dst (wrapInt (st.cost curr + weight))
      relaxEdges P criteria curr es
        { cost := cost'
          parent := setKey st.parent edge.dst (some curr)
          pq := P.push (cost' edge.dst, edge.dst) st.pq }
    else relaxEdges P criteria curr es st

/-- The `while (!pq.empty())` loop of `dijkstra`. -/
def dijkstraLoop (P : MinQueue) (g : Graph) (end_ criteria : String) :
    Nat → DState P → Option (DState P)
  | 0, _ => none
  | fuel + 1, st =>
    match P.pop st.pq with
    | none => some st
    | some (top, rest) =>
      if top.2 = end_ then some { st with pq := rest }
      else
        dijkstraLoop P g end_ criteria fuel
          (relaxEdges P criteria top.2 (graphAt g top.2) { st with pq := rest })

/-- State before the loop: every key at `INT_MAX`, then `cost[start] = 0;
pq.push({0, start});`. -/
def dijkstraInit (P : MinQueue) (g : Graph) (start : String) : DState P :=
  { cost := setKey (fun x => if x ∈ graphKeys g then INT_MAX else 0) start 0
    parent := fun _ => none
    pq := P.push (0, start) P.empty }

/-- Function `dijkstra(start, end, criteria)`. -/
def dijkstra (P : MinQueue) (g : Graph) (fuel : Nat) (start end_ criteria : String) :
    Option (List String) :=
  match dijkstraLoop P g end_ criteria fuel (dijkstraInit P g start) with
  | none => none
  | some st => reconstructPath st.parent start end_ fuel

/-! ## A concrete priority queue -/

/-- Priority queue kept as the list of its entries, newest first; `top` is the
leftmost entry among those with the least first component. -/
def listQueue : MinQueue where
  Q := List (Int × String)
  empty := []
  push := fun x q => x :: q
  pop := popMin
  toList := fun q => q
  toList_empty := rfl
  toList_push := fun _ _ => List.Perm.refl _
  pop_none := by
    intro l
    cases l with
    | nil => simp [popMin]
    | cons x xs =>
      simp only [popMin]
      cases popMin xs with
      | none => simp
      | some r => by_cases h : x.1 ≤ r.1.1 <;> simp [h]
  pop_some := by
    intro l
    induction l with
    | nil => intro x l' h; simp [popMin] at h
    | cons a xs ih =>
      intro x l' h
      simp only [popMin] at h
      cases hp : popMin xs with
      | none =>
        rw [hp] at h
        have hx : xs = [] := by
          cases xs with
          | nil => rfl
          | cons b bs =>
            simp only [popMin] at hp
            cases hq : popMin bs with
            | none => rw [hq] at hp; simp at hp
            | some r =>
              rw [hq] at hp
              by_cases hb : b.1 ≤ r.1.1 <;> simp [hb] at hp
        simp only [Option.some.injEq, Prod.mk.injEq] at h
        obtain ⟨rfl, rfl⟩ := h
        subst hx
        simp
      | some r =>
        obtain ⟨y, ys⟩ := r
        rw [hp] at h
        obtain ⟨hperm, hmin⟩ := ih y ys hp
        by_cases hle : a.1 ≤ y.1
        · simp only [hle, if_true, Option.some.injEq, Prod.mk.injEq] at h
          obtain ⟨rfl, rfl⟩ := h
          refine ⟨List.Perm.refl _, ?_⟩
          intro z hz
          rcases List.mem_cons.1 hz with rfl | hz
          · exact le_refl _
          · exact le_trans hle (hmin z hz)
        · simp only [hle, if_false, Option.some.injEq, Prod.mk.injEq] at h
          obtain ⟨rfl, rfl⟩ := h
          refine ⟨?_, ?_⟩
          · exact (List.Perm.cons a hperm).trans (List.Perm.swap _ _ _)
          · intro z hz
            rcases List.mem_cons.1 hz with rfl | hz
            · exact le_of_lt (not_le.1 hle)
            · exact hmin z hz

/-! ## Specification vocabulary -/

/-- Every stored connection has its mirror image stored at its far end. -/
def Mirrored (g : Graph) : Prop :=
  ∀ u e, e ∈ graphAt g u → (⟨u, e.time, e.distance, e.cost, e.line⟩ : Edge) ∈ graphAt g e.dst

/-- Every connection stored anywhere in the map. -/
def allEdges (g : Graph) : List Edge :=
  match g with
  | [] => []
  | (_, es) :: rest => es ++ allEdges rest

/-- Station `v` is the far end of a connection stored in the list of `u`. -/
def Linked (g : Graph) (u v : String) : Prop :=
  ∃ e ∈ graphAt g u, e.dst = v

/-- A walk from `u` to `v`: connections, each stored in the list of the
station the previous one leads to. -/
def IsWalk (g : Graph) : String → List Edge → String → Prop
  | u, [], v => u = v
  | u, e :: es, v => e ∈ graphAt g u ∧ IsWalk g e.dst es v

/-- Station `v` can be reached from `u` along stored connections. -/
def Reachable (g : Graph) (u v : String) : Prop :=
  ∃ es, IsWalk g u es v

/-- Cumulative weight of a walk under a criterion. -/
def walkWeight (criteria : String) (es : List Edge) : Int :=
  (es.map (weightOf criteria)).sum

/-- A station sequence from `start` to `end_` whose consecutive stations are
joined by a stored connection. -/
def IsPath (g : Graph) (start end_ : String) (p : List String) : Prop :=
  p.head? = some start ∧ p.getLast? = some end_ ∧ List.Chain' (Linked g) p

/-- Least element of a non-empty list of integers given as head and tail. -/
def leastOf (w : Int) (ws : List Int) : Int := ws.foldl min w

/-- Weight of the cheapest connection from `u` to `v` (and `0` if there is
none). -/
def hopWeight (g : Graph) (criteria u v : String) : Int :=
  match ((graphAt g u).filter (fun e => e.dst = v)).map (weightOf criteria) with
  | [] => 0
  | w :: ws => leastOf w ws

/-- Cumulative weight of a station sequence, each hop over the cheapest
parallel connection. -/
def pathWeight (g : Graph) (criteria : String) : List String → Int
  | [] => 0
  | [_] => 0
  | u :: v :: rest => hopWeight g criteria u v + pathWeight g criteria (v :: rest)

/-- Sum of the weights of all stored connections. -/
def totalWeight (criteria : String) (g : Graph) : Int :=
  ((allEdges g).map (weightOf criteria)).sum

/-- The chain of `parent` links of `v` leads to `start`; `p` lists it from
`start` to `v`. -/
inductive TreePath (parent : String → Option String) (start : String) :
    String → List String → Prop
  | base : TreePath parent start start [start]
  | step {v u : String} {p : List String} :
      v ≠ start → parent v = some u → TreePath parent start u p →
      TreePath parent start v (p ++ [v])

/-- Fuel that suffices for `bfsLeastStops`. -/
def bfsFuel (g : Graph) : Nat := 2 * (allEdges g).length + 2

/-- Fuel that suffices for `dijkstra`. -/
def dijkstraFuel (g : Graph) : Nat := 8589934592 * (allEdges g).length + 2

/-! ## Invariants of the breadth-first search -/

/-- Number of stored connections whose far end is not yet visited. -/
def unvisitedCount (g : Graph) (visited : String → Bool) : Nat :=
  (allEdges g).countP (fun e => !visited e.dst)

/-- Termination measure of the `while` loop of `bfsLeastStops`. -/
def bfsMeasure (g : Graph) (st : BfsState) : Nat :=
  st.q.length + 2 * unvisitedCount g st.visited

/-- Invariant of `bfsLeastStops`.  `lev` is the number of hops at which a
station was discovered; `front` holds the station being expanded (or nothing
between two iterations) and `doneEs` the connections of it already examined. -/
structure BfsInv (g : Graph) (start : String) (lev : String → Nat)
    (front : List String) (doneEs : List Edge) (st : BfsState) : Prop where
  vstart : st.visited start = true
  lstart : lev start = 0
  par : ∀ v u, st.parent v = some u →
    v ≠ start ∧ st.visited v = true ∧ st.visited u = true ∧ Linked g u v ∧ lev v = lev u + 1
  vis : ∀ v, st.visited v = true → v ≠ start → st.parent v ≠ none
  qvis : ∀ v ∈ front ++ st.q, st.visited v = true
  sorted : (front ++ st.q).Pairwise (fun a b => lev a ≤ lev b)
  span : ∀ a ∈ front ++ st.q, ∀ b ∈ front ++ st.q, lev b ≤ lev a + 1
  done : ∀ u, st.visited u = true → u ∉ front ++ st.q →
    ∀ e ∈ graphAt g u, st.visited e.dst = true ∧ lev e.dst ≤ lev u + 1
  doneFront : ∀ c ∈ front, ∀ e ∈ doneEs, st.visited e.dst = true ∧ lev e.dst ≤ lev c + 1
  low : ∀ u, st.visited u = true → u ∉ front ++ st.q → ∀ a ∈ front ++ st.q, lev u ≤ lev a
  bound : ∀ v, st.visited v = true →
    lev v + unvisitedCount g st.visited ≤ (allEdges g).length

/-! ## Invariants of the weighted search -/

/-- The value fits a 32-bit `int`. -/
def inRange (x : Int) : Prop := -2147483648 ≤ x ∧ x ≤ 2147483647

/-- Sum, over the stored connections, of the distance of the cumulative cost
of the far end from the least `int`. -/
def costSum (g : Graph) (cost : String → Int) : Nat :=
  ((allEdges g).map (fun e => (cost e.dst + 2147483648).toNat)).sum

/-- Termination measure of the `while` loop of `dijkstra`. -/
def dijkstraMeasure (P : MinQueue) (g : Graph) (st : DState P) : Nat :=
  (P.toList st.pq).length + 2 * costSum g st.cost

/-- Invariant of `dijkstra` that holds on every graph: cumulative costs are
`int` values and `parent` follows stored connections. -/
structure DGen (P : MinQueue) (g : Graph) (st : DState P) : Prop where
  range : ∀ v, inRange (st.cost v)
  link : ∀ v u, st.parent v = some u → Linked g u v

/-- The sums the weighted search forms stay at or below `bound`: for every
station `u` that can be reached from `start` and every connection `e` stored
at `u`, some walk from `start` to `u` followed by `e` weighs at most `bound`. -/
def SumsWithin (bound : Int) (criteria : String) (g : Graph) (start : String) : Prop :=
  ∀ u, Reachable g start u → ∀ e ∈ graphAt g u,
    ∃ es, IsWalk g start es u ∧ walkWeight criteria es + weightOf criteria e ≤ bound

/-- Weights are not negative and the sums the weighted search forms from
`start` stay within the range of `int`. -/
structure SafeSums (criteria : String) (g : Graph) (start : String) : Prop where
  nonneg : ∀ e ∈ allEdges g, 0 ≤ weightOf criteria e
  sums : SumsWithin INT_MAX criteria g start

/-- Preconditions of the weighted search from `start` under a criterion:
weights are not negative, every far end is a key of the map, and the sums
stay within the range of `int`. -/
structure SafeWeights (criteria : String) (g : Graph) (start : String) : Prop where
  nonneg : ∀ e ∈ allEdges g, 0 ≤ weightOf criteria e
  closed : ∀ e ∈ allEdges g, e.dst ∈ graphKeys g
  sums : SumsWithin INT_MAX criteria g start

/-- A sufficient condition for `SafeWeights` from every station: weights are
not negative, every far end is a key of the map, and the weights of all
stored connections sum to less than `INT_MAX`. -/
structure WellWeighted (criteria : String) (g : Graph) : Prop where
  nonneg : ∀ e ∈ allEdges g, 0 ≤ weightOf criteria e
  closed : ∀ e ∈ allEdges g, e.dst ∈ graphKeys g
  total : totalWeight criteria g < INT_MAX

/-- Invariant of `dijkstra` on graphs with `SafeWeights`.  `front` holds the
station being expanded (or nothing between two iterations) and `doneEs` the
connections of it already examined. -/
structure DInv (P : MinQueue) (g : Graph) (criteria start : String)
    (front : List String) (doneEs : List Edge) (st : DState P) : Prop where
  cstart : st.cost start = 0
  cpos : ∀ v, 0 ≤ st.cost v ∧ st.cost v ≤ INT_MAX
  pqle : ∀ x ∈ P.toList st.pq,
    st.cost x.2 ≤ x.1 ∧ x.1 ≤ INT_MAX ∧ (x.2 = start ∨ st.parent x.2 ≠ none)
  settled : ∀ u, u ∉ front →
    (∀ e ∈ graphAt g u, st.cost e.dst ≤ st.cost u + weightOf criteria e) ∨
      (st.cost u, u) ∈ P.toList st.pq ∨ st.cost u = INT_MAX
  doneFront : ∀ c ∈ front, ∀ e ∈ doneEs, st.cost e.dst ≤ st.cost c + weightOf criteria e
  room : ∀ c ∈ front, ∀ e ∈ graphAt g c, st.cost c + weightOf criteria e ≤ INT_MAX
  frontOk : ∀ c ∈ front, c = start ∨ st.parent c ≠ none
  par : ∀ v u, st.parent v = some u →
    v ≠ start ∧ ∃ e ∈ graphAt g u, e.dst = v ∧ st.cost u + weightOf criteria e ≤ st.cost v
  chain : ∀ v, st.parent v ≠ none → ∃ p, TreePath st.parent start v p
  fresh : ∀ v ∈ graphKeys g, v ≠ start → st.parent v = none → st.cost v = INT_MAX

/-! ## Scenarios -/

/-- The three records `A-B (time=5, cost=2)`, `B-C (time=3, cost=4)`,
`A-C (time=10, cost=1)`, with arbitrary distances and line labels. -/
def demoRecords (d1 d2 d3 : Rat) (l1 l2 l3 : String) : List Record :=
  [⟨"A", "B", 5, d1, 2, l1⟩, ⟨"B", "C", 3, d2, 4, l2⟩, ⟨"A", "C", 10, d3, 1, l3⟩]

/-- One record `A-B` whose time and cost are both `INT_MAX`. -/
def heavyRecords : List Record :=
  [⟨"A", "B", 2147483647, 1, 2147483647, "L1"⟩]

/-- A station that is neither a key of the map nor the far end of a stored
connection. -/
def Unknown (g : Graph) (x : String) : Prop :=
  x ∉ graphKeys g ∧ ∀ e ∈ allEdges g, e.dst ≠ x

/-- The pair `(s, e)` belongs to the reachability relation of
`bfsLeastStops`: the search returns a non-empty sequence. -/
def bfsReaches (g : Graph) (s e : String) : Prop :=
  ∃ fuel r, bfsLeastStops g fuel s e = some r ∧ r ≠ []

/-- The pair `(s, e)` belongs to the reachability relation of `dijkstra`
under a criterion: the search returns a non-empty sequence. -/
def dijkstraReaches (P : MinQueue) (g : Graph) (criteria s e : String) : Prop :=
  ∃ fuel r, dijkstra P g fuel s e criteria = some r ∧ r ≠ []

/-- Two records `C-B` and `A-B` with negative weights. -/
def steepRecords : List Record :=
  [⟨"C", "B", -1073741824, 1, -1073741824, "L1"⟩, ⟨"A", "B", -1, 1, -1, "L1"⟩]

/-- A record from `A` to `A` with a negative weight. -/
def steepLoop : Record := ⟨"A", "A", -536870912, 1, -536870912, "L2"⟩


/-! ## Further vocabulary -/

/-- What a stored connection keeps when its distance value is left out:
far end, time, cost and line. -/
def sansDistance (e : Edge) : String × Int × Int × String :=
  (e.dst, e.time, e.cost, e.line)

/-- Two maps that differ in nothing but the distance values of their
connections: same keys, and under every key the same connections in the same
order up to the distance field. -/
def SameButDistance (g1 g2 : Graph) : Prop :=
  (∀ x, x ∈ graphKeys g1 ↔ x ∈ graphKeys g2) ∧
  ∀ x, (graphAt g1 x).map sansDistance = (graphAt g2 x).map sansDistance

/-- Two maps with the same keys and, under every key, the same far ends in
the same order; time, distance, cost and line are free to differ. -/
def SameShape (g1 g2 : Graph) : Prop :=
  (∀ x, x ∈ graphKeys g1 ↔ x ∈ graphKeys g2) ∧
  ∀ x, (graphAt g1 x).map Edge.dst = (graphAt g2 x).map Edge.dst

/-- Following the predecessor links from a station runs out of links at a
station other than `start`. -/
inductive DeadEnd (parent : String → Option String) (start : String) : String → Prop
  | stop {v : String} : v ≠ start → parent v = none → DeadEnd parent start v
  | step {v u : String} :
      v ≠ start → parent v = some u → DeadEnd parent start u → DeadEnd parent start v

/-- Output loop of `main`: every station is printed, followed by `" -> "`
when it differs from `path.back()`. -/
def renderPath (path : List String) : String :=
  path.foldl (fun out station =>
    if station ≠ path.getLastD "" then out ++ station ++ " -> " else out ++ station) ""

/-- States at the head of the `while (!pq.empty())` loop of `dijkstra` that a
run from `start` towards `end_` passes through. -/
inductive DReach (P : MinQueue) (g : Graph) (criteria start end_ : String) :
    DState P → Prop
  | init : DReach P g criteria start end_ (dijkstraInit P g start)
  | step {st : DState P} {top : Int × String} {rest : P.Q} :
      DReach P g criteria start end_ st → P.pop st.pq = some (top, rest) →
      top.2 ≠ end_ →
      DReach P g criteria start end_
        (relaxEdges P criteria top.2 (graphAt g top.2) { st with pq := rest })

/-- Every recorded cost is at most `INT_MAX`, and every queue entry carries a
key below `INT_MAX` that is no smaller than the recorded cost of its
station. -/
def Pushed (P : MinQueue) (st : DState P) : Prop :=
  (∀ v, st.cost v ≤ INT_MAX) ∧
  ∀ x ∈ P.toList st.pq, st.cost x.2 ≤ x.1 ∧ x.1 < INT_MAX

/-- No connection of the list passes the test
`cost[curr] + weight < cost[edge.to]` in the state. -/
def Relaxed (P : MinQueue) (criteria curr : String) (es : List Edge)
    (st : DState P) : Prop :=
  ∀ e ∈ es, ¬ wrapInt (st.cost curr + weightOf criteria e) < st.cost e.dst

/-- Invariant of the loop of `dijkstra` on every graph: a station either has
all its connections relaxed, or its current cost waits in the queue, or it has
no queue entry at all.  `front` is the station being expanded and `doneEs` the
connections of it already examined. -/
structure LazyInv (P : MinQueue) (g : Graph) (criteria : String)
    (front : Option String) (doneEs : List Edge) (st : DState P) : Prop where
  keys : ∀ x ∈ P.toList st.pq, st.cost x.2 ≤ x.1
  settled : ∀ u, front ≠ some u →
    Relaxed P criteria u (graphAt g u) st ∨ (st.cost u, u) ∈ P.toList st.pq ∨
      ∀ x ∈ P.toList st.pq, x.2 ≠ u
  cur : ∀ u, front = some u →
    (st.cost u, u) ∈ P.toList st.pq ∨ Relaxed P criteria u doneEs st

/-- One pass through the body of the `while` loop of `dijkstra` after the
test on `end`: the least entry is popped and the connections of its station
are examined. -/
def dijkstraStep (P : MinQueue) (g : Graph) (criteria : String) (st : DState P) :
    DState P :=
  match P.pop st.pq with
  | none => st
  | some (top, rest) =>
    relaxEdges P criteria top.2 (graphAt g top.2) { st with pq := rest }

/-- Records `A-B (5)`, `A-C (1)`, `C-B (1)`: from `A`, station `B` is first
recorded at 5 and then improved to 2 through `C`. -/
def detourRecords : List Record :=
  [⟨"A", "B", 5, 1, 5, "L1"⟩, ⟨"A", "C", 1, 1, 1, "L1"⟩, ⟨"C", "B", 1, 1, 1, "L1"⟩]

/-- State of `dijkstra` from `A` on `detourRecords` after three passes of the
loop: the queue holds the outdated entry `(5, B)` only. -/
def detourState : DState listQueue :=
  dijkstraStep listQueue (buildGraph detourRecords) "time"
    (dijkstraStep listQueue (buildGraph detourRecords) "time"
      (dijkstraStep listQueue (buildGraph detourRecords) "time"
        (dijkstraInit listQueue (buildGraph detourRecords) "A")))

/-- A predecessor mapping with the links `C -> B -> A` and `E -> D`. -/
def demoParent : String → Option String :=
  setKey (setKey (setKey (fun _ => none) "B" (some "A")) "C" (some "B")) "E" (some "D")

/-- A map whose only entry is `A -> B`: station `B` is the far end of a
connection but not a key. -/
def oneWayGraph : Graph := [("A", [⟨"B", 4, 1, 4, "L1"⟩])]

/-- Records `A-B (1)`, `B-C (-1)`, `C-D (-5)`. -/
def sinkRecords : List Record :=
  [⟨"A", "B", 1, 1, 1, "L1"⟩, ⟨"B", "C", -1, 1, -1, "L1"⟩, ⟨"C", "D", -5, 1, -5, "L1"⟩]

/-- The loop of `bfsLeastStops` together with a record of the stations taken
from the queue, in the order in which `q.front()` returned them. -/
def bfsLoopTrace (g : Graph) (end_ : String) :
    Nat → BfsState → List String → Option (BfsState × List String)
  | 0, _, _ => none
  | fuel + 1, st, tr =>
    match st.q with
    | [] => some (st, tr)
    | curr :: rest =>
      if curr = end_ then some ({ st with q := rest }, tr ++ [curr])
      else
        bfsLoopTrace g end_ fuel
          (bfsExpand curr (graphAt g curr) { st with q := rest }) (tr ++ [curr])

/-- Stations in the order in which a run of `bfsLeastStops` takes them from
the queue. -/
def dequeueOrder (g : Graph) (fuel : Nat) (start end_ : String) : Option (List String) :=
  (bfsLoopTrace g end_ fuel (bfsInit start) []).map Prod.snd

/-- Invariant of `bfsLeastStops` that ties the `parent` links to the order
`tr` in which stations left the queue: the predecessor of a station is the
first station of `tr` with a connection to it.  `front` is the station being
expanded and `doneEs` the connections of it already examined. -/
structure TraceInv (g : Graph) (tr : List String) (front : Option String)
    (doneEs : List Edge) (st : BfsState) : Prop where
  first : ∀ v u, st.parent v = some u →
    Linked g u v ∧ ∃ t1 t2, tr = t1 ++ u :: t2 ∧ ∀ w ∈ t1, ¬ Linked g w v
  seen : ∀ w ∈ tr, front ≠ some w → ∀ v, Linked g w v → st.visited v = true
  cur : ∀ c, front = some c → c ∈ tr ∧ ∀ e ∈ doneEs, st.visited e.dst = true

/-- The loop of `bfsLeastStops` without the statement
`if (curr == end) break;`: every station taken from the queue is expanded,
until the queue is empty. -/
def bfsLoopFull (g : Graph) : Nat → BfsState → Option BfsState
  | 0, _ => none
  | fuel + 1, st =>
    match st.q with
    | [] => some st
    | curr :: rest =>
      bfsLoopFull g fuel (bfsExpand curr (graphAt g curr) { st with q := rest })

/-- The variant of `bfsLeastStops` that runs `bfsLoopFull` and then the same
path reconstruction. -/
def bfsLeastStopsFull (g : Graph) (fuel : Nat) (start end_ : String) :
    Option (List String) :=
  match bfsLoopFull g fuel (bfsInit start) with
  | none => none
  | some st => reconstructPath st.parent start end_ fuel

/-- The loop of `dijkstra` without the statement `if (curr == end) break;`:
entries are extracted until the queue is empty. -/
def dijkstraLoopFull (P : MinQueue) (g : Graph) (criteria : String) :
    Nat → DState P → Option (DState P)
  | 0, _ => none
  | fuel + 1, st =>
    match P.pop st.pq with
    | none => some st
    | some (top, rest) =>
      dijkstraLoopFull P g criteria fuel
        (relaxEdges P criteria top.2 (graphAt g top.2) { st with pq := rest })

/-- The variant of `dijkstra` that runs `dijkstraLoopFull` and then the same
path reconstruction. -/
def dijkstraFull (P : MinQueue) (g : Graph) (fuel : Nat) (start end_ criteria : String) :
    Option (List String) :=
  match dijkstraLoopFull P g criteria fuel (dijkstraInit P g start) with
  | none => none
  | some st => reconstructPath st.parent start end_ fuel

/-- Records `A-B (1)` and `B-C (INT_MAX)`: weights are not negative, but
`1 + INT_MAX` leaves the range of `int`. -/
def brimRecords : List Record :=
  [⟨"A", "B", 1, 1, 1, "L1"⟩, ⟨"B", "C", 2147483647, 1, 2147483647, "L1"⟩]

/-- Records `A-B`, `A-C`, `B-D`, `C-D`: two routes of two hops from `A` to
`D`. -/
def diamondRecords : List Record :=
  [⟨"A", "B", 1, 1, 1, "L1"⟩, ⟨"A", "C", 1, 1, 1, "L1"⟩,
    ⟨"B", "D", 1, 1, 1, "L1"⟩, ⟨"C", "D", 1, 1, 1, "L1"⟩]

/-! ## The graph store -/

theorem graphAt_pushEdge (g : Graph) (k : String) (e : Edge) (x : String) :
    graphAt (pushEdge g k e) x = if x = k then graphAt g k ++ [e] else graphAt g x := by
  induction g with
  | nil =>
    by_cases h : x = k
    · subst h; simp [pushEdge, graphAt]
    · have h' : ¬ k = x := fun h' => h h'.symm
      simp [pushEdge, graphAt, h, h']
  | cons a rest ih =>
    obtain ⟨k', es⟩ := a
    by_cases hk : k' = k
    · subst hk
      by_cases h : x = k'
      · subst h; simp [pushEdge, graphAt]
      · have h' : ¬ k' = x := fun h' => h h'.symm
        simp [pushEdge, graphAt, h, h']
    · by_cases h : x = k
      · subst h; simp [pushEdge, graphAt, hk, ih]
      · by_cases h2 : k' = x
        · simp [pushEdge, graphAt, hk, h, h2]
        · simp [pushEdge, graphAt, hk, h, h2, ih]

theorem graphAt_addConnection (g : Graph) (r : Record) (x : String) :
    graphAt (addConnection g r) x =
      (graphAt g x ++ if x = r.src then [⟨r.dst, r.time, r.distance, r.cost, r.line⟩] else [])
        ++ if x = r.dst then [⟨r.src, r.time, r.distance, r.cost, r.line⟩] else [] := by
  simp only [addConnection, graphAt_pushEdge]
  by_cases h1 : x = r.dst <;> by_cases h2 : x = r.src
  · rw [← h1, ← h2]; simp
  · rw [← h1]; simp [h2]
  · rw [← h2]; simp [h1]
  · simp [h1, h2]

theorem mirrored_addConnection (g : Graph) (r : Record) (h : Mirrored g) :
    Mirrored (addConnection g r) := by
  intro u e he
  rw [graphAt_addConnection] at he
  rw [graphAt_addConnection]
  simp only [List.mem_append] at he ⊢
  rcases he with (he | he) | he
  · exact Or.inl (Or.inl (h u e he))
  · by_cases hu : u = r.src
    · subst hu
      simp only [if_true, List.mem_singleton] at he
      subst he
      exact Or.inr (by simp)
    · simp [hu] at he
  · by_cases hu : u = r.dst
    · subst hu
      simp only [if_true, List.mem_singleton] at he
      subst he
      exact Or.inl (Or.inr (by simp))
    · simp [hu] at he

theorem mirrored_loadMetroData (rs : List Record) :
    ∀ g, Mirrored g → Mirrored (loadMetroData g rs) := by
  induction rs with
  | nil => intro g h; exact h
  | cons r rs ih =>
    intro g h
    exact ih (addConnection g r) (mirrored_addConnection g r h)

theorem mirrored_buildGraph (rs : List Record) : Mirrored (buildGraph rs) :=
  mirrored_loadMetroData rs [] (by intro u e he; simp [graphAt] at he)

/-! ## Parent chains and path reconstruction -/

theorem treePath_ne_nil {parent : String → Option String} {start v : String}
    {p : List String} (h : TreePath parent start v p) : p ≠ [] := by
  cases h with
  | base => simp
  | step _ _ _ => simp

theorem treePath_getLast {parent : String → Option String} {start v : String}
    {p : List String} (h : TreePath parent start v p) : p.getLast? = some v := by
  cases h with
  | base => rfl
  | step _ _ _ => simp

theorem treePath_head {parent : String → Option String} {start v : String}
    {p : List String} (h : TreePath parent start v p) : p.head? = some start := by
  induction h with
  | base => rfl
  | @step v u p _ _ hp ih =>
    cases p with
    | nil => exact absurd rfl (treePath_ne_nil hp)
    | cons a as => simpa using ih

theorem treePath_unique {parent : String → Option String} {start v : String}
    {p : List String} (h : TreePath parent start v p) :
    ∀ {p'}, TreePath parent start v p' → p = p' := by
  induction h with
  | base =>
    intro p' h'
    cases h' with
    | base => rfl
    | step hne _ _ => exact absurd rfl hne
  | step hne hpar _ ih =>
    intro p' h'
    cases h' with
    | base => exact absurd rfl hne
    | step _ hpar' hp' =>
      rw [hpar] at hpar'
      cases hpar'
      rw [ih hp']

theorem treePath_prefix {parent : String → Option String} {start v : String}
    {p : List String} (h : TreePath parent start v p) :
    ∀ y ∈ p, ∃ p', TreePath parent start y p' ∧ p'.length ≤ p.length := by
  induction h with
  | base =>
    intro y hy
    simp only [List.mem_singleton] at hy
    subst hy
    exact ⟨[y], TreePath.base, le_refl _⟩
  | @step v u p hne hpar hp ih =>
    intro y hy
    rcases List.mem_append.1 hy with hy | hy
    · obtain ⟨p', hp', hlen⟩ := ih y hy
      exact ⟨p', hp', by simp; omega⟩
    · simp only [List.mem_singleton] at hy
      subst hy
      exact ⟨p ++ [y], TreePath.step hne hpar hp, le_refl _⟩

theorem treePath_nodup {parent : String → Option String} {start v : String}
    {p : List String} (h : TreePath parent start v p) : p.Nodup := by
  induction h with
  | base => simp
  | @step v u p hne hpar hp ih =>
    rw [List.nodup_append]
    refine ⟨ih, by simp, ?_⟩
    intro a ha hb
    simp only [List.mem_singleton] at hb
    subst hb
    obtain ⟨p', hp', hlen⟩ := treePath_prefix hp a ha
    have := treePath_unique hp' (TreePath.step hne hpar hp)
    rw [this] at hlen
    simp at hlen

theorem treePath_congr {parent parent' : String → Option String} {start v : String}
    {p : List String} (h : TreePath parent start v p)
    (hag : ∀ y ∈ p, y ≠ start → parent' y = parent y) : TreePath parent' start v p := by
  induction h with
  | base => exact TreePath.base
  | @step v u p hne hpar _ ih =>
    refine TreePath.step hne ?_ (ih fun y hy => hag y (List.mem_append_left _ hy))
    rw [hag v (by simp) hne, hpar]

theorem treePath_chain {g : Graph} {parent : String → Option String} {start v : String}
    {p : List String} (h : TreePath parent start v p)
    (hlink : ∀ y u, parent y = some u → Linked g u y) : List.Chain' (Linked g) p := by
  induction h with
  | base => simp
  | @step v u p hne hpar hp ih =>
    rw [List.chain'_append]
    refine ⟨ih, by simp, ?_⟩
    intro x hx y hy
    rw [treePath_getLast hp] at hx
    simp only [Option.mem_def, Option.some.injEq] at hx
    simp only [List.head?_cons, Option.mem_def, Option.some.injEq] at hy
    subst hx hy
    exact hlink _ _ hpar

theorem treePath_isPath {g : Graph} {parent : String → Option String} {start v : String}
    {p : List String} (h : TreePath parent start v p)
    (hlink : ∀ y u, parent y = some u → Linked g u y) : IsPath g start v p :=
  ⟨treePath_head h, treePath_getLast h, treePath_chain h hlink⟩

theorem reconstructLoop_of_treePath {parent : String → Option String} {start v : String}
    {p : List String} (h : TreePath parent start v p) :
    ∀ fuel path, p.length ≤ fuel →
      reconstructLoop parent start fuel v path = some (p ++ path.reverse) := by
  induction h with
  | base =>
    intro fuel path hf
    cases fuel with
    | zero => simp at hf
    | succ n => simp [reconstructLoop]
  | @step v u p hne hpar hp ih =>
    intro fuel path hf
    cases fuel with
    | zero => simp at hf
    | succ n =>
      have hlen : p.length ≤ n := by simp at hf; omega
      simp [reconstructLoop, hne, hpar, ih n (path ++ [v]) hlen]

theorem reconstructLoop_some {parent : String → Option String} {start : String} :
    ∀ fuel v path r, reconstructLoop parent start fuel v path = some r →
      r = [] ∨ ∃ p, TreePath parent start v p ∧ r = p ++ path.reverse := by
  intro fuel
  induction fuel with
  | zero => intro v path r h; simp [reconstructLoop] at h
  | succ n ih =>
    intro v path r h
    by_cases hv : v = start
    · subst hv
      simp only [reconstructLoop, if_true, Option.some.injEq] at h
      exact Or.inr ⟨[v], TreePath.base, by simp [← h]⟩
    · simp only [reconstructLoop, hv, if_false] at h
      cases hpar : parent v with
      | none =>
        rw [hpar] at h
        simp only [Option.some.injEq] at h
        exact Or.inl h.symm
      | some u =>
        rw [hpar] at h
        rcases ih u (path ++ [v]) r h with h0 | ⟨p, hp, hr⟩
        · exact Or.inl h0
        · exact Or.inr ⟨p ++ [v], TreePath.step hv hpar hp, by simp [hr]⟩

theorem reconstructPath_of_treePath {parent : String → Option String} {start v : String}
    {p : List String} (h : TreePath parent start v p) (fuel : Nat) (hf : p.length ≤ fuel) :
    reconstructPath parent start v fuel = some p := by
  unfold reconstructPath
  rw [reconstructLoop_of_treePath h fuel [] hf]
  simp

theorem reconstructPath_some {parent : String → Option String} {start v : String}
    {fuel : Nat} {r : List String} (h : reconstructPath parent start v fuel = some r) :
    r = [] ∨ TreePath parent start v r := by
  rcases reconstructLoop_some fuel v [] r h with h0 | ⟨p, hp, hr⟩
  · exact Or.inl h0
  · right
    simp only [List.reverse_nil, List.append_nil] at hr
    rw [hr]; exact hp

theorem reconstructLoop_treePath_some {parent : String → Option String} {start v : String}
    {p : List String} (h : TreePath parent start v p) :
    ∀ fuel path r, reconstructLoop parent start fuel v path = some r →
      r = p ++ path.reverse := by
  induction h with
  | base =>
    intro fuel path r hr
    cases fuel with
    | zero => simp [reconstructLoop] at hr
    | succ n =>
      simp only [reconstructLoop, if_true, Option.some.injEq] at hr
      simp [← hr]
  | @step v u p hne hpar _ ih =>
    intro fuel path r hr
    cases fuel with
    | zero => simp [reconstructLoop] at hr
    | succ n =>
      simp only [reconstructLoop, hne, if_false, hpar] at hr
      rw [ih n _ r hr]
      simp

theorem reconstructPath_treePath_some {parent : String → Option String} {start v : String}
    {p : List String} (h : TreePath parent start v p) {fuel : Nat} {r : List String}
    (hr : reconstructPath parent start v fuel = some r) : r = p := by
  have := reconstructLoop_treePath_some h fuel [] r hr
  simpa using this

theorem reconstructPath_dead {parent : String → Option String} {start v : String}
    (hv : v ≠ start) (hpar : parent v = none) (fuel : Nat) :
    reconstructPath parent start v (fuel + 1) = some [] := by
  simp [reconstructPath, reconstructLoop, hv, hpar]

/-! ## Walks -/

theorem graphAt_subset_allEdges (g : Graph) (u : String) (e : Edge)
    (h : e ∈ graphAt g u) : e ∈ allEdges g := by
  induction g with
  | nil => simp [graphAt] at h
  | cons a rest ih =>
    obtain ⟨k, es⟩ := a
    simp only [graphAt] at h
    simp only [allEdges, List.mem_append]
    by_cases hk : k = u
    · rw [if_pos hk] at h; exact Or.inl h
    · rw [if_neg hk] at h; exact Or.inr (ih h)

theorem isWalk_append {g : Graph} :
    ∀ (es : List Edge) (u v w : String) (es' : List Edge),
      IsWalk g u es v → IsWalk g v es' w → IsWalk g u (es ++ es') w := by
  intro es
  induction es with
  | nil =>
    intro u v w es' h h'
    simp only [IsWalk] at h
    subst h
    simpa using h'
  | cons e es ih =>
    intro u v w es' h h'
    simp only [IsWalk] at h
    simp only [List.cons_append, IsWalk]
    exact ⟨h.1, ih _ _ _ _ h.2 h'⟩

theorem isWalk_snoc {g : Graph} {es : List Edge} {u v : String} {e : Edge}
    (h : IsWalk g u es v) (he : e ∈ graphAt g v) : IsWalk g u (es ++ [e]) e.dst :=
  isWalk_append es u v e.dst [e] h (by simp [IsWalk, he])

theorem treePath_walk {g : Graph} {parent : String → Option String} {start v : String}
    {p : List String} (h : TreePath parent start v p)
    (hlink : ∀ y u, parent y = some u → Linked g u y) :
    ∃ es, IsWalk g start es v ∧ es.length + 1 = p.length := by
  induction h with
  | base => exact ⟨[], by simp [IsWalk], rfl⟩
  | @step v u p _ hpar _ ih =>
    obtain ⟨es, hw, hlen⟩ := ih
    obtain ⟨e, he, hdst⟩ := hlink v u hpar
    refine ⟨es ++ [e], ?_, by simp [hlen]⟩
    have := isWalk_snoc hw he
    rwa [hdst] at this

/-- A potential that grows by at most one along every connection grows by at
most the number of connections along a walk. -/
theorem walk_potential {g : Graph} (φ : String → Nat)
    (hφ : ∀ u, ∀ e ∈ graphAt g u, φ e.dst ≤ φ u + 1) :
    ∀ (es : List Edge) (u v : String), IsWalk g u es v → φ v ≤ φ u + es.length := by
  intro es
  induction es with
  | nil =>
    intro u v h
    simp only [IsWalk] at h
    subst h
    simp
  | cons e es ih =>
    intro u v h
    simp only [IsWalk] at h
    have h1 := hφ u e h.1
    have h2 := ih _ _ h.2
    simp only [List.length_cons]
    omega

/-! ## Breadth-first search: termination -/

theorem countP_flip {α : Type} (p p' : α → Bool) (l : List α) (e : α)
    (himp : ∀ x, p' x = true → p x = true) (he : e ∈ l) (hp : p e = true)
    (hp' : p' e = false) : l.countP p' + 1 ≤ l.countP p := by
  induction l with
  | nil => simp at he
  | cons a l ih =>
    have hmono : l.countP p' ≤ l.countP p :=
      List.countP_mono_left fun x _ hx => himp x hx
    simp only [List.countP_cons]
    rcases List.mem_cons.1 he with rfl | he
    · simp [hp, hp']; omega
    · have := ih he
      by_cases ha : p' a = true
      · simp [ha, himp a ha]; omega
      · simp [ha]; omega

theorem unvisitedCount_visit (g : Graph) (visited : String → Bool) (e : Edge)
    (he : e ∈ allEdges g) (hv : ¬ visited e.dst = true) :
    unvisitedCount g (setKey visited e.dst true) + 1 ≤ unvisitedCount g visited := by
  unfold unvisitedCount
  apply countP_flip _ _ _ e _ he
  · simpa using hv
  · simp [setKey]
  · intro x hx
    by_cases hxe : x.dst = e.dst
    · simp [setKey, hxe] at hx
    · simpa [setKey, hxe] using hx

theorem bfsExpand_measure (g : Graph) (curr : String) :
    ∀ (es : List Edge) (st : BfsState), (∀ e ∈ es, e ∈ allEdges g) →
      bfsMeasure g (bfsExpand curr es st) ≤ bfsMeasure g st := by
  intro es
  induction es with
  | nil => intro st _; simp [bfsExpand]
  | cons e es ih =>
    intro st hes
    have hes' : ∀ x ∈ es, x ∈ allEdges g := fun x hx => hes x (List.mem_cons_of_mem _ hx)
    by_cases hv : st.visited e.dst = true
    · simp only [bfsExpand, hv, if_true]
      exact ih st hes'
    · simp only [bfsExpand, hv]
      refine le_trans (ih _ hes') ?_
      have := unvisitedCount_visit g st.visited e (hes e (List.mem_cons_self _ _)) hv
      simp only [bfsMeasure, List.length_append, List.length_singleton]
      omega

theorem bfsLoop_terminates (g : Graph) (end_ : String) :
    ∀ (fuel : Nat) (st : BfsState), bfsMeasure g st < fuel →
      ∃ st', bfsLoop g end_ fuel st = some st' := by
  intro fuel
  induction fuel with
  | zero => intro st h; simp at h
  | succ n ih =>
    intro st h
    cases hq : st.q with
    | nil => exact ⟨st, by simp [bfsLoop, hq]⟩
    | cons curr rest =>
      by_cases hc : curr = end_
      · exact ⟨{ st with q := rest }, by simp [bfsLoop, hq, hc]⟩
      · simp only [bfsLoop, hq, hc, if_false]
        apply ih
        refine lt_of_le_of_lt
          (bfsExpand_measure g curr _ _ fun e he => graphAt_subset_allEdges g curr e he) ?_
        simp only [bfsMeasure, hq, List.length_cons] at h ⊢
        omega

/-! ## Breadth-first search: the invariant -/

theorem bfsInv_init (g : Graph) (start : String) :
    BfsInv g start (fun _ => 0) [] [] (bfsInit start) where
  vstart := by simp [bfsInit, setKey]
  lstart := rfl
  par := by intro v u h; simp [bfsInit] at h
  vis := by
    intro v hv hne
    simp [bfsInit, setKey, hne] at hv
  qvis := by
    intro v hv
    simp only [bfsInit, List.nil_append, List.mem_singleton] at hv
    simp [bfsInit, setKey, hv]
  sorted := by simp [bfsInit]
  span := by intro a _ b _; simp
  done := by
    intro u hu hnq
    by_cases hus : u = start
    · simp [bfsInit, hus] at hnq
    · simp [bfsInit, setKey, hus] at hu
  doneFront := by intro c hc; simp at hc
  low := by intro u _ _ a _; simp
  bound := by
    intro v _
    simp only [unvisitedCount, zero_add]
    exact List.countP_le_length _

theorem bfsInv_skip {g : Graph} {start curr : String} {lev : String → Nat}
    {doneEs : List Edge} {st : BfsState} (e : Edge)
    (h : BfsInv g start lev [curr] doneEs st) (hv : st.visited e.dst = true) :
    BfsInv g start lev [curr] (doneEs ++ [e]) st := by
  refine { h with doneFront := ?_ }
  intro c hc e' he'
  rcases List.mem_append.1 he' with he' | he'
  · exact h.doneFront c hc e' he'
  · simp only [List.mem_singleton] at he' hc
    subst he' hc
    refine ⟨hv, ?_⟩
    by_cases hq : e'.dst ∈ [c] ++ st.q
    · exact h.span c (by simp) _ hq
    · have := h.low _ hv hq c (by simp)
      omega

theorem bfsInv_visit {g : Graph} {start curr : String} {lev : String → Nat}
    {doneEs : List Edge} {st : BfsState} (e : Edge)
    (h : BfsInv g start lev [curr] doneEs st) (he : e ∈ graphAt g curr)
    (hv : ¬ st.visited e.dst = true) :
    BfsInv g start (setKey lev e.dst (lev curr + 1)) [curr]
      (doneEs ++ [e])
      { visited := setKey st.visited e.dst true
        parent := setKey st.parent e.dst (some curr)
        q := st.q ++ [e.dst] } := by
  have hcv : st.visited curr = true := h.qvis curr (by simp)
  have hlev : ∀ y, st.visited y = true →
      (setKey lev e.dst (lev curr + 1)) y = lev y := by
    intro y hy
    have : y ≠ e.dst := fun hh => hv (hh ▸ hy)
    simp [setKey, this]
  have hx : setKey lev e.dst (lev curr + 1) e.dst = lev curr + 1 := by simp [setKey]
  have hxs : e.dst ≠ start := fun hh => hv (hh ▸ h.vstart)
  have hxq : ∀ a ∈ [curr] ++ st.q, a ≠ e.dst := fun a ha hh => hv (hh ▸ h.qvis a ha)
  have hvis' : ∀ y, setKey st.visited e.dst true y = true → y ≠ e.dst → st.visited y = true := by
    intro y hy hne
    simpa [setKey, hne] using hy
  have hmono : ∀ y, st.visited y = true → setKey st.visited e.dst true y = true := by
    intro y hy
    simp only [setKey]
    split <;> simp [hy]
  have hcnt := unvisitedCount_visit g st.visited e (graphAt_subset_allEdges g curr e he) hv
  constructor
  · exact hmono _ h.vstart
  · rw [hlev _ h.vstart]
    exact h.lstart
  · intro v u hp
    by_cases hvx : v = e.dst
    · subst hvx
      simp only [setKey, if_true, Option.some.injEq] at hp
      subst hp
      refine ⟨hxs, by simp [setKey], hmono _ hcv, ⟨e, he, rfl⟩, ?_⟩
      rw [hlev _ hcv, hx]
    · simp only [setKey, hvx, if_false] at hp
      obtain ⟨h1, h2, h3, h4, h5⟩ := h.par v u hp
      refine ⟨h1, hmono _ h2, hmono _ h3, h4, ?_⟩
      rw [hlev _ h2, hlev _ h3]
      exact h5
  · intro v hv' hne
    by_cases hvx : v = e.dst
    · simp [setKey, hvx]
    · simp only [setKey, hvx, if_false]
      exact h.vis v (hvis' v hv' hvx) hne
  · intro v hv'
    simp only [← List.append_assoc] at hv'
    rcases List.mem_append.1 hv' with hv' | hv'
    · exact hmono _ (h.qvis v hv')
    · simp only [List.mem_singleton] at hv'
      simp [setKey, hv']
  · simp only [← List.append_assoc]
    rw [List.pairwise_append]
    refine ⟨?_, by simp, ?_⟩
    · refine List.Pairwise.imp_of_mem ?_ h.sorted
      intro a b ha hb hab
      rw [hlev a (h.qvis a ha), hlev b (h.qvis b hb)]
      exact hab
    · intro a ha b hb
      simp only [List.mem_singleton] at hb
      subst hb
      rw [hlev a (h.qvis a ha)]
      rw [hx]
      exact h.span curr (by simp) a ha
  · intro a ha b hb
    simp only [← List.append_assoc] at ha hb
    rcases List.mem_append.1 ha with ha | ha <;> rcases List.mem_append.1 hb with hb | hb
    · rw [hlev a (h.qvis a ha), hlev b (h.qvis b hb)]
      exact h.span a ha b hb
    · simp only [List.mem_singleton] at hb
      subst hb
      rw [hlev a (h.qvis a ha)]
      rw [hx]
      have := h.sorted
      simp only [List.singleton_append, List.pairwise_cons] at this
      simp only [List.singleton_append, List.mem_cons] at ha
      rcases ha with rfl | ha
      · omega
      · have := this.1 a ha
        omega
    · simp only [List.mem_singleton] at ha
      subst ha
      rw [hlev b (h.qvis b hb)]
      rw [hx]
      have := h.span curr (by simp) b hb
      omega
    · simp only [List.mem_singleton] at ha hb
      subst ha hb
      omega
  · intro u hu hnq e' he'
    simp only [← List.append_assoc, List.mem_append, List.mem_singleton, not_or] at hnq
    have hu' := hvis' u hu hnq.2
    have hnq' : u ∉ [curr] ++ st.q := by
      simpa [List.mem_append] using hnq.1
    obtain ⟨h1, h2⟩ := h.done u hu' hnq' e' he'
    refine ⟨hmono _ h1, ?_⟩
    rw [hlev _ h1, hlev _ hu']
    exact h2
  · intro c hc e' he'
    simp only [List.mem_singleton] at hc
    subst hc
    rcases List.mem_append.1 he' with he' | he'
    · obtain ⟨h1, h2⟩ := h.doneFront c (by simp) e' he'
      refine ⟨hmono _ h1, ?_⟩
      rw [hlev _ h1, hlev _ hcv]
      exact h2
    · simp only [List.mem_singleton] at he'
      subst he'
      refine ⟨by simp [setKey], ?_⟩
      rw [hlev _ hcv, hx]
  · intro u hu hnq a ha
    simp only [← List.append_assoc, List.mem_append, List.mem_singleton, not_or] at hnq
    have hu' := hvis' u hu hnq.2
    have hnq' : u ∉ [curr] ++ st.q := by
      simpa [List.mem_append] using hnq.1
    rw [hlev _ hu']
    simp only [← List.append_assoc] at ha
    rcases List.mem_append.1 ha with ha | ha
    · rw [hlev a (h.qvis a ha)]
      exact h.low u hu' hnq' a ha
    · simp only [List.mem_singleton] at ha
      subst ha
      rw [hx]
      have := h.low u hu' hnq' curr (by simp)
      omega
  · intro v hv'
    show setKey lev e.dst (lev curr + 1) v + unvisitedCount g (setKey st.visited e.dst true)
      ≤ (allEdges g).length
    by_cases hvx : v = e.dst
    · subst hvx
      rw [hx]
      have := h.bound curr hcv
      omega
    · rw [hlev v (hvis' v hv' hvx)]
      have := h.bound v (hvis' v hv' hvx)
      omega

theorem bfsInv_expand {g : Graph} {start curr : String} :
    ∀ (es doneEs : List Edge) (lev : String → Nat) (st : BfsState),
      BfsInv g start lev [curr] doneEs st → (∀ e ∈ es, e ∈ graphAt g curr) →
      ∃ lev', BfsInv g start lev' [curr] (doneEs ++ es) (bfsExpand curr es st) := by
  intro es
  induction es with
  | nil =>
    intro doneEs lev st h _
    exact ⟨lev, by simpa [bfsExpand] using h⟩
  | cons e es ih =>
    intro doneEs lev st h hes
    have hes' : ∀ x ∈ es, x ∈ graphAt g curr := fun x hx => hes x (List.mem_cons_of_mem _ hx)
    have he : e ∈ graphAt g curr := hes e (List.mem_cons_self _ _)
    have happ : doneEs ++ e :: es = (doneEs ++ [e]) ++ es := by simp
    rw [happ]
    by_cases hv : st.visited e.dst = true
    · simp only [bfsExpand, hv, if_true]
      exact ih _ lev st (bfsInv_skip e h hv) hes'
    · simp only [bfsExpand, hv]
      exact ih _ _ _ (bfsInv_visit e h he hv) hes'

theorem bfsInv_pop {g : Graph} {start curr : String} {lev : String → Nat}
    {st : BfsState} {rest : List String} (h : BfsInv g start lev [] [] st)
    (hq : st.q = curr :: rest) : BfsInv g start lev [curr] [] { st with q := rest } where
  vstart := h.vstart
  lstart := h.lstart
  par := h.par
  vis := h.vis
  qvis := by simpa [hq] using h.qvis
  sorted := by simpa [hq] using h.sorted
  span := by simpa [hq] using h.span
  done := by simpa [hq] using h.done
  doneFront := by intro c _ e he; simp at he
  low := by simpa [hq] using h.low
  bound := h.bound

theorem bfsInv_finish {g : Graph} {start curr : String} {lev : String → Nat}
    {st : BfsState} (h : BfsInv g start lev [curr] (graphAt g curr) st) :
    BfsInv g start lev [] [] st where
  vstart := h.vstart
  lstart := h.lstart
  par := h.par
  vis := h.vis
  qvis := fun v hv => h.qvis v (by simp at hv; simp [hv])
  sorted := by
    have := h.sorted
    simp only [List.singleton_append, List.pairwise_cons] at this
    simpa using this.2
  span := fun a ha b hb => h.span a (by simp at ha; simp [ha]) b (by simp at hb; simp [hb])
  done := by
    intro u hu hnq e he
    by_cases huc : u = curr
    · subst huc
      exact h.doneFront u (by simp) e he
    · exact h.done u hu (by simp at hnq; simp [huc, hnq]) e he
  doneFront := by intro c hc; simp at hc
  low := by
    intro u hu hnq a ha
    simp only [List.nil_append] at ha hnq
    by_cases huc : u = curr
    · subst huc
      have := h.sorted
      simp only [List.singleton_append, List.pairwise_cons] at this
      exact this.1 a ha
    · exact h.low u hu (by simp [huc, hnq]) a (by simp [ha])
  bound := h.bound

theorem bfsLoop_spec {g : Graph} {start end_ : String} :
    ∀ (fuel : Nat) (st st' : BfsState), (∃ lev, BfsInv g start lev [] [] st) →
      bfsLoop g end_ fuel st = some st' →
      ∃ lev st0, BfsInv g start lev [] [] st0 ∧ st'.parent = st0.parent ∧
        (st0.q = [] ∨ ∃ rest, st0.q = end_ :: rest) := by
  intro fuel
  induction fuel with
  | zero => intro st st' _ h; simp [bfsLoop] at h
  | succ n ih =>
    intro st st' hinv h
    obtain ⟨lev, hI⟩ := hinv
    cases hq : st.q with
    | nil =>
      simp only [bfsLoop, hq, Option.some.injEq] at h
      subst h
      exact ⟨lev, st, hI, rfl, Or.inl hq⟩
    | cons curr rest =>
      by_cases hc : curr = end_
      · simp only [bfsLoop, hq, hc, if_true, Option.some.injEq] at h
        subst h
        exact ⟨lev, st, hI, rfl, Or.inr ⟨rest, by rw [hq, hc]⟩⟩
      · simp only [bfsLoop, hq, hc, if_false] at h
        obtain ⟨lev', hI'⟩ := bfsInv_expand (graphAt g curr) [] lev _ (bfsInv_pop hI hq)
          (fun e he => he)
        exact ih _ st' ⟨lev', bfsInv_finish (by simpa using hI')⟩ h

/-! ## Breadth-first search: results -/

theorem bfsInv_treePath {g : Graph} {start : String} {lev : String → Nat}
    {st : BfsState} (h : BfsInv g start lev [] [] st) :
    ∀ (n : Nat) (v : String), lev v = n → st.visited v = true →
      ∃ p, TreePath st.parent start v p ∧ p.length = n + 1 := by
  intro n
  induction n with
  | zero =>
    intro v hl hv
    by_cases hvs : v = start
    · subst hvs; exact ⟨[v], TreePath.base, rfl⟩
    · cases hp : st.parent v with
      | none => exact absurd hp (h.vis v hv hvs)
      | some u =>
        have := (h.par v u hp).2.2.2.2
        omega
  | succ n ih =>
    intro v hl hv
    by_cases hvs : v = start
    · subst hvs
      have := h.lstart
      omega
    · cases hp : st.parent v with
      | none => exact absurd hp (h.vis v hv hvs)
      | some u =>
        obtain ⟨_, _, hu, _, hlev⟩ := h.par v u hp
        obtain ⟨p, hp', hlen⟩ := ih u (by omega) hu
        exact ⟨p ++ [v], TreePath.step hvs hp hp', by simp [hlen]⟩

theorem walk_closed {g : Graph} (visited : String → Bool) (lev : String → Nat)
    (hdone : ∀ u, visited u = true → ∀ e ∈ graphAt g u,
      visited e.dst = true ∧ lev e.dst ≤ lev u + 1) :
    ∀ (es : List Edge) (u v : String), IsWalk g u es v → visited u = true →
      visited v = true ∧ lev v ≤ lev u + es.length := by
  intro es
  induction es with
  | nil =>
    intro u v h hu
    simp only [IsWalk] at h
    subst h
    exact ⟨hu, by simp⟩
  | cons e es ih =>
    intro u v h hu
    simp only [IsWalk] at h
    obtain ⟨h1, h2⟩ := hdone u hu e h.1
    obtain ⟨h3, h4⟩ := ih _ _ h.2 h1
    refine ⟨h3, ?_⟩
    simp only [List.length_cons]
    omega

theorem bfsInv_exit {g : Graph} {start end_ : String} {lev : String → Nat}
    {st : BfsState} (h : BfsInv g start lev [] [] st)
    (hexit : st.q = [] ∨ ∃ rest, st.q = end_ :: rest) :
    ∀ es, IsWalk g start es end_ → st.visited end_ = true ∧ lev end_ ≤ es.length := by
  intro es hw
  rcases hexit with hq | ⟨rest, hq⟩
  · have := walk_closed st.visited lev
      (fun u hu e he => h.done u hu (by simp [hq]) e he) es start end_ hw h.vstart
    rw [h.lstart] at this
    simpa using this
  · have hend : st.visited end_ = true := h.qvis end_ (by simp [hq])
    refine ⟨hend, ?_⟩
    have hφ : ∀ u, ∀ e ∈ graphAt g u,
        (fun x => if st.visited x = true then min (lev x) (lev end_) else lev end_) e.dst ≤
          (fun x => if st.visited x = true then min (lev x) (lev end_) else lev end_) u + 1 := by
      intro u e he
      simp only
      by_cases hu : st.visited u = true
      · by_cases huq : u ∈ [] ++ st.q
        · have hle : lev end_ ≤ lev u := by
            have hs := h.sorted
            simp only [hq, List.nil_append, List.pairwise_cons] at hs
            simp only [hq, List.nil_append, List.mem_cons] at huq
            rcases huq with rfl | huq
            · exact le_refl _
            · exact hs.1 u huq
          rw [if_pos hu]
          split <;> omega
        · obtain ⟨h1, h2⟩ := h.done u hu huq e he
          rw [if_pos hu, if_pos h1]
          omega
      · rw [if_neg hu]
        split <;> omega
    have := walk_potential
      (fun x => if st.visited x = true then min (lev x) (lev end_) else lev end_)
      hφ es start end_ hw
    simp only [h.vstart, hend, if_true, h.lstart] at this
    omega

theorem bfsLeastStops_some {g : Graph} {start end_ : String} {fuel : Nat}
    {r : List String} (h : bfsLeastStops g fuel start end_ = some r) :
    ∃ lev st0, BfsInv g start lev [] [] st0 ∧
      (st0.q = [] ∨ ∃ rest, st0.q = end_ :: rest) ∧
      reconstructPath st0.parent start end_ fuel = some r := by
  unfold bfsLeastStops at h
  cases hl : bfsLoop g end_ fuel (bfsInit start) with
  | none => rw [hl] at h; simp at h
  | some st' =>
    rw [hl] at h
    obtain ⟨lev, st0, hI, hp, hexit⟩ :=
      bfsLoop_spec fuel _ st' ⟨_, bfsInv_init g start⟩ hl
    exact ⟨lev, st0, hI, hexit, by rw [← hp]; exact h⟩

/-- Whatever `bfsLeastStops` returns is empty or a path of the graph that no
walk undercuts. -/
theorem bfsLeastStops_sound {g : Graph} {start end_ : String} {fuel : Nat}
    {r : List String} (h : bfsLeastStops g fuel start end_ = some r) :
    (r = [] ∧ ¬ Reachable g start end_) ∨
    (IsPath g start end_ r ∧ r.Nodup ∧
      ∀ es, IsWalk g start es end_ → r.length ≤ es.length + 1) := by
  obtain ⟨lev, st0, hI, hexit, hrec⟩ := bfsLeastStops_some h
  have hlink : ∀ y u, st0.parent y = some u → Linked g u y :=
    fun y u hp => (hI.par y u hp).2.2.2.1
  by_cases hv : st0.visited end_ = true
  · obtain ⟨p, hp, hlen⟩ := bfsInv_treePath hI (lev end_) end_ rfl hv
    have hr : r = p := reconstructPath_treePath_some hp hrec
    subst hr
    right
    refine ⟨treePath_isPath hp hlink, treePath_nodup hp, ?_⟩
    intro es hw
    have := (bfsInv_exit hI hexit es hw).2
    omega
  · left
    have hnr : ¬ Reachable g start end_ := by
      rintro ⟨es, hw⟩
      exact hv (bfsInv_exit hI hexit es hw).1
    refine ⟨?_, hnr⟩
    rcases reconstructPath_some hrec with h0 | hr
    · exact h0
    · exfalso
      obtain ⟨es, hw, _⟩ := treePath_walk hr hlink
      exact hnr ⟨es, hw⟩

/-- With fuel `bfsFuel g` or more, `bfsLeastStops` returns. -/
theorem bfsLeastStops_returns (g : Graph) (start end_ : String) (fuel : Nat)
    (hf : bfsFuel g ≤ fuel) : ∃ r, bfsLeastStops g fuel start end_ = some r := by
  have hm : bfsMeasure g (bfsInit start) < fuel := by
    have : unvisitedCount g (bfsInit start).visited ≤ (allEdges g).length :=
      List.countP_le_length _
    simp only [bfsMeasure, bfsFuel] at *
    simp only [bfsInit, List.length_singleton] at *
    omega
  obtain ⟨st', hl⟩ := bfsLoop_terminates g end_ fuel _ hm
  obtain ⟨lev, st0, hI, hp, _⟩ := bfsLoop_spec fuel _ st' ⟨_, bfsInv_init g start⟩ hl
  unfold bfsLeastStops
  rw [hl]
  simp only
  rw [hp]
  by_cases hv : st0.visited end_ = true
  · obtain ⟨p, hp', hlen⟩ := bfsInv_treePath hI (lev end_) end_ rfl hv
    refine ⟨p, reconstructPath_of_treePath hp' fuel ?_⟩
    have := hI.bound end_ hv
    simp only [bfsFuel] at hf
    omega
  · have hne : end_ ≠ start := fun hh => hv (hh ▸ hI.vstart)
    have hpar : st0.parent end_ = none := by
      cases hq : st0.parent end_ with
      | none => rfl
      | some u => exact absurd (hI.par end_ u hq).2.1 hv
    have hfuel : fuel ≠ 0 := by simp only [bfsFuel] at hf; omega
    obtain ⟨n, rfl⟩ := Nat.exists_eq_succ_of_ne_zero hfuel
    exact ⟨[], reconstructPath_dead hne hpar n⟩

/-! ## Weighted search: termination and general invariant -/

theorem wrapInt_inRange (x : Int) : inRange (wrapInt x) := by
  unfold inRange wrapInt
  constructor <;> omega

theorem wrapInt_eq {x : Int} (h : inRange x) : wrapInt x = x := by
  unfold inRange at h
  unfold wrapInt
  omega

theorem sum_map_drop {α : Type} (f f' : α → Nat) (l : List α) (e : α)
    (hle : ∀ y, f' y ≤ f y) (he : e ∈ l) (hlt : f' e < f e) :
    (l.map f').sum + 1 ≤ (l.map f).sum := by
  induction l with
  | nil => simp at he
  | cons a l ih =>
    have hmono : (l.map f').sum ≤ (l.map f).sum :=
      List.sum_le_sum fun y _ => hle y
    simp only [List.map_cons, List.sum_cons]
    rcases List.mem_cons.1 he with rfl | he
    · omega
    · have := ih he
      have := hle a
      omega

theorem costSum_relax (g : Graph) (cost : String → Int) (e : Edge) (c : Int)
    (he : e ∈ allEdges g) (hr : ∀ v, inRange (cost v)) (hc : inRange c)
    (hlt : c < cost e.dst) :
    costSum g (setKey cost e.dst c) + 1 ≤ costSum g cost := by
  unfold costSum
  apply sum_map_drop _ _ _ e _ he
  · have := hr e.dst
    unfold inRange at this hc
    simp only [setKey, if_true]
    omega
  · intro y
    have := hr y.dst
    unfold inRange at this hc
    simp only [setKey]
    split
    · rename_i hy
      have h2 : cost y.dst = cost e.dst := by rw [hy]
      omega
    · exact le_refl _

theorem relaxEdges_gen (P : MinQueue) (g : Graph) (criteria curr : String) :
    ∀ (es : List Edge) (st : DState P), (∀ e ∈ es, e ∈ graphAt g curr) → DGen P g st →
      DGen P g (relaxEdges P criteria curr es st) ∧
        dijkstraMeasure P g (relaxEdges P criteria curr es st) ≤ dijkstraMeasure P g st := by
  intro es
  induction es with
  | nil => intro st _ h; exact ⟨h, le_refl _⟩
  | cons e es ih =>
    intro st hes h
    have hes' : ∀ x ∈ es, x ∈ graphAt g curr := fun x hx => hes x (List.mem_cons_of_mem _ hx)
    have he : e ∈ graphAt g curr := hes e (List.mem_cons_self _ _)
    by_cases hc : wrapInt (st.cost curr + weightOf criteria e) < st.cost e.dst
    · simp only [relaxEdges, hc, if_true]
      have hgen : DGen P g
          { cost := setKey st.cost e.dst (wrapInt (st.cost curr + weightOf criteria e))
            parent := setKey st.parent e.dst (some curr)
            pq := P.push (setKey st.cost e.dst (wrapInt (st.cost curr + weightOf criteria e))
              e.dst, e.dst) st.pq } := by
        constructor
        · intro v
          simp only [setKey]
          split
          · exact wrapInt_inRange _
          · exact h.range v
        · intro v u hp
          simp only [setKey] at hp
          split at hp
          · rename_i hv
            simp only [Option.some.injEq] at hp
            subst hp hv
            exact ⟨e, he, rfl⟩
          · exact h.link v u hp
      obtain ⟨h1, h2⟩ := ih _ hes' hgen
      refine ⟨h1, le_trans h2 ?_⟩
      have hsum := costSum_relax g st.cost e _ (graphAt_subset_allEdges g curr e he) h.range
        (wrapInt_inRange _) hc
      have hlen := (P.toList_push (setKey st.cost e.dst
        (wrapInt (st.cost curr + weightOf criteria e)) e.dst, e.dst) st.pq).length_eq
      simp only [dijkstraMeasure, hlen, List.length_cons]
      omega
    · simp only [relaxEdges, hc, if_false]
      exact ih st hes' h

theorem dijkstraLoop_terminates (P : MinQueue) (g : Graph) (end_ criteria : String) :
    ∀ (fuel : Nat) (st : DState P), DGen P g st → dijkstraMeasure P g st < fuel →
      ∃ st', dijkstraLoop P g end_ criteria fuel st = some st' := by
  intro fuel
  induction fuel with
  | zero => intro st _ h; simp at h
  | succ n ih =>
    intro st hgen h
    cases hpop : P.pop st.pq with
    | none => exact ⟨st, by simp [dijkstraLoop, hpop]⟩
    | some r =>
      obtain ⟨top, rest⟩ := r
      by_cases hc : top.2 = end_
      · exact ⟨{ st with pq := rest }, by simp [dijkstraLoop, hpop, hc]⟩
      · simp only [dijkstraLoop, hpop, hc, if_false]
        have hlen := (P.pop_some _ _ _ hpop).1.length_eq
        have hgen' : DGen P g { st with pq := rest } := ⟨hgen.range, hgen.link⟩
        obtain ⟨h1, h2⟩ := relaxEdges_gen P g criteria top.2 (graphAt g top.2)
          { st with pq := rest } (fun e he => he) hgen'
        apply ih _ h1
        refine lt_of_le_of_lt h2 ?_
        simp only [dijkstraMeasure, List.length_cons] at h hlen ⊢
        omega

/-- Invariant rule for the `while` loop of `dijkstra`: the loop ends in a state
`st0` of the invariant in which the queue is empty or delivers `end_`. -/
theorem dijkstraLoop_rule (P : MinQueue) (g : Graph) (end_ criteria : String)
    (I : DState P → Prop)
    (hstep : ∀ st top rest, I st → P.pop st.pq = some (top, rest) → top.2 ≠ end_ →
      I (relaxEdges P criteria top.2 (graphAt g top.2) { st with pq := rest })) :
    ∀ (fuel : Nat) (st st' : DState P), I st →
      dijkstraLoop P g end_ criteria fuel st = some st' →
      ∃ st0, I st0 ∧ st'.parent = st0.parent ∧ st'.cost = st0.cost ∧
        (P.pop st0.pq = none ∨ ∃ top rest, P.pop st0.pq = some (top, rest) ∧ top.2 = end_) := by
  intro fuel
  induction fuel with
  | zero => intro st st' _ h; simp [dijkstraLoop] at h
  | succ n ih =>
    intro st st' hI h
    cases hpop : P.pop st.pq with
    | none =>
      simp only [dijkstraLoop, hpop, Option.some.injEq] at h
      subst h
      exact ⟨st, hI, rfl, rfl, Or.inl hpop⟩
    | some r =>
      obtain ⟨top, rest⟩ := r
      by_cases hc : top.2 = end_
      · simp only [dijkstraLoop, hpop, hc, if_true, Option.some.injEq] at h
        subst h
        exact ⟨st, hI, rfl, rfl, Or.inr ⟨top, rest, hpop, hc⟩⟩
      · simp only [dijkstraLoop, hpop, hc, if_false] at h
        exact ih _ st' (hstep st top rest hI hpop hc) h

theorem dGen_init (P : MinQueue) (g : Graph) (start : String) :
    DGen P g (dijkstraInit P g start) where
  range := by
    intro v
    simp only [dijkstraInit, setKey, inRange, INT_MAX]
    split
    · omega
    · split <;> omega
  link := by intro v u h; simp [dijkstraInit] at h

theorem dGen_step (P : MinQueue) (g : Graph) (criteria : String) (st : DState P)
    (top : Int × String) (rest : P.Q) (h : DGen P g st) :
    DGen P g (relaxEdges P criteria top.2 (graphAt g top.2) { st with pq := rest }) :=
  (relaxEdges_gen P g criteria top.2 (graphAt g top.2) { st with pq := rest }
    (fun _ he => he) ⟨h.range, h.link⟩).1

theorem costSum_le (g : Graph) (cost : String → Int) (hr : ∀ v, inRange (cost v)) :
    costSum g cost ≤ 4294967295 * (allEdges g).length := by
  unfold costSum
  have := List.sum_le_card_nsmul ((allEdges g).map (fun e => (cost e.dst + 2147483648).toNat))
    4294967295 (by
      intro x hx
      simp only [List.mem_map] at hx
      obtain ⟨e', _, rfl⟩ := hx
      have := hr e'.dst
      unfold inRange at this
      omega)
  simpa [mul_comm] using this

theorem dijkstraInit_measure (P : MinQueue) (g : Graph) (start : String) :
    dijkstraMeasure P g (dijkstraInit P g start) < dijkstraFuel g := by
  have h1 := costSum_le g (dijkstraInit P g start).cost (dGen_init P g start).range
  have h2 : (P.toList (dijkstraInit P g start).pq).length = 1 := by
    have := (P.toList_push (0, start) P.empty).length_eq
    simpa [dijkstraInit, P.toList_empty] using this
  simp only [dijkstraMeasure, dijkstraFuel, h2]
  omega

/-- With fuel `dijkstraFuel g` or more the `while` loop of `dijkstra` ends, on
every graph and for every criterion. -/
theorem dijkstraLoop_returns (P : MinQueue) (g : Graph) (start end_ criteria : String)
    (fuel : Nat) (hf : dijkstraFuel g ≤ fuel) :
    ∃ st', dijkstraLoop P g end_ criteria fuel (dijkstraInit P g start) = some st' :=
  dijkstraLoop_terminates P g end_ criteria fuel _ (dGen_init P g start)
    (lt_of_lt_of_le (dijkstraInit_measure P g start) hf)

theorem dijkstra_some {P : MinQueue} {g : Graph} {start end_ criteria : String}
    {fuel : Nat} {r : List String} (h : dijkstra P g fuel start end_ criteria = some r) :
    ∃ st0, DGen P g st0 ∧ reconstructPath st0.parent start end_ fuel = some r := by
  unfold dijkstra at h
  cases hl : dijkstraLoop P g end_ criteria fuel (dijkstraInit P g start) with
  | none => rw [hl] at h; simp at h
  | some st' =>
    rw [hl] at h
    obtain ⟨st0, hI, hp, _, _⟩ := dijkstraLoop_rule P g end_ criteria (DGen P g)
      (fun st top rest hI _ _ => dGen_step P g criteria st top rest hI)
      fuel _ st' (dGen_init P g start) hl
    exact ⟨st0, hI, by rw [← hp]; exact h⟩

/-- Whatever `dijkstra` returns, on any graph and with any weights, is empty
or a path of the graph from `start` to `end_` without repeated station. -/
theorem dijkstra_sound {P : MinQueue} {g : Graph} {start end_ criteria : String}
    {fuel : Nat} {r : List String} (h : dijkstra P g fuel start end_ criteria = some r) :
    r = [] ∨ (IsPath g start end_ r ∧ r.Nodup) := by
  obtain ⟨st0, hI, hrec⟩ := dijkstra_some h
  rcases reconstructPath_some hrec with h0 | hr
  · exact Or.inl h0
  · exact Or.inr ⟨treePath_isPath hr hI.link, treePath_nodup hr⟩

theorem isPath_walk {g : Graph} :
    ∀ (p : List String) (u v : String), IsPath g u v p →
      ∃ es, IsWalk g u es v ∧ es.length + 1 = p.length := by
  intro p
  induction p with
  | nil => intro u v h; simp [IsPath] at h
  | cons a p ih =>
    intro u v h
    obtain ⟨h1, h2, h3⟩ := h
    simp only [List.head?_cons, Option.some.injEq] at h1
    subst h1
    cases p with
    | nil =>
      simp only [List.getLast?_singleton, Option.some.injEq] at h2
      subst h2
      exact ⟨[], by simp [IsWalk], rfl⟩
    | cons b p =>
      rw [List.chain'_cons] at h3
      obtain ⟨e, he, hdst⟩ := h3.1
      have h2' : (b :: p).getLast? = some v := by
        rw [List.getLast?_cons_cons] at h2; exact h2
      obtain ⟨es, hw, hlen⟩ := ih b v ⟨rfl, h2', h3.2⟩
      refine ⟨e :: es, ?_, by simp [hlen]⟩
      simp only [IsWalk]
      exact ⟨he, by rw [hdst]; exact hw⟩

theorem isPath_reachable {g : Graph} {p : List String} {u v : String}
    (h : IsPath g u v p) : Reachable g u v := by
  obtain ⟨es, hw, _⟩ := isPath_walk p u v h
  exact ⟨es, hw⟩

theorem graphAt_of_not_key (g : Graph) (x : String) (h : x ∉ graphKeys g) :
    graphAt g x = [] := by
  induction g with
  | nil => rfl
  | cons a rest ih =>
    obtain ⟨k, es⟩ := a
    simp only [graphKeys, List.map_cons, List.mem_cons, not_or] at h
    simp only [graphAt]
    rw [if_neg (fun hh => h.1 hh.symm)]
    exact ih h.2

theorem isWalk_last {g : Graph} :
    ∀ (es : List Edge) (u v : String), IsWalk g u es v → u ≠ v →
      ∃ e ∈ allEdges g, e.dst = v := by
  intro es
  induction es with
  | nil => intro u v h hne; exact absurd h hne
  | cons e es ih =>
    intro u v h hne
    simp only [IsWalk] at h
    by_cases hd : e.dst = v
    · exact ⟨e, graphAt_subset_allEdges g u e h.1, hd⟩
    · exact ih _ _ h.2 hd

/-! ## Weighted search: weights of walks -/

theorem walkWeight_append (criteria : String) (es es' : List Edge) :
    walkWeight criteria (es ++ es') = walkWeight criteria es + walkWeight criteria es' := by
  simp [walkWeight]

/-- A potential that grows by at most the weight along every connection grows
by at most the weight of a walk along it. -/
theorem walk_potential_int {g : Graph} (criteria : String) (φ : String → Int)
    (hφ : ∀ u, ∀ e ∈ graphAt g u, φ e.dst ≤ φ u + weightOf criteria e) :
    ∀ (es : List Edge) (u v : String), IsWalk g u es v →
      φ v ≤ φ u + walkWeight criteria es := by
  intro es
  induction es with
  | nil =>
    intro u v h
    simp only [IsWalk] at h
    subst h
    simp [walkWeight]
  | cons e es ih =>
    intro u v h
    simp only [IsWalk] at h
    have h1 := hφ u e h.1
    have h2 := ih _ _ h.2
    simp only [walkWeight, List.map_cons, List.sum_cons] at h2 ⊢
    omega

/-- Sum of the weights of the connections stored at one station. -/
theorem weight_le_sum (criteria : String) (l : List Edge)
    (hnn : ∀ e ∈ l, 0 ≤ weightOf criteria e) :
    0 ≤ (l.map (weightOf criteria)).sum ∧
      ∀ e ∈ l, weightOf criteria e ≤ (l.map (weightOf criteria)).sum := by
  induction l with
  | nil => simp
  | cons a l ih =>
    obtain ⟨h0, h1⟩ := ih fun e he => hnn e (List.mem_cons_of_mem _ he)
    have ha := hnn a (List.mem_cons_self _ _)
    simp only [List.map_cons, List.sum_cons]
    refine ⟨by omega, ?_⟩
    intro e he
    rcases List.mem_cons.1 he with rfl | he
    · omega
    · have := h1 e he
      omega

theorem outSum_le_total (criteria : String) :
    ∀ (g : Graph), (∀ e ∈ allEdges g, 0 ≤ weightOf criteria e) →
      ∀ (S : List String), S.Nodup →
        (S.map (fun s => ((graphAt g s).map (weightOf criteria)).sum)).sum ≤
          totalWeight criteria g ∧ 0 ≤ totalWeight criteria g := by
  intro g
  induction g with
  | nil =>
    intro _ S _
    simp [graphAt, totalWeight, allEdges]
  | cons a rest ih =>
    obtain ⟨k, l⟩ := a
    intro hnn S hS
    have hnnl : ∀ e ∈ l, 0 ≤ weightOf criteria e := fun e he =>
      hnn e (by simp [allEdges, he])
    have hnnr : ∀ e ∈ allEdges rest, 0 ≤ weightOf criteria e := fun e he =>
      hnn e (by simp [allEdges, he])
    have hl0 := (weight_le_sum criteria l hnnl).1
    have htot : totalWeight criteria ((k, l) :: rest) =
        (l.map (weightOf criteria)).sum + totalWeight criteria rest := by
      simp [totalWeight, allEdges]
    rw [htot]
    refine ⟨?_, by have := (ih hnnr [] List.nodup_nil).2; omega⟩
    have key : ∀ (S : List String), S.Nodup →
        (S.map (fun s => ((graphAt ((k, l) :: rest) s).map (weightOf criteria)).sum)).sum ≤
          (if k ∈ S then (l.map (weightOf criteria)).sum else 0) +
            (S.map (fun s => ((graphAt rest s).map (weightOf criteria)).sum)).sum := by
      intro S
      induction S with
      | nil => intro _; simp
      | cons s S ihS =>
        intro hS
        rw [List.nodup_cons] at hS
        have h1 := ihS hS.2
        have hr0 := (weight_le_sum criteria (graphAt rest s)
          (fun e he => hnnr e (graphAt_subset_allEdges rest s e he))).1
        simp only [List.map_cons, List.sum_cons, graphAt]
        by_cases hks : k = s
        · subst hks
          rw [if_neg hS.1] at h1
          simp only [if_true, List.mem_cons, true_or]
          simp only [graphAt] at h1
          omega
        · have hmem : (k ∈ s :: S) ↔ k ∈ S := by
            simp [List.mem_cons, hks]
          simp only [hks, if_false, hmem]
          simp only [graphAt] at h1
          omega
    have h2 := key S hS
    have h3 := (ih hnnr S hS).1
    split at h2 <;> omega

theorem sources_bound (criteria : String) (g : Graph)
    (hnn : ∀ e ∈ allEdges g, 0 ≤ weightOf criteria e) :
    ∀ (S : List String) (es : List Edge),
      List.Forall₂ (fun s e => e ∈ graphAt g s) S es → S.Nodup →
      walkWeight criteria es ≤ totalWeight criteria g := by
  intro S es hF hS
  refine le_trans ?_ (outSum_le_total criteria g hnn S hS).1
  clear hS
  induction hF with
  | nil => simp [walkWeight]
  | @cons s e S es hse _ ih =>
    have := (weight_le_sum criteria (graphAt g s)
      (fun x hx => hnn x (graphAt_subset_allEdges g s x hx))).2 e hse
    simp only [walkWeight, List.map_cons, List.sum_cons] at ih ⊢
    omega

/-! ## Weighted search: parent chains -/

theorem treePath_length_le {g : Graph} {parent : String → Option String} {start v : String}
    {p : List String} (h : TreePath parent start v p)
    (hlink : ∀ y u, parent y = some u → Linked g u y) :
    p.length ≤ (allEdges g).length + 1 := by
  have hsub : p ⊆ start :: (allEdges g).map Edge.dst := by
    induction h with
    | base => simp
    | @step v u p _ hpar _ ih =>
      intro y hy
      rcases List.mem_append.1 hy with hy | hy
      · exact ih hy
      · simp only [List.mem_singleton] at hy
        subst hy
        obtain ⟨e, he, hd⟩ := hlink y u hpar
        exact List.mem_cons_of_mem _
          (List.mem_map.2 ⟨e, graphAt_subset_allEdges g u e he, hd⟩)
  have := (List.subperm_of_subset (treePath_nodup h) hsub).length_le
  simpa using this

theorem treePath_sources {g : Graph} {parent : String → Option String} {start v : String}
    {p : List String} (h : TreePath parent start v p)
    (hlink : ∀ y u, parent y = some u → Linked g u y) :
    ∃ es, IsWalk g start es v ∧ List.Forall₂ (fun s e => e ∈ graphAt g s) p.dropLast es := by
  induction h with
  | base => exact ⟨[], by simp [IsWalk], by simp⟩
  | @step v u p _ hpar hp ih =>
    obtain ⟨es, hw, hF⟩ := ih
    obtain ⟨e, he, hd⟩ := hlink v u hpar
    refine ⟨es ++ [e], ?_, ?_⟩
    · have := isWalk_snoc hw he
      rwa [hd] at this
    · rw [List.dropLast_concat]
      have hp' : p.dropLast ++ [u] = p :=
        List.dropLast_append_getLast? u (treePath_getLast hp)
      rw [← hp']
      exact List.rel_append hF (List.Forall₂.cons he List.Forall₂.nil)

/-- The walk along the parent chain of `v`, extended by any connection stored
at `v`, weighs no more than all stored connections together. -/
theorem treePath_room {g : Graph} {criteria : String} {parent : String → Option String}
    {start v : String} {p : List String} (h : TreePath parent start v p)
    (hlink : ∀ y u, parent y = some u → Linked g u y)
    (hnn : ∀ e ∈ allEdges g, 0 ≤ weightOf criteria e) :
    ∃ es, IsWalk g start es v ∧ walkWeight criteria es ≤ totalWeight criteria g ∧
      ∀ e ∈ graphAt g v, walkWeight criteria es + weightOf criteria e ≤
        totalWeight criteria g := by
  obtain ⟨es, hw, hF⟩ := treePath_sources h hlink
  have hnd := treePath_nodup h
  have hp' : p.dropLast ++ [v] = p := List.dropLast_append_getLast? v (treePath_getLast h)
  refine ⟨es, hw, ?_, ?_⟩
  · apply sources_bound criteria g hnn _ _ hF
    rw [← hp'] at hnd
    exact (List.nodup_append.1 hnd).1
  · intro e he
    have hF' : List.Forall₂ (fun s e => e ∈ graphAt g s) p (es ++ [e]) := by
      rw [← hp']
      exact List.rel_append hF (List.Forall₂.cons he List.Forall₂.nil)
    have := sources_bound criteria g hnn _ _ hF' hnd
    rw [walkWeight_append] at this
    simpa [walkWeight] using this

theorem treePath_cost_le {g : Graph} {criteria : String} {parent : String → Option String}
    {cost : String → Int} {start v : String} {p : List String}
    (h : TreePath parent start v p)
    (hpar : ∀ v u, parent v = some u →
      v ≠ start ∧ ∃ e ∈ graphAt g u, e.dst = v ∧ cost u + weightOf criteria e ≤ cost v)
    (hnn : ∀ e ∈ allEdges g, 0 ≤ weightOf criteria e) :
    ∀ y ∈ p, cost y ≤ cost v := by
  induction h with
  | base => intro y hy; simp only [List.mem_singleton] at hy; rw [hy]
  | @step v u p _ hp _ ih =>
    intro y hy
    obtain ⟨_, e, he, _, hc⟩ := hpar v u hp
    have := hnn e (graphAt_subset_allEdges g u e he)
    rcases List.mem_append.1 hy with hy | hy
    · have := ih y hy
      omega
    · simp only [List.mem_singleton] at hy
      rw [hy]

theorem leastOf_le (ws : List Int) :
    ∀ w, leastOf w ws ≤ w ∧ ∀ x ∈ ws, leastOf w ws ≤ x := by
  induction ws with
  | nil => intro w; simp [leastOf]
  | cons a ws ih =>
    intro w
    obtain ⟨h1, h2⟩ := ih (min w a)
    simp only [leastOf, List.foldl_cons] at h1 h2 ⊢
    refine ⟨le_trans h1 (min_le_left _ _), ?_⟩
    intro x hx
    rcases List.mem_cons.1 hx with rfl | hx
    · exact le_trans h1 (min_le_right _ _)
    · exact h2 x hx

theorem hopWeight_le (g : Graph) (criteria u v : String) (e : Edge)
    (he : e ∈ graphAt g u) (hd : e.dst = v) :
    hopWeight g criteria u v ≤ weightOf criteria e := by
  have hmem : weightOf criteria e ∈
      ((graphAt g u).filter (fun e => e.dst = v)).map (weightOf criteria) :=
    List.mem_map.2 ⟨e, List.mem_filter.2 ⟨he, by simp [hd]⟩, rfl⟩
  unfold hopWeight
  cases hl : ((graphAt g u).filter (fun e => e.dst = v)).map (weightOf criteria) with
  | nil => rw [hl] at hmem; simp at hmem
  | cons w ws =>
    rw [hl] at hmem
    simp only
    rcases List.mem_cons.1 hmem with h | h
    · rw [h]; exact (leastOf_le ws w).1
    · exact (leastOf_le ws w).2 _ h

theorem pathWeight_snoc (g : Graph) (criteria : String) :
    ∀ (p : List String) (u v : String), p.getLast? = some u →
      pathWeight g criteria (p ++ [v]) = pathWeight g criteria p + hopWeight g criteria u v := by
  intro p
  induction p with
  | nil => intro u v h; simp at h
  | cons a p ih =>
    intro u v h
    cases p with
    | nil =>
      simp only [List.getLast?_singleton, Option.some.injEq] at h
      subst h
      simp [pathWeight]
    | cons b p =>
      rw [List.getLast?_cons_cons] at h
      have := ih u v h
      rw [List.cons_append] at this
      show hopWeight g criteria a b + pathWeight g criteria (b :: (p ++ [v])) =
        hopWeight g criteria a b + pathWeight g criteria (b :: p) + hopWeight g criteria u v
      rw [this]
      omega

theorem treePath_weight {g : Graph} {criteria : String} {parent : String → Option String}
    {cost : String → Int} {start v : String} {p : List String}
    (h : TreePath parent start v p)
    (hpar : ∀ v u, parent v = some u →
      v ≠ start ∧ ∃ e ∈ graphAt g u, e.dst = v ∧ cost u + weightOf criteria e ≤ cost v) :
    pathWeight g criteria p + cost start ≤ cost v := by
  induction h with
  | base => simp [pathWeight]
  | @step v u p _ hp hpu ih =>
    obtain ⟨_, e, he, hd, hc⟩ := hpar v u hp
    rw [pathWeight_snoc g criteria p u v (treePath_getLast hpu)]
    have := hopWeight_le g criteria u v e he hd
    omega

theorem treePath_update {parent : String → Option String} {start x c : String}
    {px : List String} (hx : TreePath (setKey parent x (some c)) start x px)
    {v : String} {p : List String} (h : TreePath parent start v p) :
    ∃ p', TreePath (setKey parent x (some c)) start v p' := by
  induction h with
  | base => exact ⟨_, TreePath.base⟩
  | @step v u p hne hpar _ ih =>
    obtain ⟨p', hp'⟩ := ih
    by_cases hvx : v = x
    · subst hvx; exact ⟨px, hx⟩
    · exact ⟨p' ++ [v], TreePath.step hne (by simp [setKey, hvx, hpar]) hp'⟩

/-! ## Weighted search: the invariant -/

theorem mem_toList_push (P : MinQueue) (a y : Int × String) (q : P.Q) :
    y ∈ P.toList (P.push a q) ↔ y = a ∨ y ∈ P.toList q :=
  (P.toList_push a q).mem_iff.trans List.mem_cons

theorem mem_toList_pop {P : MinQueue} {q rest : P.Q} {top : Int × String}
    (h : P.pop q = some (top, rest)) (y : Int × String) :
    y ∈ P.toList q ↔ y = top ∨ y ∈ P.toList rest :=
  (P.pop_some q top rest h).1.mem_iff.trans List.mem_cons

theorem dInv_link {P : MinQueue} {g : Graph} {criteria start : String}
    {front : List String} {doneEs : List Edge} {st : DState P}
    (h : DInv P g criteria start front doneEs st) :
    ∀ y u, st.parent y = some u → Linked g u y := by
  intro y u hp
  obtain ⟨_, e, he, hd, _⟩ := h.par y u hp
  exact ⟨e, he, hd⟩

theorem dInv_treePath {P : MinQueue} {g : Graph} {criteria start : String}
    {front : List String} {doneEs : List Edge} {st : DState P}
    (h : DInv P g criteria start front doneEs st) (v : String)
    (hv : v = start ∨ st.parent v ≠ none) : ∃ p, TreePath st.parent start v p := by
  by_cases hvs : v = start
  · subst hvs; exact ⟨_, TreePath.base⟩
  · exact h.chain v (hv.resolve_left hvs)

/-- When an entry is taken from the queue, the cumulative cost of every
station, capped at the key of the entry, is a lower bound for the weight of
every walk from `start` to that station. -/
theorem dInv_pop_bound {P : MinQueue} {g : Graph} {criteria start : String}
    {st : DState P} {top : Int × String} {rest : P.Q} (W : SafeSums criteria g start)
    (h : DInv P g criteria start [] [] st) (hpop : P.pop st.pq = some (top, rest)) :
    ∀ (es : List Edge) (u : String), IsWalk g start es u →
      min (st.cost u) top.1 ≤ walkWeight criteria es := by
  have htop : top ∈ P.toList st.pq := (mem_toList_pop hpop top).2 (Or.inl rfl)
  have hmin := (P.pop_some _ _ _ hpop).2
  obtain ⟨hk1, hk2, _⟩ := h.pqle top htop
  have hk0 := (h.cpos top.2).1
  have hφ : ∀ u, ∀ e ∈ graphAt g u,
      (fun x => min (st.cost x) top.1) e.dst ≤
        (fun x => min (st.cost x) top.1) u + weightOf criteria e := by
    intro u e he
    have hw := W.nonneg e (graphAt_subset_allEdges g u e he)
    simp only
    rcases h.settled u (by simp) with hP | hQ | hR
    · have := hP e he
      omega
    · have := hmin _ hQ
      simp only at this
      omega
    · omega
  intro es u hw
  have := walk_potential_int criteria (fun x => min (st.cost x) top.1) hφ es start u hw
  simp only [h.cstart] at this
  omega

theorem dInv_pop_opt {P : MinQueue} {g : Graph} {criteria start : String}
    {st : DState P} {top : Int × String} {rest : P.Q} (W : SafeSums criteria g start)
    (h : DInv P g criteria start [] [] st) (hpop : P.pop st.pq = some (top, rest)) :
    ∀ es, IsWalk g start es top.2 → st.cost top.2 ≤ walkWeight criteria es := by
  intro es hw
  have htop : top ∈ P.toList st.pq := (mem_toList_pop hpop top).2 (Or.inl rfl)
  have := dInv_pop_bound W h hpop es top.2 hw
  have := (h.pqle top htop).1
  omega

theorem dInv_pop_room {P : MinQueue} {g : Graph} {criteria start : String}
    {st : DState P} {top : Int × String} {rest : P.Q} (W : SafeSums criteria g start)
    (h : DInv P g criteria start [] [] st) (hpop : P.pop st.pq = some (top, rest)) :
    ∀ e ∈ graphAt g top.2, st.cost top.2 + weightOf criteria e ≤ INT_MAX := by
  have htop : top ∈ P.toList st.pq := (mem_toList_pop hpop top).2 (Or.inl rfl)
  obtain ⟨p, hp⟩ := dInv_treePath h top.2 (h.pqle top htop).2.2
  obtain ⟨es0, hw0, _⟩ := treePath_walk hp (dInv_link h)
  intro e he
  obtain ⟨es, hw, hsum⟩ := W.sums top.2 ⟨es0, hw0⟩ e he
  have h1 := dInv_pop_opt W h hpop es hw
  omega

theorem relaxEdges_cons (P : MinQueue) (criteria curr : String) (e : Edge)
    (es : List Edge) (st : DState P) :
    relaxEdges P criteria curr (e :: es) st =
      relaxEdges P criteria curr es (relaxEdges P criteria curr [e] st) := by
  simp only [relaxEdges]
  split <;> rfl

theorem dInv_relax_one {P : MinQueue} {g : Graph} {criteria start curr : String}
    {doneEs : List Edge} {st : DState P} (W : SafeSums criteria g start) (e : Edge)
    (h : DInv P g criteria start [curr] doneEs st) (he : e ∈ graphAt g curr) :
    DInv P g criteria start [curr] (doneEs ++ [e]) (relaxEdges P criteria curr [e] st) := by
  have hw0 := W.nonneg e (graphAt_subset_allEdges g curr e he)
  have hroom := h.room curr (by simp) e he
  have hc0 := (h.cpos curr).1
  have hwrap : wrapInt (st.cost curr + weightOf criteria e) =
      st.cost curr + weightOf criteria e := by
    apply wrapInt_eq
    unfold inRange
    unfold INT_MAX at hroom
    constructor <;> omega
  simp only [relaxEdges, hwrap]
  by_cases hc : st.cost curr + weightOf criteria e < st.cost e.dst
  · rw [if_pos hc]
    have hkey : setKey st.cost e.dst (st.cost curr + weightOf criteria e) e.dst =
        st.cost curr + weightOf criteria e := by simp [setKey]
    rw [hkey]
    have hxc : e.dst ≠ curr := by
      intro hh; rw [hh] at hc; omega
    have hxs : e.dst ≠ start := by
      intro hh; rw [hh, h.cstart] at hc; omega
    have hne : ∀ y, y ≠ e.dst →
        setKey st.cost e.dst (st.cost curr + weightOf criteria e) y = st.cost y := by
      intro y hy; simp [setKey, hy]
    have hle : ∀ y,
        setKey st.cost e.dst (st.cost curr + weightOf criteria e) y ≤ st.cost y := by
      intro y
      by_cases hy : y = e.dst
      · rw [hy, hkey]; omega
      · rw [hne y hy]
    have hpne : ∀ y, st.parent y ≠ none →
        setKey st.parent e.dst (some curr) y ≠ none := by
      intro y hy
      simp only [setKey]
      split
      · simp
      · exact hy
    have hlink := dInv_link h
    constructor
    · show setKey st.cost e.dst _ start = 0
      rw [hne start (Ne.symm hxs)]; exact h.cstart
    · intro v
      show 0 ≤ setKey st.cost e.dst _ v ∧ setKey st.cost e.dst _ v ≤ INT_MAX
      by_cases hv : v = e.dst
      · rw [hv, hkey]
        exact ⟨by omega, by omega⟩
      · rw [hne v hv]; exact h.cpos v
    · intro x hx
      show setKey st.cost e.dst _ x.2 ≤ x.1 ∧ x.1 ≤ INT_MAX ∧
        (x.2 = start ∨ setKey st.parent e.dst (some curr) x.2 ≠ none)
      rcases (mem_toList_push P _ x st.pq).1 hx with hx | hx
      · subst hx
        simp only [hkey]
        exact ⟨le_refl _, by omega, Or.inr (by simp [setKey])⟩
      · obtain ⟨h1, h2, h3⟩ := h.pqle x hx
        refine ⟨le_trans (hle _) h1, h2, ?_⟩
        rcases h3 with h3 | h3
        · exact Or.inl h3
        · exact Or.inr (hpne _ h3)
    · intro u hu
      show (∀ e' ∈ graphAt g u, setKey st.cost e.dst _ e'.dst ≤
          setKey st.cost e.dst _ u + weightOf criteria e') ∨
        (setKey st.cost e.dst _ u, u) ∈ P.toList (P.push _ st.pq) ∨
        setKey st.cost e.dst _ u = INT_MAX
      by_cases hux : u = e.dst
      · right; left
        rw [hux, hkey]
        exact (mem_toList_push P _ _ st.pq).2 (Or.inl rfl)
      · rw [hne u hux]
        rcases h.settled u hu with hP | hQ | hR
        · left
          intro e' he'
          exact le_trans (hle _) (hP e' he')
        · right; left
          exact (mem_toList_push P _ _ st.pq).2 (Or.inr hQ)
        · right; right; exact hR
    · intro c hc' e' he'
      simp only [List.mem_singleton] at hc'
      subst hc'
      show setKey st.cost e.dst _ e'.dst ≤ setKey st.cost e.dst _ c + weightOf criteria e'
      rw [hne c (Ne.symm hxc)]
      rcases List.mem_append.1 he' with he' | he'
      · exact le_trans (hle _) (h.doneFront c (by simp) e' he')
      · simp only [List.mem_singleton] at he'
        subst he'
        rw [hkey]
    · intro c hc' e' he'
      simp only [List.mem_singleton] at hc'
      subst hc'
      show setKey st.cost e.dst _ c + weightOf criteria e' ≤ INT_MAX
      rw [hne c (Ne.symm hxc)]
      exact h.room c (by simp) e' he'
    · intro c hc'
      simp only [List.mem_singleton] at hc'
      subst hc'
      show c = start ∨ setKey st.parent e.dst (some c) c ≠ none
      rcases h.frontOk c (by simp) with h3 | h3
      · exact Or.inl h3
      · exact Or.inr (hpne _ h3)
    · intro v u hp
      show v ≠ start ∧ ∃ e' ∈ graphAt g u, e'.dst = v ∧
        setKey st.cost e.dst _ u + weightOf criteria e' ≤ setKey st.cost e.dst _ v
      change setKey st.parent e.dst (some curr) v = some u at hp
      by_cases hv : v = e.dst
      · subst hv
        simp only [setKey, if_true, Option.some.injEq] at hp
        subst hp
        refine ⟨hxs, e, he, rfl, ?_⟩
        rw [hkey, hne _ (Ne.symm hxc)]
      · simp only [setKey, hv, if_false] at hp
        obtain ⟨h1, e', he', hd, hcst⟩ := h.par v u hp
        refine ⟨h1, e', he', hd, ?_⟩
        rw [hne v hv]
        exact le_trans (by have := hle u; omega) hcst
    · intro v hv
      change setKey st.parent e.dst (some curr) v ≠ none at hv
      show ∃ p, TreePath (setKey st.parent e.dst (some curr)) start v p
      obtain ⟨pc, hpc⟩ := dInv_treePath h curr (h.frontOk curr (by simp))
      have hcl := treePath_cost_le hpc h.par W.nonneg
      have hpc' : TreePath (setKey st.parent e.dst (some curr)) start curr pc := by
        apply treePath_congr hpc
        intro y hy _
        have hyx : y ≠ e.dst := by
          intro hh
          have := hcl y hy
          rw [hh] at this
          omega
        simp [setKey, hyx]
      have hpx : TreePath (setKey st.parent e.dst (some curr)) start e.dst (pc ++ [e.dst]) :=
        TreePath.step hxs (by simp [setKey]) hpc'
      by_cases hvx : v = e.dst
      · rw [hvx]; exact ⟨_, hpx⟩
      · have hv' : st.parent v ≠ none := by simpa [setKey, hvx] using hv
        obtain ⟨p, hp⟩ := h.chain v hv'
        exact treePath_update hpx hp
    · intro v hk hvs hp
      change setKey st.parent e.dst (some curr) v = none at hp
      show setKey st.cost e.dst _ v = INT_MAX
      have hvx : v ≠ e.dst := by
        intro hh; simp [setKey, hh] at hp
      rw [hne v hvx]
      exact h.fresh v hk hvs (by simpa [setKey, hvx] using hp)
  · rw [if_neg hc]
    refine { h with doneFront := ?_ }
    intro c hc' e' he'
    simp only [List.mem_singleton] at hc'
    subst hc'
    rcases List.mem_append.1 he' with he' | he'
    · exact h.doneFront c (by simp) e' he'
    · simp only [List.mem_singleton] at he'
      subst he'
      omega

theorem dInv_relax {P : MinQueue} {g : Graph} {criteria start curr : String}
    (W : SafeSums criteria g start) :
    ∀ (es doneEs : List Edge) (st : DState P),
      DInv P g criteria start [curr] doneEs st → (∀ e ∈ es, e ∈ graphAt g curr) →
      DInv P g criteria start [curr] (doneEs ++ es) (relaxEdges P criteria curr es st) := by
  intro es
  induction es with
  | nil => intro doneEs st h _; simpa [relaxEdges] using h
  | cons e es ih =>
    intro doneEs st h hes
    have happ : doneEs ++ e :: es = (doneEs ++ [e]) ++ es := by simp
    rw [happ, relaxEdges_cons]
    exact ih _ _ (dInv_relax_one W e h (hes e (List.mem_cons_self _ _)))
      (fun x hx => hes x (List.mem_cons_of_mem _ hx))

theorem dInv_pop {P : MinQueue} {g : Graph} {criteria start : String}
    {st : DState P} {top : Int × String} {rest : P.Q} (W : SafeSums criteria g start)
    (h : DInv P g criteria start [] [] st) (hpop : P.pop st.pq = some (top, rest)) :
    DInv P g criteria start [top.2] [] { st with pq := rest } := by
  have htop : top ∈ P.toList st.pq := (mem_toList_pop hpop top).2 (Or.inl rfl)
  have hsub : ∀ y ∈ P.toList rest, y ∈ P.toList st.pq :=
    fun y hy => (mem_toList_pop hpop y).2 (Or.inr hy)
  constructor
  · exact h.cstart
  · exact h.cpos
  · intro x hx; exact h.pqle x (hsub x hx)
  · intro u hu
    simp only [List.mem_singleton] at hu
    rcases h.settled u (by simp) with hP | hQ | hR
    · exact Or.inl hP
    · right; left
      rcases (mem_toList_pop hpop _).1 hQ with hQ | hQ
      · exact absurd (congrArg Prod.snd hQ) hu
      · exact hQ
    · exact Or.inr (Or.inr hR)
  · intro c _ e he; simp at he
  · intro c hc e he
    simp only [List.mem_singleton] at hc
    subst hc
    exact dInv_pop_room W h hpop e he
  · intro c hc
    simp only [List.mem_singleton] at hc
    subst hc
    exact (h.pqle top htop).2.2
  · exact h.par
  · exact h.chain
  · exact h.fresh

theorem dInv_finish {P : MinQueue} {g : Graph} {criteria start curr : String}
    {st : DState P} (h2 : DInv P g criteria start [curr] (graphAt g curr) st) :
    DInv P g criteria start [] [] st := by
  constructor
  · exact h2.cstart
  · exact h2.cpos
  · exact h2.pqle
  · intro u _
    by_cases hu : u = curr
    · subst hu
      exact Or.inl (h2.doneFront _ (by simp))
    · exact h2.settled u (by simpa using hu)
  · intro c _ e he; simp at he
  · intro c hc; simp at hc
  · intro c hc; simp at hc
  · exact h2.par
  · exact h2.chain
  · exact h2.fresh

theorem dInv_step {P : MinQueue} {g : Graph} {criteria start : String}
    {st : DState P} {top : Int × String} {rest : P.Q} (W : SafeSums criteria g start)
    (h : DInv P g criteria start [] [] st) (hpop : P.pop st.pq = some (top, rest)) :
    DInv P g criteria start [] []
      (relaxEdges P criteria top.2 (graphAt g top.2) { st with pq := rest }) := by
  have h2 := dInv_relax W (graphAt g top.2) [] _ (dInv_pop W h hpop) (fun e he => he)
  simp only [List.nil_append] at h2
  exact dInv_finish h2

theorem dInv_init (P : MinQueue) (g : Graph) (criteria start : String) :
    DInv P g criteria start [] [] (dijkstraInit P g start) := by
  have hpq : ∀ x ∈ P.toList (dijkstraInit P g start).pq, x = (0, start) := by
    intro x hx
    rcases (mem_toList_push P _ x P.empty).1 hx with hx | hx
    · exact hx
    · rw [P.toList_empty] at hx; simp at hx
  constructor
  · simp [dijkstraInit, setKey]
  · intro v
    simp only [dijkstraInit, setKey, INT_MAX]
    split
    · omega
    · split <;> omega
  · intro x hx
    rw [hpq x hx]
    simp [dijkstraInit, setKey, INT_MAX]
  · intro u _
    by_cases hus : u = start
    · right; left
      subst hus
      have : (dijkstraInit P g u).cost u = 0 := by simp [dijkstraInit, setKey]
      rw [this]
      exact (mem_toList_push P _ _ P.empty).2 (Or.inl rfl)
    · by_cases hk : u ∈ graphKeys g
      · right; right
        simp [dijkstraInit, setKey, hus, hk]
      · left
        intro e he
        rw [graphAt_of_not_key g u hk] at he
        simp at he
  · intro c hc; simp at hc
  · intro c hc; simp at hc
  · intro c hc; simp at hc
  · intro v u hp; simp [dijkstraInit] at hp
  · intro v hv; simp [dijkstraInit] at hv
  · intro v hk hvs _
    simp [dijkstraInit, setKey, hvs, hk]

/-- When the loop ends, the cumulative cost of `end_` is at most the weight of
every walk from `start` to `end_`. -/
theorem dInv_exit_opt {P : MinQueue} {g : Graph} {criteria start end_ : String}
    {st : DState P} (W : SafeSums criteria g start)
    (h : DInv P g criteria start [] [] st)
    (hexit : P.pop st.pq = none ∨
      ∃ top rest, P.pop st.pq = some (top, rest) ∧ top.2 = end_) :
    ∀ es, IsWalk g start es end_ → st.cost end_ ≤ walkWeight criteria es := by
  rcases hexit with hpop | ⟨top, rest, hpop, htop⟩
  · have hnil : P.toList st.pq = [] := (P.pop_none _).1 hpop
    have hφ : ∀ u, ∀ e ∈ graphAt g u, st.cost e.dst ≤ st.cost u + weightOf criteria e := by
      intro u e he
      have hw := W.nonneg e (graphAt_subset_allEdges g u e he)
      rcases h.settled u (by simp) with hP | hQ | hR
      · exact hP e he
      · rw [hnil] at hQ; simp at hQ
      · have := (h.cpos e.dst).2
        omega
    intro es hw
    have := walk_potential_int criteria st.cost hφ es start end_ hw
    rw [h.cstart] at this
    omega
  · intro es hw
    subst htop
    exact dInv_pop_opt W h hpop es hw

/-- When the loop ends and the sums stay below `INT_MAX`, every station that
a walk from `start` leads to has a chain of `parent` links. -/
theorem dInv_exit_reached {P : MinQueue} {g : Graph} {criteria start end_ : String}
    {st : DState P} (W : SafeWeights criteria g start)
    (hlt : SumsWithin (INT_MAX - 1) criteria g start)
    (h : DInv P g criteria start [] [] st)
    (hexit : P.pop st.pq = none ∨
      ∃ top rest, P.pop st.pq = some (top, rest) ∧ top.2 = end_) :
    ∀ es, IsWalk g start es end_ → (end_ = start ∨ st.parent end_ ≠ none) := by
  rcases hexit with hpop | ⟨top, rest, hpop, htop⟩
  · have hnil : P.toList st.pq = [] := (P.pop_none _).1 hpop
    have hclosed : ∀ (es : List Edge) (u v : String), IsWalk g u es v →
        (u = start ∨ st.parent u ≠ none) → (v = start ∨ st.parent v ≠ none) := by
      intro es
      induction es with
      | nil => intro u v hw hu; simp only [IsWalk] at hw; rw [← hw]; exact hu
      | cons e es ih =>
        intro u v hw hu
        simp only [IsWalk] at hw
        apply ih _ _ hw.2
        obtain ⟨p, hp⟩ := dInv_treePath h u hu
        obtain ⟨es0, hw0, _⟩ := treePath_walk hp (dInv_link h)
        obtain ⟨es', hw', hsum⟩ := hlt u ⟨es0, hw0⟩ e hw.1
        have h1 := dInv_exit_opt ⟨W.nonneg, W.sums⟩ h (Or.inl hpop) es' hw'
        have hw00 := W.nonneg e (graphAt_subset_allEdges g u e hw.1)
        have h4 : st.cost e.dst ≤ st.cost u + weightOf criteria e := by
          rcases h.settled u (by simp) with hP | hQ | hR
          · exact hP e hw.1
          · rw [hnil] at hQ; simp at hQ
          · have := (h.cpos e.dst).2
            omega
        by_cases hds : e.dst = start
        · exact Or.inl hds
        · right
          intro hpn
          have := h.fresh e.dst (W.closed e (graphAt_subset_allEdges g u e hw.1)) hds hpn
          omega
    intro es hw
    exact hclosed es start end_ hw (Or.inl rfl)
  · have hmem : top ∈ P.toList st.pq := (mem_toList_pop hpop top).2 (Or.inl rfl)
    intro es _
    subst htop
    exact (h.pqle top hmem).2.2

theorem walkWeight_nonneg {g : Graph} {criteria : String}
    (hnn : ∀ e ∈ allEdges g, 0 ≤ weightOf criteria e) :
    ∀ (es : List Edge) (u v : String), IsWalk g u es v → 0 ≤ walkWeight criteria es := by
  intro es
  induction es with
  | nil => intro u v _; simp [walkWeight]
  | cons e es ih =>
    intro u v hw
    simp only [IsWalk] at hw
    have h1 := hnn e (graphAt_subset_allEdges g u e hw.1)
    have h2 := ih _ _ hw.2
    simp only [walkWeight, List.map_cons, List.sum_cons] at h2 ⊢
    omega

/-- Correctness of `dijkstra` on graphs with `SafeWeights`: with fuel
`dijkstraFuel g` or more it returns; the weight of the result is at most the
weight of every walk from `start` to `end_`; a non-empty result is a path
without repeated station; and when the sums stay below `INT_MAX` the result
is empty exactly when `end_` cannot be reached. -/
theorem dijkstra_correct (P : MinQueue) (g : Graph) (criteria start end_ : String)
    (W : SafeWeights criteria g start) (fuel : Nat) (hf : dijkstraFuel g ≤ fuel) :
    ∃ r, dijkstra P g fuel start end_ criteria = some r ∧
      (∀ es, IsWalk g start es end_ → pathWeight g criteria r ≤ walkWeight criteria es) ∧
      (r ≠ [] → IsPath g start end_ r ∧ r.Nodup) ∧
      (SumsWithin (INT_MAX - 1) criteria g start → (r = [] ↔ ¬ Reachable g start end_)) := by
  obtain ⟨st', hl⟩ := dijkstraLoop_returns P g start end_ criteria fuel hf
  obtain ⟨st0, hI, hp, _, hexit⟩ := dijkstraLoop_rule P g end_ criteria
    (DInv P g criteria start [] [])
    (fun st top rest hI hpop _ => dInv_step ⟨W.nonneg, W.sums⟩ hI hpop)
    fuel _ st' (dInv_init P g criteria start) hl
  have hopt := dInv_exit_opt ⟨W.nonneg, W.sums⟩ hI hexit
  unfold dijkstra
  rw [hl]
  simp only
  rw [hp]
  by_cases hR : end_ = start ∨ st0.parent end_ ≠ none
  · obtain ⟨p, hpath⟩ := dInv_treePath hI end_ hR
    have hlen := treePath_length_le hpath (dInv_link hI)
    have hfuel : p.length ≤ fuel := by
      simp only [dijkstraFuel] at hf
      omega
    refine ⟨p, reconstructPath_of_treePath hpath fuel hfuel, ?_, ?_, ?_⟩
    · intro es hw
      have h1 := treePath_weight hpath hI.par
      have h2 := hopt es hw
      rw [hI.cstart] at h1
      omega
    · intro _
      exact ⟨treePath_isPath hpath (dInv_link hI), treePath_nodup hpath⟩
    · intro _
      constructor
      · intro h0; exact absurd h0 (treePath_ne_nil hpath)
      · intro hnr
        obtain ⟨es, hw, _⟩ := treePath_walk hpath (dInv_link hI)
        exact absurd ⟨es, hw⟩ hnr
  · have hne : end_ ≠ start := fun hh => hR (Or.inl hh)
    have hpar : st0.parent end_ = none := by
      by_contra hh; exact hR (Or.inr hh)
    have hfuel : fuel ≠ 0 := by simp only [dijkstraFuel] at hf; omega
    obtain ⟨n, rfl⟩ := Nat.exists_eq_succ_of_ne_zero hfuel
    refine ⟨[], reconstructPath_dead hne hpar n, ?_, ?_, ?_⟩
    · intro es hw
      simpa [pathWeight] using walkWeight_nonneg W.nonneg es start end_ hw
    · intro h0; exact absurd rfl h0
    · intro hlt
      simp only [true_iff]
      rintro ⟨es, hw⟩
      exact hR (dInv_exit_reached W hlt hI hexit es hw)

/-! ## Graphs built by `loadMetroData` -/

theorem graphKeys_pushEdge (g : Graph) (k : String) (e : Edge) (x : String) :
    x ∈ graphKeys (pushEdge g k e) ↔ x = k ∨ x ∈ graphKeys g := by
  induction g with
  | nil => simp [pushEdge, graphKeys]
  | cons a rest ih =>
    obtain ⟨k', es⟩ := a
    simp only [graphKeys] at ih
    by_cases hk : k' = k
    · subst hk
      simp only [pushEdge, if_true, graphKeys, List.map_cons, List.mem_cons]
      tauto
    · simp only [pushEdge, hk, if_false, graphKeys, List.map_cons, List.mem_cons, ih]
      tauto

theorem allEdges_pushEdge (g : Graph) (k : String) (e : Edge) :
    (allEdges (pushEdge g k e)).Perm (e :: allEdges g) := by
  induction g with
  | nil => simp [pushEdge, allEdges]
  | cons a rest ih =>
    obtain ⟨k', es⟩ := a
    by_cases hk : k' = k
    · simp only [pushEdge, hk, if_true, allEdges, List.append_assoc]
      exact (List.perm_middle).trans (List.Perm.refl _)
    · simp only [pushEdge, hk, if_false, allEdges]
      exact (List.Perm.append_left es ih).trans List.perm_middle

theorem allEdges_addConnection (g : Graph) (r : Record) :
    (allEdges (addConnection g r)).Perm
      (⟨r.src, r.time, r.distance, r.cost, r.line⟩ ::
        ⟨r.dst, r.time, r.distance, r.cost, r.line⟩ :: allEdges g) := by
  unfold addConnection
  exact (allEdges_pushEdge _ _ _).trans (List.Perm.cons _ (allEdges_pushEdge _ _ _))

theorem graphKeys_addConnection (g : Graph) (r : Record) (x : String) :
    x ∈ graphKeys (addConnection g r) ↔ x = r.dst ∨ x = r.src ∨ x ∈ graphKeys g := by
  unfold addConnection
  rw [graphKeys_pushEdge, graphKeys_pushEdge]

theorem totalWeight_addConnection (criteria : String) (g : Graph) (r : Record) :
    totalWeight criteria (addConnection g r) =
      totalWeight criteria g + 2 * (if criteria = "time" then r.time else r.cost) := by
  unfold totalWeight
  rw [((allEdges_addConnection g r).map (weightOf criteria)).sum_eq]
  simp only [List.map_cons, List.sum_cons, weightOf]
  omega

theorem loadMetroData_wellFormed (criteria : String) (rs : List Record) :
    ∀ (g : Graph), (∀ e ∈ allEdges g, 0 ≤ weightOf criteria e) →
      (∀ e ∈ allEdges g, e.dst ∈ graphKeys g) →
      (∀ r ∈ rs, 0 ≤ r.time ∧ 0 ≤ r.cost) →
      (∀ e ∈ allEdges (loadMetroData g rs), 0 ≤ weightOf criteria e) ∧
      (∀ e ∈ allEdges (loadMetroData g rs), e.dst ∈ graphKeys (loadMetroData g rs)) ∧
      ∃ s, totalWeight criteria (loadMetroData g rs) = totalWeight criteria g + 2 * s := by
  induction rs with
  | nil => intro g h1 h2 _; exact ⟨h1, h2, 0, by simp [loadMetroData]⟩
  | cons r rs ih =>
    intro g h1 h2 h3
    have hr := h3 r (List.mem_cons_self _ _)
    have h1' : ∀ e ∈ allEdges (addConnection g r), 0 ≤ weightOf criteria e := by
      intro e he
      rcases List.mem_cons.1 ((allEdges_addConnection g r).mem_iff.1 he) with rfl | he
      · simp only [weightOf]; split <;> omega
      · rcases List.mem_cons.1 he with rfl | he
        · simp only [weightOf]; split <;> omega
        · exact h1 e he
    have h2' : ∀ e ∈ allEdges (addConnection g r), e.dst ∈ graphKeys (addConnection g r) := by
      intro e he
      rw [graphKeys_addConnection]
      rcases List.mem_cons.1 ((allEdges_addConnection g r).mem_iff.1 he) with rfl | he
      · exact Or.inr (Or.inl rfl)
      · rcases List.mem_cons.1 he with rfl | he
        · exact Or.inl rfl
        · exact Or.inr (Or.inr (h2 e he))
    obtain ⟨a, b, s, hs⟩ := ih (addConnection g r) h1' h2'
      (fun x hx => h3 x (List.mem_cons_of_mem _ hx))
    refine ⟨a, b, s + (if criteria = "time" then r.time else r.cost), ?_⟩
    have : loadMetroData g (r :: rs) = loadMetroData (addConnection g r) rs := rfl
    rw [this, hs, totalWeight_addConnection]
    omega

theorem buildGraph_wellFormed (criteria : String) (rs : List Record)
    (hnn : ∀ r ∈ rs, 0 ≤ r.time ∧ 0 ≤ r.cost) :
    (∀ e ∈ allEdges (buildGraph rs), 0 ≤ weightOf criteria e) ∧
      (∀ e ∈ allEdges (buildGraph rs), e.dst ∈ graphKeys (buildGraph rs)) := by
  obtain ⟨h1, h2, _⟩ := loadMetroData_wellFormed criteria rs []
    (by intro e he; simp [allEdges] at he) (by intro e he; simp [allEdges] at he) hnn
  exact ⟨h1, h2⟩

/-- Graphs built from records with non-negative weights whose stored
connections sum to at most `INT_MAX` meet `WellWeighted`. -/
theorem buildGraph_wellWeighted (criteria : String) (rs : List Record)
    (hnn : ∀ r ∈ rs, 0 ≤ r.time ∧ 0 ≤ r.cost)
    (hsum : totalWeight criteria (buildGraph rs) ≤ INT_MAX) :
    WellWeighted criteria (buildGraph rs) := by
  obtain ⟨h1, h2, s, hs⟩ := loadMetroData_wellFormed criteria rs []
    (by intro e he; simp [allEdges] at he) (by intro e he; simp [allEdges] at he) hnn
  refine ⟨h1, h2, ?_⟩
  have h0 : totalWeight criteria ([] : Graph) = 0 := by simp [totalWeight, allEdges]
  unfold buildGraph at hsum ⊢
  rw [hs, h0] at hsum ⊢
  unfold INT_MAX at hsum ⊢
  omega

/-- A station that a walk leads to is the end of a chain of links that
follow stored connections (the links `bfsLeastStops` records). -/
theorem reachable_treePath (g : Graph) (s u : String) (h : Reachable g s u) :
    ∃ (parent : String → Option String) (p : List String), TreePath parent s u p ∧
      ∀ y v, parent y = some v → Linked g v y := by
  obtain ⟨es, hw⟩ := h
  obtain ⟨r, hr⟩ := bfsLeastStops_returns g s u (bfsFuel g) (le_refl _)
  obtain ⟨lev, st0, hI, hexit, _⟩ := bfsLeastStops_some hr
  have hv := (bfsInv_exit hI hexit es hw).1
  obtain ⟨p, hp, _⟩ := bfsInv_treePath hI (lev u) u rfl hv
  exact ⟨st0.parent, p, hp, fun y v hyv => (hI.par y v hyv).2.2.2.1⟩

theorem sumsWithin_mono {b b' : Int} {criteria : String} {g : Graph} {start : String}
    (hb : b ≤ b') (h : SumsWithin b criteria g start) : SumsWithin b' criteria g start := by
  intro u hu e he
  obtain ⟨es, hw, hs⟩ := h u hu e he
  exact ⟨es, hw, le_trans hs hb⟩

/-- On a graph with `WellWeighted` the sums stay below `INT_MAX`, whatever
the source. -/
theorem wellWeighted_sums (criteria : String) (g : Graph) (W : WellWeighted criteria g)
    (start : String) : SumsWithin (INT_MAX - 1) criteria g start := by
  intro u hu e he
  obtain ⟨parent, p, hp, hlink⟩ := reachable_treePath g start u hu
  obtain ⟨es, hw, _, hroom⟩ := treePath_room hp hlink W.nonneg
  refine ⟨es, hw, ?_⟩
  have h1 := hroom e he
  have h2 := W.total
  omega

theorem wellWeighted_safe (criteria : String) (g : Graph) (W : WellWeighted criteria g)
    (start : String) : SafeWeights criteria g start :=
  ⟨W.nonneg, W.closed,
    sumsWithin_mono (by omega) (wellWeighted_sums criteria g W start)⟩

theorem buildGraph_safe (criteria : String) (rs : List Record) (start : String)
    (hnn : ∀ r ∈ rs, 0 ≤ r.time ∧ 0 ≤ r.cost)
    (hsum : SumsWithin INT_MAX criteria (buildGraph rs) start) :
    SafeWeights criteria (buildGraph rs) start :=
  ⟨(buildGraph_wellFormed criteria rs hnn).1, (buildGraph_wellFormed criteria rs hnn).2, hsum⟩

/-! ## Running the searches on given records -/

theorem pop_least (P : MinQueue) (q : P.Q) (x : Int × String) (l : List (Int × String))
    (hperm : (P.toList q).Perm (x :: l)) (hmin : ∀ y ∈ l, x.1 < y.1) :
    ∃ rest, P.pop q = some (x, rest) ∧ (P.toList rest).Perm l := by
  cases hpop : P.pop q with
  | none =>
    have := (P.pop_none q).1 hpop
    rw [this] at hperm
    simp at hperm
  | some r =>
    obtain ⟨top, rest⟩ := r
    obtain ⟨hp, hle⟩ := P.pop_some q top rest hpop
    have htop : top ∈ x :: l := hperm.mem_iff.1 (hp.mem_iff.2 (List.mem_cons_self _ _))
    have hx : top = x := by
      rcases List.mem_cons.1 htop with h | h
      · exact h
      · have h1 := hmin top h
        have h2 := hle x (hperm.mem_iff.2 (List.mem_cons_self _ _))
        omega
    subst hx
    exact ⟨rest, rfl, (List.perm_cons top).1 (hp.symm.trans hperm)⟩

theorem perm_push (P : MinQueue) (x : Int × String) (q : P.Q) (l : List (Int × String))
    (h : (P.toList q).Perm l) : (P.toList (P.push x q)).Perm (x :: l) :=
  (P.toList_push x q).trans (List.Perm.cons x h)

/-! ## Storing a connection a second time -/

theorem bfsExpand_append (curr : String) :
    ∀ (es ds : List Edge) (st : BfsState),
      bfsExpand curr (es ++ ds) st = bfsExpand curr ds (bfsExpand curr es st) := by
  intro es
  induction es with
  | nil => intro ds st; rfl
  | cons e es ih =>
    intro ds st
    simp only [List.cons_append, bfsExpand]
    split <;> exact ih _ _

theorem bfsExpand_visited_mono (curr : String) :
    ∀ (es : List Edge) (st : BfsState) (x : String), st.visited x = true →
      (bfsExpand curr es st).visited x = true := by
  intro es
  induction es with
  | nil => intro st x h; exact h
  | cons e es ih =>
    intro st x h
    simp only [bfsExpand]
    split
    · exact ih _ _ h
    · apply ih
      simp only [setKey]
      split <;> simp [h]

theorem bfsExpand_visits (curr : String) :
    ∀ (es : List Edge) (st : BfsState), ∀ e ∈ es,
      (bfsExpand curr es st).visited e.dst = true := by
  intro es
  induction es with
  | nil => intro st e he; simp at he
  | cons a es ih =>
    intro st e he
    rcases List.mem_cons.1 he with rfl | he
    · simp only [bfsExpand]
      split
      · rename_i hv
        exact bfsExpand_visited_mono curr es st _ hv
      · exact bfsExpand_visited_mono curr es _ _ (by simp [setKey])
    · simp only [bfsExpand]
      split <;> exact ih _ e he

theorem bfsExpand_skip (curr : String) :
    ∀ (ds : List Edge) (st : BfsState), (∀ d ∈ ds, st.visited d.dst = true) →
      bfsExpand curr ds st = st := by
  intro ds
  induction ds with
  | nil => intro st _; rfl
  | cons d ds ih =>
    intro st h
    simp only [bfsExpand, h d (List.mem_cons_self _ _), if_true]
    exact ih st fun x hx => h x (List.mem_cons_of_mem _ hx)

/-- Every list of `g2` is the list of `g1` followed by connections that the
list of `g1` already holds. -/
theorem bfsLoop_repeat {g1 g2 : Graph}
    (hrel : ∀ x, ∃ ds, graphAt g2 x = graphAt g1 x ++ ds ∧ ∀ d ∈ ds, d ∈ graphAt g1 x)
    (end_ : String) :
    ∀ (fuel : Nat) (st : BfsState), bfsLoop g2 end_ fuel st = bfsLoop g1 end_ fuel st := by
  intro fuel
  induction fuel with
  | zero => intro st; rfl
  | succ n ih =>
    intro st
    simp only [bfsLoop]
    cases st.q with
    | nil => rfl
    | cons curr rest =>
      simp only
      split
      · rfl
      · obtain ⟨ds, h1, h2⟩ := hrel curr
        rw [h1, bfsExpand_append, bfsExpand_skip curr ds _
          (fun d hd => bfsExpand_visits curr _ _ d (h2 d hd))]
        exact ih _

theorem relaxEdges_append (P : MinQueue) (criteria curr : String) :
    ∀ (es ds : List Edge) (st : DState P),
      relaxEdges P criteria curr (es ++ ds) st =
        relaxEdges P criteria curr ds (relaxEdges P criteria curr es st) := by
  intro es
  induction es with
  | nil => intro ds st; rfl
  | cons e es ih =>
    intro ds st
    simp only [List.cons_append, relaxEdges]
    split <;> exact ih _ _

theorem relaxEdges_twice (P : MinQueue) (criteria curr : String) (e : Edge)
    (st : DState P) (hne : e.dst ≠ curr) :
    relaxEdges P criteria curr [e, e] st = relaxEdges P criteria curr [e] st := by
  have hne' : ¬ curr = e.dst := fun h => hne h.symm
  by_cases hc : wrapInt (st.cost curr + weightOf criteria e) < st.cost e.dst
  · simp [relaxEdges, hc, setKey, hne']
  · simp [relaxEdges, hc]

theorem addConnection_twice_at (g : Graph) (a b : String) (t : Int) (d : Rat) (c : Int)
    (l : String) (x : String) :
    graphAt (addConnection (addConnection g ⟨a, b, t, d, c, l⟩) ⟨b, a, t, d, c, l⟩) x =
      graphAt (addConnection g ⟨a, b, t, d, c, l⟩) x ++
        ((if x = b then [(⟨a, t, d, c, l⟩ : Edge)] else []) ++
          if x = a then [(⟨b, t, d, c, l⟩ : Edge)] else []) := by
  rw [graphAt_addConnection (addConnection g ⟨a, b, t, d, c, l⟩) ⟨b, a, t, d, c, l⟩ x]
  simp

theorem addConnection_twice_rel (g : Graph) (a b : String) (t : Int) (d : Rat) (c : Int)
    (l : String) (x : String) :
    ∃ ds, graphAt (addConnection (addConnection g ⟨a, b, t, d, c, l⟩) ⟨b, a, t, d, c, l⟩) x =
        graphAt (addConnection g ⟨a, b, t, d, c, l⟩) x ++ ds ∧
      ∀ e ∈ ds, e ∈ graphAt (addConnection g ⟨a, b, t, d, c, l⟩) x := by
  refine ⟨_, addConnection_twice_at g a b t d c l x, ?_⟩
  intro e he
  rw [graphAt_addConnection]
  simp only [List.mem_append] at he ⊢
  rcases he with he | he
  · by_cases hx : x = b
    · simp only [hx, if_true, List.mem_singleton] at he
      subst he hx
      exact Or.inr (by simp)
    · simp [hx] at he
  · by_cases hx : x = a
    · simp only [hx, if_true, List.mem_singleton] at he
      subst he hx
      exact Or.inl (Or.inr (by simp))
    · simp [hx] at he

theorem dijkstraLoop_repeat (P : MinQueue) {g1 g2 : Graph} (criteria end_ : String)
    (hrel : ∀ x, graphAt g2 x = graphAt g1 x ∨
      ∃ es e, e.dst ≠ x ∧ graphAt g1 x = es ++ [e] ∧ graphAt g2 x = es ++ [e, e]) :
    ∀ (fuel : Nat) (st : DState P),
      dijkstraLoop P g2 end_ criteria fuel st = dijkstraLoop P g1 end_ criteria fuel st := by
  intro fuel
  induction fuel with
  | zero => intro st; rfl
  | succ n ih =>
    intro st
    simp only [dijkstraLoop]
    cases P.pop st.pq with
    | none => rfl
    | some r =>
      obtain ⟨top, rest⟩ := r
      simp only
      split
      · rfl
      · rcases hrel top.2 with h | ⟨es, e, hne, h1, h2⟩
        · rw [h]; exact ih _
        · rw [h1, h2, relaxEdges_append, relaxEdges_twice P criteria top.2 e _ hne,
            ← relaxEdges_append]
          exact ih _

theorem addConnection_twice_rel_ne (g : Graph) (a b : String) (t : Int) (d : Rat) (c : Int)
    (l : String) (hab : a ≠ b) (x : String) :
    graphAt (addConnection (addConnection g ⟨a, b, t, d, c, l⟩) ⟨b, a, t, d, c, l⟩) x =
        graphAt (addConnection g ⟨a, b, t, d, c, l⟩) x ∨
      ∃ es e, e.dst ≠ x ∧ graphAt (addConnection g ⟨a, b, t, d, c, l⟩) x = es ++ [e] ∧
        graphAt (addConnection (addConnection g ⟨a, b, t, d, c, l⟩) ⟨b, a, t, d, c, l⟩) x =
          es ++ [e, e] := by
  rw [addConnection_twice_at, graphAt_addConnection]
  by_cases hxa : x = a
  · subst hxa
    right
    refine ⟨graphAt g x, ⟨b, t, d, c, l⟩, Ne.symm hab, by simp [hab], by simp [hab]⟩
  · by_cases hxb : x = b
    · subst hxb
      right
      refine ⟨graphAt g x, ⟨a, t, d, c, l⟩, hab, by simp [hxa], by simp [hxa]⟩
    · left
      simp [hxa, hxb]

theorem dijkstraInit_congr (P : MinQueue) {g1 g2 : Graph} (start : String)
    (hk : ∀ x, x ∈ graphKeys g2 ↔ x ∈ graphKeys g1) :
    dijkstraInit P g2 start = dijkstraInit P g1 start := by
  unfold dijkstraInit
  have : (fun x => if x ∈ graphKeys g2 then INT_MAX else 0) =
      (fun x => if x ∈ graphKeys g1 then INT_MAX else (0 : Int)) := by
    funext x
    by_cases h : x ∈ graphKeys g1
    · rw [if_pos h, if_pos ((hk x).2 h)]
    · rw [if_neg h, if_neg (fun h' => h ((hk x).1 h'))]
  rw [this]

theorem graphKeys_addConnection_twice (g : Graph) (a b : String) (t : Int) (d : Rat)
    (c : Int) (l : String) (x : String) :
    x ∈ graphKeys (addConnection (addConnection g ⟨a, b, t, d, c, l⟩) ⟨b, a, t, d, c, l⟩) ↔
      x ∈ graphKeys (addConnection g ⟨a, b, t, d, c, l⟩) := by
  simp only [graphKeys_addConnection]
  tauto

/-- Storing `A-B` a second time, as `B-A`, leaves every run of `dijkstra`
unchanged when `A` and `B` differ. -/
theorem dijkstra_repeat_ne (P : MinQueue) (g : Graph) (a b : String) (t : Int) (d : Rat)
    (c : Int) (l : String) (hab : a ≠ b) (criteria start end_ : String) (fuel : Nat) :
    dijkstra P (addConnection (addConnection g ⟨a, b, t, d, c, l⟩) ⟨b, a, t, d, c, l⟩)
        fuel start end_ criteria =
      dijkstra P (addConnection g ⟨a, b, t, d, c, l⟩) fuel start end_ criteria := by
  unfold dijkstra
  rw [dijkstraLoop_repeat P criteria end_ (addConnection_twice_rel_ne g a b t d c l hab),
    dijkstraInit_congr P start (graphKeys_addConnection_twice g a b t d c l)]

/-- Storing `A-B` a second time, as `B-A`, leaves every run of
`bfsLeastStops` unchanged. -/
theorem bfs_repeat (g : Graph) (a b : String) (t : Int) (d : Rat) (c : Int) (l : String)
    (start end_ : String) (fuel : Nat) :
    bfsLeastStops (addConnection (addConnection g ⟨a, b, t, d, c, l⟩) ⟨b, a, t, d, c, l⟩)
        fuel start end_ =
      bfsLeastStops (addConnection g ⟨a, b, t, d, c, l⟩) fuel start end_ := by
  unfold bfsLeastStops
  rw [bfsLoop_repeat (addConnection_twice_rel g a b t d c l)]

/-! ## More fuel does not change a result -/

theorem reconstructLoop_fuel {parent : String → Option String} {start : String} :
    ∀ (n : Nat) (v : String) (path r : List String),
      reconstructLoop parent start n v path = some r →
      reconstructLoop parent start (n + 1) v path = some r := by
  intro n
  induction n with
  | zero => intro v path r h; simp [reconstructLoop] at h
  | succ n ih =>
    intro v path r h
    rw [reconstructLoop] at h ⊢
    split
    · rename_i hv; rw [if_pos hv] at h; exact h
    · rename_i hv
      rw [if_neg hv] at h
      cases hp : parent v with
      | none => rw [hp] at h; exact h
      | some u =>
        rw [hp] at h
        exact ih _ _ _ h

theorem dijkstraLoop_fuel (P : MinQueue) (g : Graph) (end_ criteria : String) :
    ∀ (n : Nat) (st st' : DState P), dijkstraLoop P g end_ criteria n st = some st' →
      dijkstraLoop P g end_ criteria (n + 1) st = some st' := by
  intro n
  induction n with
  | zero => intro st st' h; simp [dijkstraLoop] at h
  | succ n ih =>
    intro st st' h
    rw [dijkstraLoop] at h ⊢
    cases hp : P.pop st.pq with
    | none => rw [hp] at h; exact h
    | some r =>
      obtain ⟨top, rest⟩ := r
      rw [hp] at h
      simp only at h ⊢
      split
      · rename_i hc; rw [if_pos hc] at h; exact h
      · rename_i hc
        rw [if_neg hc] at h
        exact ih _ _ h

theorem dijkstra_fuel (P : MinQueue) (g : Graph) (start end_ criteria : String)
    (r : List String) :
    ∀ (k n : Nat), dijkstra P g n start end_ criteria = some r →
      dijkstra P g (n + k) start end_ criteria = some r := by
  intro k
  induction k with
  | zero => intro n h; exact h
  | succ k ih =>
    intro n h
    have h1 := ih n h
    unfold dijkstra at h1 ⊢
    cases hl : dijkstraLoop P g end_ criteria (n + k) (dijkstraInit P g start) with
    | none => rw [hl] at h1; simp at h1
    | some st' =>
      rw [hl] at h1
      have := dijkstraLoop_fuel P g end_ criteria (n + k) _ st' hl
      rw [show n + (k + 1) = n + k + 1 from rfl, this]
      exact reconstructLoop_fuel (n + k) _ _ _ h1

/-! ## Reachability found by the searches -/

theorem isWalk_congr {g1 g2 : Graph}
    (h : ∀ x e, e ∈ graphAt g2 x ↔ e ∈ graphAt g1 x) :
    ∀ (es : List Edge) (u v : String), IsWalk g2 u es v ↔ IsWalk g1 u es v := by
  intro es
  induction es with
  | nil => intro u v; simp [IsWalk]
  | cons e es ih =>
    intro u v
    simp only [IsWalk, h u e, ih]

theorem addConnection_twice_mem (g : Graph) (a b : String) (t : Int) (d : Rat) (c : Int)
    (l : String) (x : String) (e : Edge) :
    e ∈ graphAt (addConnection (addConnection g ⟨a, b, t, d, c, l⟩) ⟨b, a, t, d, c, l⟩) x ↔
      e ∈ graphAt (addConnection g ⟨a, b, t, d, c, l⟩) x := by
  obtain ⟨ds, h1, h2⟩ := addConnection_twice_rel g a b t d c l x
  rw [h1, List.mem_append]
  constructor
  · rintro (h | h)
    · exact h
    · exact h2 e h
  · exact Or.inl

theorem wellWeighted_of_repeat (criteria : String) (g : Graph) (a b : String) (t : Int)
    (d : Rat) (c : Int) (l : String)
    (W : WellWeighted criteria
      (addConnection (addConnection g ⟨a, b, t, d, c, l⟩) ⟨b, a, t, d, c, l⟩)) :
    WellWeighted criteria (addConnection g ⟨a, b, t, d, c, l⟩) := by
  have hperm := allEdges_addConnection (addConnection g ⟨a, b, t, d, c, l⟩) ⟨b, a, t, d, c, l⟩
  have hmem : ∀ e ∈ allEdges (addConnection g ⟨a, b, t, d, c, l⟩),
      e ∈ allEdges (addConnection (addConnection g ⟨a, b, t, d, c, l⟩) ⟨b, a, t, d, c, l⟩) :=
    fun e he => hperm.mem_iff.2 (List.mem_cons_of_mem _ (List.mem_cons_of_mem _ he))
  refine ⟨fun e he => W.nonneg e (hmem e he), ?_, ?_⟩
  · intro e he
    exact (graphKeys_addConnection_twice g a b t d c l e.dst).1 (W.closed e (hmem e he))
  · have h0 := W.nonneg ⟨b, t, d, c, l⟩ (hperm.mem_iff.2 (by simp))
    have h1 := W.total
    rw [totalWeight_addConnection] at h1
    simp only [weightOf] at h0
    by_cases hc : criteria = "time"
    · subst hc
      simp only [if_true] at h0 h1
      omega
    · simp only [hc, if_false] at h0 h1
      omega

theorem dijkstraReaches_iff (P : MinQueue) (g : Graph) (criteria s e : String)
    (W : WellWeighted criteria g) : dijkstraReaches P g criteria s e ↔ Reachable g s e := by
  constructor
  · rintro ⟨fuel, r, hr, hne⟩
    rcases dijkstra_sound hr with h0 | ⟨hpath, _⟩
    · exact absurd h0 hne
    · exact isPath_reachable hpath
  · intro hreach
    obtain ⟨r, hr, _, _, hiff⟩ := dijkstra_correct P g criteria s e
      (wellWeighted_safe criteria g W s) (dijkstraFuel g) (le_refl _)
    exact ⟨dijkstraFuel g, r, hr,
      fun h0 => ((hiff (wellWeighted_sums criteria g W s)).1 h0) hreach⟩


/-! ## A connection from a station to itself, stored again -/

theorem relaxEdges_range (P : MinQueue) (criteria curr : String) :
    ∀ (es : List Edge) (st : DState P), (∀ v, inRange (st.cost v)) →
      ∀ v, inRange ((relaxEdges P criteria curr es st).cost v) := by
  intro es
  induction es with
  | nil => intro st h; exact h
  | cons e es ih =>
    intro st h
    simp only [relaxEdges]
    split
    · apply ih
      intro v
      simp only [setKey]
      split
      · exact wrapInt_inRange _
      · exact h v
    · exact ih st h

/-- A connection from a station to itself with a weight in `0..INT_MAX` has
no effect when it is examined a second time in a row. -/
theorem relaxEdges_self_twice (P : MinQueue) (criteria : String) (e : Edge)
    (st : DState P) (hw0 : 0 ≤ weightOf criteria e) (hw1 : weightOf criteria e ≤ INT_MAX)
    (hr : inRange (st.cost e.dst)) :
    relaxEdges P criteria e.dst [e, e] st = relaxEdges P criteria e.dst [e] st := by
  by_cases hc : wrapInt (st.cost e.dst + weightOf criteria e) < st.cost e.dst
  · have hkey : setKey st.cost e.dst (wrapInt (st.cost e.dst + weightOf criteria e)) e.dst =
        wrapInt (st.cost e.dst + weightOf criteria e) := by simp [setKey]
    have h2 : ¬ wrapInt (wrapInt (st.cost e.dst + weightOf criteria e) + weightOf criteria e) <
        wrapInt (st.cost e.dst + weightOf criteria e) := by
      unfold inRange at hr
      unfold INT_MAX at hw1
      unfold wrapInt at hc ⊢
      omega
    simp only [relaxEdges, hc, if_true, hkey]
    rw [if_neg h2]
  · simp [relaxEdges, hc]

theorem relaxEdges_self_four (P : MinQueue) (criteria : String) (e : Edge)
    (st : DState P) (hw0 : 0 ≤ weightOf criteria e) (hw1 : weightOf criteria e ≤ INT_MAX)
    (hr : ∀ v, inRange (st.cost v)) :
    relaxEdges P criteria e.dst [e, e, e, e] st = relaxEdges P criteria e.dst [e, e] st := by
  have h4 : [e, e, e, e] = [e, e] ++ [e, e] := rfl
  rw [h4, relaxEdges_append, relaxEdges_self_twice P criteria e st hw0 hw1 (hr e.dst),
    relaxEdges_self_twice P criteria e _ hw0 hw1
      (relaxEdges_range P criteria e.dst [e] st hr e.dst),
    ← relaxEdges_append]
  exact relaxEdges_self_twice P criteria e st hw0 hw1 (hr e.dst)

theorem dijkstraLoop_repeat_self (P : MinQueue) {g1 g2 : Graph} (criteria end_ : String)
    (hrel : ∀ x, graphAt g2 x = graphAt g1 x ∨
      ∃ es e, e.dst = x ∧ 0 ≤ weightOf criteria e ∧ weightOf criteria e ≤ INT_MAX ∧
        graphAt g1 x = es ++ [e, e] ∧ graphAt g2 x = es ++ [e, e, e, e]) :
    ∀ (fuel : Nat) (st : DState P), (∀ v, inRange (st.cost v)) →
      dijkstraLoop P g2 end_ criteria fuel st = dijkstraLoop P g1 end_ criteria fuel st := by
  intro fuel
  induction fuel with
  | zero => intro st _; rfl
  | succ n ih =>
    intro st hr
    simp only [dijkstraLoop]
    cases P.pop st.pq with
    | none => rfl
    | some r =>
      obtain ⟨top, rest⟩ := r
      simp only
      split
      · rfl
      · have hr' : ∀ v, inRange (({ st with pq := rest } : DState P).cost v) := hr
        rcases hrel top.2 with h | ⟨es, e, hd, hw0, hw1, h1, h2⟩
        · rw [h]
          exact ih _ (relaxEdges_range P criteria top.2 _ _ hr')
        · rw [h1, h2, relaxEdges_append, ← hd,
            relaxEdges_self_four P criteria e _ hw0 hw1
              (relaxEdges_range P criteria e.dst es _ hr'),
            ← relaxEdges_append]
          apply ih
          exact relaxEdges_range P criteria e.dst _ _ hr'

theorem addConnection_self_rel (g : Graph) (a : String) (t : Int) (d : Rat) (c : Int)
    (l : String) (x : String) :
    graphAt (addConnection (addConnection g ⟨a, a, t, d, c, l⟩) ⟨a, a, t, d, c, l⟩) x =
        graphAt (addConnection g ⟨a, a, t, d, c, l⟩) x ∨
      ∃ es e, e.dst = x ∧ e = ⟨a, t, d, c, l⟩ ∧
        graphAt (addConnection g ⟨a, a, t, d, c, l⟩) x = es ++ [e, e] ∧
        graphAt (addConnection (addConnection g ⟨a, a, t, d, c, l⟩) ⟨a, a, t, d, c, l⟩) x =
          es ++ [e, e, e, e] := by
  rw [addConnection_twice_at, graphAt_addConnection]
  by_cases hxa : x = a
  · subst hxa
    right
    exact ⟨graphAt g x, ⟨x, t, d, c, l⟩, rfl, rfl, by simp, by simp⟩
  · left
    simp [hxa]

/-- Storing a connection `A-A` a second time leaves every run of `dijkstra`
unchanged when its weight under the criterion lies in `0..INT_MAX`. -/
theorem dijkstra_repeat_self (P : MinQueue) (g : Graph) (a : String) (t : Int) (d : Rat)
    (c : Int) (l : String) (criteria start end_ : String) (fuel : Nat)
    (hw0 : 0 ≤ weightOf criteria ⟨a, t, d, c, l⟩)
    (hw1 : weightOf criteria ⟨a, t, d, c, l⟩ ≤ INT_MAX) :
    dijkstra P (addConnection (addConnection g ⟨a, a, t, d, c, l⟩) ⟨a, a, t, d, c, l⟩)
        fuel start end_ criteria =
      dijkstra P (addConnection g ⟨a, a, t, d, c, l⟩) fuel start end_ criteria := by
  unfold dijkstra
  rw [dijkstraInit_congr P start (graphKeys_addConnection_twice g a a t d c l),
    dijkstraLoop_repeat_self P criteria end_ (fun x => by
      rcases addConnection_self_rel g a t d c l x with h | ⟨es, e, hd, he, h1, h2⟩
      · exact Or.inl h
      · exact Or.inr ⟨es, e, hd, by rw [he]; exact hw0, by rw [he]; exact hw1, h1, h2⟩)
      fuel _ (dGen_init P _ start).range]

/-! ## Properties of the program -/

/-- C1: on a graph built by the two-sided insertion from records with
non-negative time and cost, if the sums formed under the chosen criterion (a
walk from the source to a station, followed by a connection stored there)
stay within the range of `int`, then for a destination joined to the source
by a walk `dijkstra` returns a sequence whose cumulative weight (each hop
over the cheapest parallel connection) is at most the weight of every walk
from source to destination.  A non-empty result is a path from source to
destination, and the result is non-empty when the sums stay below `INT_MAX`. -/
theorem dijkstra_minimal_weight (P : MinQueue) (rs : List Record)
    (criteria start end_ : String) (fuel : Nat)
    (hnn : ∀ r ∈ rs, 0 ≤ r.time ∧ 0 ≤ r.cost)
    (hsum : SumsWithin INT_MAX criteria (buildGraph rs) start)
    (hreach : Reachable (buildGraph rs) start end_)
    (hf : dijkstraFuel (buildGraph rs) ≤ fuel) :
    ∃ r, dijkstra P (buildGraph rs) fuel start end_ criteria = some r ∧
      (∀ es, IsWalk (buildGraph rs) start es end_ →
        pathWeight (buildGraph rs) criteria r ≤ walkWeight criteria es) ∧
      (r ≠ [] → IsPath (buildGraph rs) start end_ r) ∧
      (SumsWithin (INT_MAX - 1) criteria (buildGraph rs) start → r ≠ []) := by
  obtain ⟨r, hr, hopt, hpath, hiff⟩ := dijkstra_correct P (buildGraph rs) criteria start end_
    (buildGraph_safe criteria rs start hnn hsum) fuel hf
  exact ⟨r, hr, hopt, fun hne => (hpath hne).1, fun hlt h0 => ((hiff hlt).1 h0) hreach⟩

theorem dijkstra_minimal_weight_witness :
    (∀ r ∈ demoRecords 1 1 2 "L1" "L1" "L2", 0 ≤ r.time ∧ 0 ≤ r.cost) ∧
    SumsWithin INT_MAX "time" (buildGraph (demoRecords 1 1 2 "L1" "L1" "L2")) "A" ∧
    Reachable (buildGraph (demoRecords 1 1 2 "L1" "L1" "L2")) "A" "C" ∧
    ∃ r, dijkstra listQueue (buildGraph (demoRecords 1 1 2 "L1" "L1" "L2"))
        (dijkstraFuel (buildGraph (demoRecords 1 1 2 "L1" "L1" "L2"))) "A" "C" "time" = some r ∧
      (∀ es, IsWalk (buildGraph (demoRecords 1 1 2 "L1" "L1" "L2")) "A" es "C" →
        pathWeight (buildGraph (demoRecords 1 1 2 "L1" "L1" "L2")) "time" r ≤
          walkWeight "time" es) ∧
      (r ≠ [] → IsPath (buildGraph (demoRecords 1 1 2 "L1" "L1" "L2")) "A" "C" r) ∧
      (SumsWithin (INT_MAX - 1) "time" (buildGraph (demoRecords 1 1 2 "L1" "L1" "L2")) "A" →
        r ≠ []) :=
  ⟨by decide,
    (wellWeighted_safe "time" _
      (buildGraph_wellWeighted "time" _ (by decide) (by decide)) "A").sums,
    ⟨[⟨"C", 10, 2, 1, "L2"⟩], by simp [IsWalk]; decide⟩,
    dijkstra_minimal_weight listQueue (demoRecords 1 1 2 "L1" "L1" "L2") "time" "A" "C" _
      (by decide)
      (wellWeighted_safe "time" _
        (buildGraph_wellWeighted "time" _ (by decide) (by decide)) "A").sums
      ⟨[⟨"C", 10, 2, 1, "L2"⟩], by simp [IsWalk]; decide⟩ (le_refl _)⟩

/-- C2: on every graph and for stations joined by a walk, `bfsLeastStops`
returns a path from source to destination whose number of hops (length minus
one) is at most the number of connections of every walk from source to
destination. -/
theorem bfs_fewest_stops (g : Graph) (start end_ : String) (fuel : Nat)
    (hreach : Reachable g start end_) (hf : bfsFuel g ≤ fuel) :
    ∃ r, bfsLeastStops g fuel start end_ = some r ∧ IsPath g start end_ r ∧
      ∀ es, IsWalk g start es end_ → r.length - 1 ≤ es.length := by
  obtain ⟨r, hr⟩ := bfsLeastStops_returns g start end_ fuel hf
  rcases bfsLeastStops_sound hr with ⟨_, hnr⟩ | ⟨hpath, _, hmin⟩
  · exact absurd hreach hnr
  · refine ⟨r, hr, hpath, ?_⟩
    intro es hw
    have := hmin es hw
    omega

theorem bfs_fewest_stops_witness :
    Reachable (buildGraph (demoRecords 1 1 2 "L1" "L1" "L2")) "A" "C" ∧
    bfsFuel (buildGraph (demoRecords 1 1 2 "L1" "L1" "L2")) ≤ 14 ∧
    ∃ r, bfsLeastStops (buildGraph (demoRecords 1 1 2 "L1" "L1" "L2")) 14 "A" "C" = some r ∧
      IsPath (buildGraph (demoRecords 1 1 2 "L1" "L1" "L2")) "A" "C" r ∧
      ∀ es, IsWalk (buildGraph (demoRecords 1 1 2 "L1" "L1" "L2")) "A" es "C" →
        r.length - 1 ≤ es.length :=
  ⟨⟨[⟨"C", 10, 2, 1, "L2"⟩], by simp [IsWalk]; decide⟩, by decide,
    bfs_fewest_stops (buildGraph (demoRecords 1 1 2 "L1" "L1" "L2")) "A" "C" 14
      ⟨[⟨"C", 10, 2, 1, "L2"⟩], by simp [IsWalk]; decide⟩ (by decide)⟩

/-- C3: on every graph and with any weights, a non-empty sequence returned by
`bfsLeastStops` or by `dijkstra` under any criterion begins with the source,
ends with the destination, and every two consecutive stations `u`, `v` of it
are joined by a connection to `v` stored in the list of `u`. -/
theorem search_result_is_path (P : MinQueue) (g : Graph) (start end_ criteria : String)
    (fuel : Nat) (r : List String)
    (hr : bfsLeastStops g fuel start end_ = some r ∨
      dijkstra P g fuel start end_ criteria = some r)
    (hne : r ≠ []) :
    r.head? = some start ∧ r.getLast? = some end_ ∧
      List.Chain' (fun u v => ∃ e ∈ graphAt g u, e.dst = v) r := by
  rcases hr with hr | hr
  · rcases bfsLeastStops_sound hr with ⟨h0, _⟩ | ⟨hpath, _, _⟩
    · exact absurd h0 hne
    · exact hpath
  · rcases dijkstra_sound hr with h0 | ⟨hpath, _⟩
    · exact absurd h0 hne
    · exact hpath

theorem search_result_is_path_witness :
    (bfsLeastStops (buildGraph (demoRecords 1 1 2 "L1" "L1" "L2")) 9 "A" "C" = some ["A", "C"] ∨
      dijkstra listQueue (buildGraph (demoRecords 1 1 2 "L1" "L1" "L2")) 9 "A" "C" "time" =
        some ["A", "C"]) ∧
    ["A", "C"] ≠ [] ∧
    (["A", "C"].head? = some "A" ∧ ["A", "C"].getLast? = some "C" ∧
      List.Chain'
        (fun u v => ∃ e ∈ graphAt (buildGraph (demoRecords 1 1 2 "L1" "L1" "L2")) u, e.dst = v)
        ["A", "C"]) :=
  ⟨Or.inl (by decide), by decide,
    search_result_is_path listQueue (buildGraph (demoRecords 1 1 2 "L1" "L1" "L2")) "A" "C"
      "time" 9 ["A", "C"] (Or.inl (by decide)) (by decide)⟩

/-- C4 fails as stated: on the graph built from the single record `A-B` with
time `INT_MAX` (a non-negative `int`), `B` is joined to `A` by a walk and
`bfsLeastStops` finds it, yet `dijkstra` returns the empty sequence. -/
theorem dijkstra_empty_despite_walk :
    (∀ r ∈ heavyRecords, 0 ≤ r.time ∧ 0 ≤ r.cost) ∧ "A" ≠ "B" ∧
    Reachable (buildGraph heavyRecords) "A" "B" ∧
    bfsLeastStops (buildGraph heavyRecords) (dijkstraFuel (buildGraph heavyRecords)) "A" "B" =
      some ["A", "B"] ∧
    dijkstra listQueue (buildGraph heavyRecords) (dijkstraFuel (buildGraph heavyRecords))
      "A" "B" "time" = some [] :=
  ⟨by decide, by decide, ⟨[⟨"B", 2147483647, 1, 2147483647, "L1"⟩], by simp [IsWalk]; decide⟩,
    by decide, by decide⟩

/-- C4, amended: on a graph built by the two-sided insertion from records
with non-negative time and cost, if the sums formed under the criterion (a
walk from the source to a station, followed by a connection stored there)
stay below `INT_MAX`, then `bfsLeastStops` and `dijkstra` return, and each
returns the empty sequence if and only if no walk leads from the source to
the destination. -/
theorem search_empty_iff_unreachable (P : MinQueue) (rs : List Record)
    (criteria start end_ : String) (fuel : Nat)
    (hnn : ∀ r ∈ rs, 0 ≤ r.time ∧ 0 ≤ r.cost)
    (hsum : SumsWithin (INT_MAX - 1) criteria (buildGraph rs) start)
    (hf : dijkstraFuel (buildGraph rs) ≤ fuel) :
    (∃ r, bfsLeastStops (buildGraph rs) fuel start end_ = some r ∧
      (r = [] ↔ ¬ Reachable (buildGraph rs) start end_)) ∧
    (∃ r, dijkstra P (buildGraph rs) fuel start end_ criteria = some r ∧
      (r = [] ↔ ¬ Reachable (buildGraph rs) start end_)) := by
  constructor
  · have hbf : bfsFuel (buildGraph rs) ≤ fuel := by
      simp only [bfsFuel, dijkstraFuel] at hf ⊢
      omega
    obtain ⟨r, hr⟩ := bfsLeastStops_returns (buildGraph rs) start end_ fuel hbf
    refine ⟨r, hr, ?_⟩
    rcases bfsLeastStops_sound hr with ⟨h0, hnr⟩ | ⟨hpath, _, _⟩
    · simp [h0, hnr]
    · constructor
      · intro h0
        rw [h0] at hpath
        simp [IsPath] at hpath
      · intro hnr
        exact absurd (isPath_reachable hpath) hnr
  · obtain ⟨r, hr, _, _, hiff⟩ := dijkstra_correct P (buildGraph rs) criteria start end_
      (buildGraph_safe criteria rs start hnn (sumsWithin_mono (by omega) hsum)) fuel hf
    exact ⟨r, hr, hiff hsum⟩

theorem search_empty_iff_unreachable_witness :
    (∀ r ∈ demoRecords 1 1 2 "L1" "L1" "L2", 0 ≤ r.time ∧ 0 ≤ r.cost) ∧
    SumsWithin (INT_MAX - 1) "cost" (buildGraph (demoRecords 1 1 2 "L1" "L1" "L2")) "A" ∧
    (∃ r, bfsLeastStops (buildGraph (demoRecords 1 1 2 "L1" "L1" "L2"))
        (dijkstraFuel (buildGraph (demoRecords 1 1 2 "L1" "L1" "L2"))) "A" "D" = some r ∧
      (r = [] ↔ ¬ Reachable (buildGraph (demoRecords 1 1 2 "L1" "L1" "L2")) "A" "D")) ∧
    (∃ r, dijkstra listQueue (buildGraph (demoRecords 1 1 2 "L1" "L1" "L2"))
        (dijkstraFuel (buildGraph (demoRecords 1 1 2 "L1" "L1" "L2"))) "A" "D" "cost" = some r ∧
      (r = [] ↔ ¬ Reachable (buildGraph (demoRecords 1 1 2 "L1" "L1" "L2")) "A" "D")) :=
  ⟨by decide,
    wellWeighted_sums "cost" _ (buildGraph_wellWeighted "cost" _ (by decide) (by decide)) "A",
    search_empty_iff_unreachable listQueue (demoRecords 1 1 2 "L1" "L1" "L2") "cost" "A" "D" _
      (by decide)
      (wellWeighted_sums "cost" _ (buildGraph_wellWeighted "cost" _ (by decide) (by decide)) "A")
      (le_refl _)⟩

/-- C5: on every graph (the empty one and those that do not know the station
included), for every station `s` and every criterion, `bfsLeastStops(s, s)`
and `dijkstra(s, s, criteria)` return exactly `[s]`, with any fuel that
allows one iteration. -/
theorem search_same_station (P : MinQueue) (g : Graph) (s criteria : String) (fuel : Nat) :
    bfsLeastStops g (fuel + 1) s s = some [s] ∧
      dijkstra P g (fuel + 1) s s criteria = some [s] := by
  constructor
  · simp [bfsLeastStops, bfsLoop, bfsInit, reconstructPath, reconstructLoop]
  · unfold dijkstra
    have hmem : ∀ x ∈ P.toList (dijkstraInit P g s).pq, x = (0, s) := by
      intro x hx
      rcases (mem_toList_push P _ x P.empty).1 hx with hx | hx
      · exact hx
      · rw [P.toList_empty] at hx; simp at hx
    cases hpop : P.pop (dijkstraInit P g s).pq with
    | none =>
      have hnil := (P.pop_none _).1 hpop
      have := (mem_toList_push P (0, s) (0, s) P.empty).2 (Or.inl rfl)
      simp only [dijkstraInit] at hnil
      rw [hnil] at this
      simp at this
    | some r =>
      obtain ⟨top, rest⟩ := r
      have htop : top = (0, s) := hmem top ((mem_toList_pop hpop top).2 (Or.inl rfl))
      subst htop
      simp [dijkstraLoop, hpop, reconstructPath, reconstructLoop]

/-- C6: on every graph and for every source different from the destination,
if the source or the destination is neither a key of the map nor the far end
of any stored connection, then `bfsLeastStops` and `dijkstra`, under every
criterion, return the empty sequence. -/
theorem search_unknown_station (P : MinQueue) (g : Graph) (start end_ criteria : String)
    (fuel : Nat) (hne : start ≠ end_) (hun : Unknown g start ∨ Unknown g end_)
    (hf : dijkstraFuel g ≤ fuel) :
    bfsLeastStops g fuel start end_ = some [] ∧
      dijkstra P g fuel start end_ criteria = some [] := by
  have hnr : ¬ Reachable g start end_ := by
    rintro ⟨es, hw⟩
    rcases hun with hs | he
    · cases es with
      | nil => exact hne hw
      | cons e es =>
        simp only [IsWalk] at hw
        rw [graphAt_of_not_key g start hs.1] at hw
        simp at hw
    · obtain ⟨e, he1, he2⟩ := isWalk_last es start end_ hw hne
      exact he.2 e he1 he2
  have hbf : bfsFuel g ≤ fuel := by
    simp only [bfsFuel, dijkstraFuel] at hf ⊢
    omega
  constructor
  · obtain ⟨r, hr⟩ := bfsLeastStops_returns g start end_ fuel hbf
    rcases bfsLeastStops_sound hr with ⟨h0, _⟩ | ⟨hpath, _, _⟩
    · rw [hr, h0]
    · exact absurd (isPath_reachable hpath) hnr
  · obtain ⟨st', hl⟩ := dijkstraLoop_returns P g start end_ criteria fuel hf
    have hfuel : fuel ≠ 0 := by simp only [dijkstraFuel] at hf; omega
    obtain ⟨n, rfl⟩ := Nat.exists_eq_succ_of_ne_zero hfuel
    have hpar : st'.parent end_ = none := by
      rcases hun with hs | he
      · obtain ⟨st1, hJ, hp1, _, _⟩ := dijkstraLoop_rule P g end_ criteria
          (fun st : DState P => (∀ v, st.parent v = none) ∧
            ∀ x ∈ P.toList st.pq, x.2 = start)
          (by
            intro st top rest hJ hpop _
            have htop : top.2 = start :=
              hJ.2 top ((mem_toList_pop hpop top).2 (Or.inl rfl))
            rw [htop, graphAt_of_not_key g start hs.1]
            exact ⟨hJ.1, fun x hx => hJ.2 x ((mem_toList_pop hpop x).2 (Or.inr hx))⟩)
          (n + 1) _ st' (by
            refine ⟨fun v => rfl, ?_⟩
            intro x hx
            rcases (mem_toList_push P _ x P.empty).1 hx with hx | hx
            · rw [hx]
            · rw [P.toList_empty] at hx; simp at hx) hl
        rw [hp1]
        exact hJ.1 end_
      · obtain ⟨st0, hI, hp, _, _⟩ := dijkstraLoop_rule P g end_ criteria (DGen P g)
          (fun st top rest hI _ _ => dGen_step P g criteria st top rest hI)
          (n + 1) _ st' (dGen_init P g start) hl
        rw [hp]
        cases hq : st0.parent end_ with
        | none => rfl
        | some u =>
          obtain ⟨e, he1, he2⟩ := hI.link end_ u hq
          exact absurd he2 (he.2 e (graphAt_subset_allEdges g u e he1))
    unfold dijkstra
    rw [hl]
    exact reconstructPath_dead (Ne.symm hne) hpar n

theorem search_unknown_station_witness :
    "A" ≠ "D" ∧
    (Unknown (buildGraph (demoRecords 1 1 2 "L1" "L1" "L2")) "A" ∨
      Unknown (buildGraph (demoRecords 1 1 2 "L1" "L1" "L2")) "D") ∧
    bfsLeastStops (buildGraph (demoRecords 1 1 2 "L1" "L1" "L2"))
      (dijkstraFuel (buildGraph (demoRecords 1 1 2 "L1" "L1" "L2"))) "A" "D" = some [] ∧
    dijkstra listQueue (buildGraph (demoRecords 1 1 2 "L1" "L1" "L2"))
      (dijkstraFuel (buildGraph (demoRecords 1 1 2 "L1" "L1" "L2"))) "A" "D" "time" = some [] :=
  ⟨by decide, Or.inr ⟨by decide, by decide⟩,
    search_unknown_station listQueue (buildGraph (demoRecords 1 1 2 "L1" "L1" "L2")) "A" "D"
      "time" _ (by decide) (Or.inr ⟨by decide, by decide⟩) (le_refl _)⟩

/-- C8: in a graph built from the empty map by any sequence of records, every
connection stored in the list of `u` has its mirror image, with the same
time, distance, cost and line, stored in the list of its far end; and a
record appends one forward connection at the end of the list of its first
station and one reverse connection at the end of the list of its second
station, leaving every other list as it was. -/
theorem records_stored_both_ways :
    (∀ (rs : List Record) (u : String) (e : Edge), e ∈ graphAt (buildGraph rs) u →
      (⟨u, e.time, e.distance, e.cost, e.line⟩ : Edge) ∈ graphAt (buildGraph rs) e.dst) ∧
    (∀ (g : Graph) (r : Record) (x : String),
      graphAt (addConnection g r) x =
        (graphAt g x ++
          if x = r.src then [⟨r.dst, r.time, r.distance, r.cost, r.line⟩] else []) ++
          if x = r.dst then [⟨r.src, r.time, r.distance, r.cost, r.line⟩] else []) ∧
    (∀ (g : Graph) (rs : List Record) (r : Record),
      loadMetroData g (rs ++ [r]) = addConnection (loadMetroData g rs) r) :=
  ⟨fun rs => mirrored_buildGraph rs, graphAt_addConnection,
    fun g rs r => by simp [loadMetroData, List.foldl_append]⟩

/-- C9: for every graph, source, destination and every criterion other than
`"time"` (the empty string and unrecognised values included), the weight of a
connection is its cost and `dijkstra` returns what it returns for `"cost"`. -/
theorem dijkstra_criteria_default (P : MinQueue) (g : Graph) (start end_ c : String)
    (fuel : Nat) (hc : c ≠ "time") :
    (∀ e, weightOf c e = e.cost) ∧
      dijkstra P g fuel start end_ c = dijkstra P g fuel start end_ "cost" := by
  have hw : weightOf c = weightOf "cost" := by
    funext e
    simp [weightOf, hc]
  have hrel : relaxEdges P c = relaxEdges P "cost" := by
    funext curr es
    induction es with
    | nil => funext st; simp [relaxEdges]
    | cons e es ih =>
      funext st
      simp only [relaxEdges, hw, ih]
  have hloop : ∀ (fuel : Nat) (st : DState P),
      dijkstraLoop P g end_ c fuel st = dijkstraLoop P g end_ "cost" fuel st := by
    intro fuel
    induction fuel with
    | zero => intro st; rfl
    | succ n ih =>
      intro st
      simp only [dijkstraLoop, hrel, ih]
  refine ⟨fun e => by simp [weightOf, hc], ?_⟩
  simp only [dijkstra, hloop]

theorem dijkstra_criteria_default_witness :
    "" ≠ "time" ∧
    ((∀ e, weightOf "" e = e.cost) ∧
      dijkstra listQueue (buildGraph (demoRecords 1 1 2 "L1" "L1" "L2")) 9 "A" "C" "" =
        dijkstra listQueue (buildGraph (demoRecords 1 1 2 "L1" "L1" "L2")) 9 "A" "C" "cost") :=
  ⟨by decide,
    dijkstra_criteria_default listQueue (buildGraph (demoRecords 1 1 2 "L1" "L1" "L2"))
      "A" "C" "" 9 (by decide)⟩

/-- C7: on the graph built from the records `A-B (time=5, cost=2)`,
`B-C (time=3, cost=4)`, `A-C (time=10, cost=1)` in that order, whatever their
distances and line labels, `bfsLeastStops(A, C)` returns `[A, C]`,
`dijkstra(A, C, "time")` returns `[A, B, C]` and `dijkstra(A, C, "cost")`
returns `[A, C]`, for every priority queue and any fuel of three or more. -/
theorem demo_scenario (P : MinQueue) (d1 d2 d3 : Rat) (l1 l2 l3 : String) (n : Nat) :
    bfsLeastStops (buildGraph (demoRecords d1 d2 d3 l1 l2 l3)) (n + 3) "A" "C" =
      some ["A", "C"] ∧
    dijkstra P (buildGraph (demoRecords d1 d2 d3 l1 l2 l3)) (n + 3) "A" "C" "time" =
      some ["A", "B", "C"] ∧
    dijkstra P (buildGraph (demoRecords d1 d2 d3 l1 l2 l3)) (n + 3) "A" "C" "cost" =
      some ["A", "C"] := by
  have hA : graphAt (buildGraph (demoRecords d1 d2 d3 l1 l2 l3)) "A" =
      [⟨"B", 5, d1, 2, l1⟩, ⟨"C", 10, d3, 1, l3⟩] := by
    simp [buildGraph, loadMetroData, demoRecords, addConnection, pushEdge, graphAt]
  have hB : graphAt (buildGraph (demoRecords d1 d2 d3 l1 l2 l3)) "B" =
      [⟨"A", 5, d1, 2, l1⟩, ⟨"C", 3, d2, 4, l2⟩] := by
    simp [buildGraph, loadMetroData, demoRecords, addConnection, pushEdge, graphAt]
  have hK : graphKeys (buildGraph (demoRecords d1 d2 d3 l1 l2 l3)) = ["A", "B", "C"] := by
    simp [buildGraph, loadMetroData, demoRecords, addConnection, pushEdge, graphKeys]
  obtain ⟨q0, hq0, hl0⟩ := pop_least P (P.push (0, "A") P.empty) (0, "A") []
    (perm_push P _ _ _ (by rw [P.toList_empty])) (by simp)
  refine ⟨?_, ?_, ?_⟩
  · simp [bfsLeastStops, bfsLoop, bfsInit, bfsExpand, hA, hB, setKey, reconstructPath,
      reconstructLoop]
  · obtain ⟨q1, hq1, hl1⟩ := pop_least P (P.push (10, "C") (P.push (5, "B") q0)) (5, "B")
      [(10, "C")]
      ((perm_push P _ _ _ (perm_push P _ _ _ hl0)).trans (List.Perm.swap _ _ _)) (by simp)
    obtain ⟨q2, hq2, _⟩ := pop_least P (P.push (8, "C") q1) (8, "C") [(10, "C")]
      (perm_push P _ _ _ hl1) (by simp)
    simp [dijkstra, dijkstraLoop, dijkstraInit, hq0, hA, hB, hK, relaxEdges, weightOf, setKey,
      wrapInt, INT_MAX, hq1, hq2, reconstructPath, reconstructLoop]
  · obtain ⟨q1, hq1, _⟩ := pop_least P (P.push (1, "C") (P.push (2, "B") q0)) (1, "C")
      [(2, "B")] (perm_push P _ _ _ (perm_push P _ _ _ hl0)) (by simp)
    simp [dijkstra, dijkstraLoop, dijkstraInit, hq0, hA, hK, relaxEdges, weightOf, setKey,
      wrapInt, INT_MAX, hq1, reconstructPath, reconstructLoop]

/-- Outside the data model, where a connection from a station to itself
carries a negative weight, storing it again can change what `dijkstra`
finds: after the records `C-B` and `A-B` (negative weights), storing `A-A`
once leaves `dijkstra(A, C, "time")` empty, and storing it a second time
makes the same search return `[A, B, C]` (the sums wrap round). -/
theorem dijkstra_reach_changes_on_repeat :
    dijkstraReaches listQueue
        (addConnection (addConnection (buildGraph steepRecords) steepLoop)
          ⟨steepLoop.dst, steepLoop.src, steepLoop.time, steepLoop.distance, steepLoop.cost,
            steepLoop.line⟩) "time" "A" "C" ∧
      ¬ dijkstraReaches listQueue (addConnection (buildGraph steepRecords) steepLoop)
        "time" "A" "C" := by
  constructor
  · exact ⟨12, ["A", "B", "C"], by decide, by decide⟩
  · rintro ⟨fuel, r, hr, hne⟩
    have h1 := dijkstra_fuel listQueue _ "A" "C" "time" r 12 fuel hr
    have h2 := dijkstra_fuel listQueue (addConnection (buildGraph steepRecords) steepLoop)
      "A" "C" "time" [] fuel 12 (by decide)
    rw [Nat.add_comm 12 fuel, h1] at h2
    simp only [Option.some.injEq] at h2
    exact hne h2

/-- C10: for every graph, stations `a`, `b` and weights, storing the
connection `a-b` and then `b-a` gives the same reachability relation of
`bfsLeastStops` as storing `a-b` alone, and the same reachability relation of
`dijkstra` under every criterion and for every queue.  Weights are `int`
values of the data model: when the connection joins a station to itself,
its weight under the criterion lies in `0..INT_MAX`; between two different
stations the weight may be any integer. -/
theorem reachability_after_repeat (g : Graph) (a b : String) (t : Int) (d : Rat) (c : Int)
    (l : String) :
    (∀ s e,
      bfsReaches (addConnection (addConnection g ⟨a, b, t, d, c, l⟩) ⟨b, a, t, d, c, l⟩) s e ↔
        bfsReaches (addConnection g ⟨a, b, t, d, c, l⟩) s e) ∧
    (∀ (P : MinQueue) (criteria s e : String),
      (a = b → 0 ≤ weightOf criteria ⟨b, t, d, c, l⟩ ∧
        weightOf criteria ⟨b, t, d, c, l⟩ ≤ INT_MAX) →
      (dijkstraReaches P
          (addConnection (addConnection g ⟨a, b, t, d, c, l⟩) ⟨b, a, t, d, c, l⟩) criteria s e ↔
        dijkstraReaches P (addConnection g ⟨a, b, t, d, c, l⟩) criteria s e)) := by
  constructor
  · intro s e
    simp only [bfsReaches, bfs_repeat]
  · intro P criteria s e h
    by_cases hab : a = b
    · subst hab
      obtain ⟨hw0, hw1⟩ := h rfl
      simp only [dijkstraReaches, dijkstra_repeat_self P g a t d c l criteria _ _ _ hw0 hw1]
    · simp only [dijkstraReaches, dijkstra_repeat_ne P g a b t d c l hab]

theorem reachability_after_repeat_witness :
    ("A" = "A" → 0 ≤ weightOf "time" ⟨"A", 5, 1, 7, "L3"⟩ ∧
      weightOf "time" ⟨"A", 5, 1, 7, "L3"⟩ ≤ INT_MAX) ∧
    (dijkstraReaches listQueue
        (addConnection
          (addConnection (buildGraph (demoRecords 1 1 2 "L1" "L1" "L2"))
            ⟨"A", "A", 5, 1, 7, "L3"⟩)
          ⟨"A", "A", 5, 1, 7, "L3"⟩) "time" "A" "C" ↔
      dijkstraReaches listQueue
        (addConnection (buildGraph (demoRecords 1 1 2 "L1" "L1" "L2"))
          ⟨"A", "A", 5, 1, 7, "L3"⟩) "time" "A" "C") ∧
    dijkstraReaches listQueue
      (addConnection (buildGraph (demoRecords 1 1 2 "L1" "L1" "L2"))
        ⟨"A", "A", 5, 1, 7, "L3"⟩) "time" "A" "C" ∧
    (dijkstraReaches listQueue
        (addConnection (addConnection (buildGraph steepRecords) ⟨"A", "D", -4, 1, 7, "L3"⟩)
          ⟨"D", "A", -4, 1, 7, "L3"⟩) "time" "A" "D" ↔
      dijkstraReaches listQueue
        (addConnection (buildGraph steepRecords) ⟨"A", "D", -4, 1, 7, "L3"⟩) "time" "A" "D") :=
  ⟨fun _ => by decide,
    (reachability_after_repeat (buildGraph (demoRecords 1 1 2 "L1" "L1" "L2"))
      "A" "A" 5 1 7 "L3").2 listQueue "time" "A" "C" (fun _ => by decide),
    ⟨9, ["A", "B", "C"], by decide, by decide⟩,
    (reachability_after_repeat (buildGraph steepRecords) "A" "D" (-4) 1 7 "L3").2 listQueue
      "time" "A" "D" (fun h => absurd h (by decide))⟩


/-! ## Fields the searches never read -/

theorem bfsExpand_congr (curr : String) :
    ∀ (es es' : List Edge) (st : BfsState), es.map Edge.dst = es'.map Edge.dst →
      bfsExpand curr es st = bfsExpand curr es' st := by
  intro es
  induction es with
  | nil =>
    intro es' st h
    cases es' with
    | nil => rfl
    | cons _ _ => simp at h
  | cons e es ih =>
    intro es' st h
    cases es' with
    | nil => simp at h
    | cons e' es' =>
      simp only [List.map_cons, List.cons.injEq] at h
      obtain ⟨hd, ht⟩ := h
      simp only [bfsExpand, hd]
      split
      · exact ih es' _ ht
      · exact ih es' _ ht

theorem bfsLoop_congr {g1 g2 : Graph} (end_ : String)
    (he : ∀ x, (graphAt g1 x).map Edge.dst = (graphAt g2 x).map Edge.dst) :
    ∀ (fuel : Nat) (st : BfsState), bfsLoop g1 end_ fuel st = bfsLoop g2 end_ fuel st := by
  intro fuel
  induction fuel with
  | zero => intro st; rfl
  | succ n ih =>
    intro st
    cases hq : st.q with
    | nil => simp [bfsLoop, hq]
    | cons curr rest =>
      by_cases hc : curr = end_
      · simp [bfsLoop, hq, hc]
      · simp only [bfsLoop, hq, hc, if_false]
        rw [bfsExpand_congr curr _ _ _ (he curr)]
        exact ih _

theorem bfsLeastStops_congr {g1 g2 : Graph} (fuel : Nat) (start end_ : String)
    (he : ∀ x, (graphAt g1 x).map Edge.dst = (graphAt g2 x).map Edge.dst) :
    bfsLeastStops g1 fuel start end_ = bfsLeastStops g2 fuel start end_ := by
  unfold bfsLeastStops
  rw [bfsLoop_congr end_ he]

theorem relaxEdges_congr (P : MinQueue) (criteria curr : String) :
    ∀ (es es' : List Edge) (st : DState P),
      es.map sansDistance = es'.map sansDistance →
      relaxEdges P criteria curr es st = relaxEdges P criteria curr es' st := by
  intro es
  induction es with
  | nil =>
    intro es' st h
    cases es' with
    | nil => rfl
    | cons _ _ => simp at h
  | cons e es ih =>
    intro es' st h
    cases es' with
    | nil => simp at h
    | cons e' es' =>
      simp only [List.map_cons, List.cons.injEq, sansDistance, Prod.mk.injEq] at h
      obtain ⟨⟨hd, ht, hc, _⟩, hrest⟩ := h
      have hw : weightOf criteria e = weightOf criteria e' := by
        simp [weightOf, ht, hc]
      simp only [relaxEdges, hd, hw]
      split
      · exact ih es' _ hrest
      · exact ih es' _ hrest

theorem dijkstraLoop_congr (P : MinQueue) {g1 g2 : Graph} (end_ criteria : String)
    (he : ∀ x, (graphAt g1 x).map sansDistance = (graphAt g2 x).map sansDistance) :
    ∀ (fuel : Nat) (st : DState P),
      dijkstraLoop P g1 end_ criteria fuel st = dijkstraLoop P g2 end_ criteria fuel st := by
  intro fuel
  induction fuel with
  | zero => intro st; rfl
  | succ n ih =>
    intro st
    cases hpop : P.pop st.pq with
    | none => simp [dijkstraLoop, hpop]
    | some r =>
      obtain ⟨top, rest⟩ := r
      by_cases hc : top.2 = end_
      · simp [dijkstraLoop, hpop, hc]
      · simp only [dijkstraLoop, hpop, hc, if_false]
        rw [relaxEdges_congr P criteria top.2 _ _ _ (he top.2)]
        exact ih _

theorem sansDistance_dst (es es' : List Edge)
    (h : es.map sansDistance = es'.map sansDistance) :
    es.map Edge.dst = es'.map Edge.dst := by
  have := congrArg (List.map Prod.fst) h
  simpa [List.map_map, Function.comp_def, sansDistance] using this

theorem graphAt_map_congr {β : Type} (f : Edge → β) :
    ∀ (g1 g2 : Graph),
      g1.map (fun p => (p.1, p.2.map f)) = g2.map (fun p => (p.1, p.2.map f)) →
      ∀ x, (graphAt g1 x).map f = (graphAt g2 x).map f := by
  intro g1
  induction g1 with
  | nil =>
    intro g2 h x
    cases g2 with
    | nil => rfl
    | cons _ _ => simp at h
  | cons p g1 ih =>
    intro g2 h x
    cases g2 with
    | nil => simp at h
    | cons p' g2 =>
      obtain ⟨k, es⟩ := p
      obtain ⟨k', es'⟩ := p'
      simp only [List.map_cons, List.cons.injEq, Prod.mk.injEq] at h
      obtain ⟨⟨hk, hes⟩, hrest⟩ := h
      subst hk
      simp only [graphAt]
      split
      · exact hes
      · exact ih g2 hrest x

theorem graphKeys_map_congr {β : Type} (f : Edge → β) (g1 g2 : Graph)
    (h : g1.map (fun p => (p.1, p.2.map f)) = g2.map (fun p => (p.1, p.2.map f))) :
    graphKeys g1 = graphKeys g2 := by
  have := congrArg (List.map Prod.fst) h
  simpa [List.map_map, Function.comp_def, graphKeys] using this

theorem sameButDistance_of_map (g1 g2 : Graph)
    (h : g1.map (fun p => (p.1, p.2.map sansDistance)) =
      g2.map (fun p => (p.1, p.2.map sansDistance))) : SameButDistance g1 g2 :=
  ⟨fun x => by rw [graphKeys_map_congr sansDistance g1 g2 h],
    graphAt_map_congr sansDistance g1 g2 h⟩

theorem sameShape_of_map (g1 g2 : Graph)
    (h : g1.map (fun p => (p.1, p.2.map Edge.dst)) =
      g2.map (fun p => (p.1, p.2.map Edge.dst))) : SameShape g1 g2 :=
  ⟨fun x => by rw [graphKeys_map_congr Edge.dst g1 g2 h],
    graphAt_map_congr Edge.dst g1 g2 h⟩


/-! ## The backward walk, case by case -/

theorem treePath_links {parent : String → Option String} {start v : String}
    {p : List String} (h : TreePath parent start v p) :
    List.Chain' (fun a b => parent b = some a) p := by
  induction h with
  | base => simp
  | @step v u p hne hpar hp ih =>
    rw [List.chain'_append]
    refine ⟨ih, by simp, ?_⟩
    intro x hx y hy
    rw [treePath_getLast hp] at hx
    simp only [Option.mem_def, Option.some.injEq] at hx
    simp only [List.head?_cons, Option.mem_def, Option.some.injEq] at hy
    subst hx hy
    exact hpar

theorem treePath_not_deadEnd {parent : String → Option String} {start v : String}
    {p : List String} (h : TreePath parent start v p) : ¬ DeadEnd parent start v := by
  induction h with
  | base =>
    intro hd
    cases hd with
    | stop hne _ => exact hne rfl
    | step hne _ _ => exact hne rfl
  | @step v u p hne hpar hp ih =>
    intro hd
    cases hd with
    | stop _ hnone => rw [hnone] at hpar; simp at hpar
    | step _ hpar' hd' =>
      rw [hpar'] at hpar
      simp only [Option.some.injEq] at hpar
      subst hpar
      exact ih hd'

theorem reconstructLoop_cases {parent : String → Option String} {start : String} :
    ∀ fuel v path r, reconstructLoop parent start fuel v path = some r →
      (∃ p, TreePath parent start v p ∧ r = p ++ path.reverse) ∨
        (DeadEnd parent start v ∧ r = []) := by
  intro fuel
  induction fuel with
  | zero => intro v path r h; simp [reconstructLoop] at h
  | succ n ih =>
    intro v path r h
    by_cases hv : v = start
    · subst hv
      simp only [reconstructLoop, if_true, Option.some.injEq] at h
      exact Or.inl ⟨[v], TreePath.base, by simp [← h]⟩
    · simp only [reconstructLoop, hv, if_false] at h
      cases hpar : parent v with
      | none =>
        rw [hpar] at h
        simp only [Option.some.injEq] at h
        exact Or.inr ⟨DeadEnd.stop hv hpar, h.symm⟩
      | some u =>
        rw [hpar] at h
        rcases ih u (path ++ [v]) r h with ⟨p, hp, hr⟩ | ⟨hd, h0⟩
        · exact Or.inl ⟨p ++ [v], TreePath.step hv hpar hp, by simp [hr]⟩
        · exact Or.inr ⟨DeadEnd.step hv hpar hd, h0⟩

theorem reconstructLoop_deadEnd {parent : String → Option String} {start v : String}
    (h : DeadEnd parent start v) :
    ∃ n, ∀ fuel path, n ≤ fuel → reconstructLoop parent start fuel v path = some [] := by
  induction h with
  | @stop v hne hnone =>
    refine ⟨1, ?_⟩
    intro fuel path hf
    cases fuel with
    | zero => simp at hf
    | succ k => simp [reconstructLoop, hne, hnone]
  | @step v u hne hpar _ ih =>
    obtain ⟨n, hn⟩ := ih
    refine ⟨n + 1, ?_⟩
    intro fuel path hf
    cases fuel with
    | zero => simp at hf
    | succ k =>
      simp only [reconstructLoop, hne, if_false, hpar]
      exact hn k _ (by omega)


/-! ## Queue entries of `dijkstra` on every graph -/

theorem relaxEdges_pushed (P : MinQueue) (criteria curr : String) :
    ∀ (es : List Edge) (st : DState P), Pushed P st →
      Pushed P (relaxEdges P criteria curr es st) ∧
        ∀ v, (relaxEdges P criteria curr es st).cost v ≤ st.cost v := by
  intro es
  induction es with
  | nil => intro st h; exact ⟨h, fun _ => le_refl _⟩
  | cons e es ih =>
    intro st h
    by_cases hc : wrapInt (st.cost curr + weightOf criteria e) < st.cost e.dst
    · simp only [relaxEdges, hc, if_true]
      have hkey : setKey st.cost e.dst (wrapInt (st.cost curr + weightOf criteria e)) e.dst =
          wrapInt (st.cost curr + weightOf criteria e) := by simp [setKey]
      have hle : ∀ y, setKey st.cost e.dst (wrapInt (st.cost curr + weightOf criteria e)) y ≤
          st.cost y := by
        intro y
        by_cases hy : y = e.dst
        · rw [hy, hkey]; omega
        · simp [setKey, hy]
      have hd := h.1 e.dst
      have h' : Pushed P
          { cost := setKey st.cost e.dst (wrapInt (st.cost curr + weightOf criteria e)),
            parent := setKey st.parent e.dst (some curr),
            pq := P.push (setKey st.cost e.dst
              (wrapInt (st.cost curr + weightOf criteria e)) e.dst, e.dst) st.pq } := by
        constructor
        · intro v
          exact le_trans (hle v) (h.1 v)
        · intro x hx
          rcases (mem_toList_push P _ x _).1 hx with hx | hx
          · rw [hx]
            simp only [hkey]
            exact ⟨le_refl _, by omega⟩
          · obtain ⟨h1, h2⟩ := h.2 x hx
            exact ⟨le_trans (hle x.2) h1, h2⟩
      obtain ⟨hp, hm⟩ := ih _ h'
      exact ⟨hp, fun v => le_trans (hm v) (hle v)⟩
    · simp only [relaxEdges, hc, if_false]
      exact ih st h

theorem pushed_init (P : MinQueue) (g : Graph) (start : String) :
    Pushed P (dijkstraInit P g start) := by
  constructor
  · intro v
    simp only [dijkstraInit, setKey, INT_MAX]
    split
    · omega
    · split <;> omega
  · intro x hx
    simp only [dijkstraInit] at hx
    rcases (mem_toList_push P _ x _).1 hx with hx | hx
    · rw [hx]
      simp [dijkstraInit, setKey, INT_MAX]
    · rw [P.toList_empty] at hx
      simp at hx

theorem pushed_pop {P : MinQueue} {st : DState P} {top : Int × String} {rest : P.Q}
    (h : Pushed P st) (hpop : P.pop st.pq = some (top, rest)) :
    Pushed P { st with pq := rest } :=
  ⟨h.1, fun x hx => h.2 x ((mem_toList_pop hpop x).2 (Or.inr hx))⟩

theorem dReach_pushed {P : MinQueue} {g : Graph} {criteria start end_ : String}
    {st : DState P} (h : DReach P g criteria start end_ st) : Pushed P st := by
  induction h with
  | init => exact pushed_init P g start
  | step _ hpop _ ih => exact (relaxEdges_pushed P criteria _ _ _ (pushed_pop ih hpop)).1

/-- The state in which the loop of `dijkstra` stops is one of the states a
run passes through, and the entry popped there, if any, holds `end_`. -/
theorem dijkstraLoop_reach (P : MinQueue) (g : Graph) (start end_ criteria : String)
    (fuel : Nat) (st' : DState P)
    (h : dijkstraLoop P g end_ criteria fuel (dijkstraInit P g start) = some st') :
    ∃ st0, DReach P g criteria start end_ st0 ∧ st'.parent = st0.parent ∧
      st'.cost = st0.cost ∧
      (P.pop st0.pq = none ∨ ∃ top rest, P.pop st0.pq = some (top, rest) ∧ top.2 = end_) :=
  dijkstraLoop_rule P g end_ criteria (DReach P g criteria start end_)
    (fun _ _ _ hI hpop hne => DReach.step hI hpop hne) fuel _ st' DReach.init h

theorem relaxed_mono {P : MinQueue} {criteria u : String} {es : List Edge}
    {st st' : DState P} (h : Relaxed P criteria u es st) (hu : st'.cost u = st.cost u)
    (hle : ∀ v, st'.cost v ≤ st.cost v) : Relaxed P criteria u es st' := by
  intro e he hlt
  apply h e he
  rw [hu] at hlt
  exact lt_of_lt_of_le hlt (hle e.dst)

theorem relaxEdges_of_relaxed (P : MinQueue) (criteria curr : String) :
    ∀ (es : List Edge) (st : DState P), Relaxed P criteria curr es st →
      relaxEdges P criteria curr es st = st := by
  intro es
  induction es with
  | nil => intro st _; rfl
  | cons e es ih =>
    intro st h
    have hc := h e (List.mem_cons_self _ _)
    simp only [relaxEdges, hc, if_false]
    exact ih st (fun x hx => h x (List.mem_cons_of_mem _ hx))

theorem lazyInv_relax_one {P : MinQueue} {g : Graph} {criteria curr : String}
    {doneEs : List Edge} {st : DState P} (e : Edge)
    (h : LazyInv P g criteria (some curr) doneEs st) :
    LazyInv P g criteria (some curr) (doneEs ++ [e]) (relaxEdges P criteria curr [e] st) := by
  by_cases hc : wrapInt (st.cost curr + weightOf criteria e) < st.cost e.dst
  · simp only [relaxEdges, hc, if_true]
    have hkey : setKey st.cost e.dst (wrapInt (st.cost curr + weightOf criteria e)) e.dst =
        wrapInt (st.cost curr + weightOf criteria e) := by simp [setKey]
    have hne : ∀ y, y ≠ e.dst →
        setKey st.cost e.dst (wrapInt (st.cost curr + weightOf criteria e)) y = st.cost y := by
      intro y hy; simp [setKey, hy]
    have hle : ∀ y, setKey st.cost e.dst (wrapInt (st.cost curr + weightOf criteria e)) y ≤
        st.cost y := by
      intro y
      by_cases hy : y = e.dst
      · rw [hy, hkey]; omega
      · rw [hne y hy]
    rw [hkey]
    constructor
    · intro x hx
      rcases (mem_toList_push P _ x _).1 hx with hx | hx
      · rw [hx]
        show setKey st.cost e.dst _ e.dst ≤ _
        rw [hkey]
      · exact le_trans (hle x.2) (h.keys x hx)
    · intro u hu
      have huc : u ≠ curr := fun hh => hu (by rw [hh])
      by_cases hud : u = e.dst
      · right; left
        apply (mem_toList_push P _ _ _).2
        left
        show (setKey st.cost e.dst _ u, u) = _
        rw [hud, hkey]
      · rcases h.settled u hu with hP | hQ | hN
        · left
          exact relaxed_mono hP (hne u hud) hle
        · right; left
          apply (mem_toList_push P _ _ _).2
          right
          show (setKey st.cost e.dst _ u, u) ∈ _
          rw [hne u hud]; exact hQ
        · right; right
          intro x hx
          rcases (mem_toList_push P _ x _).1 hx with hx | hx
          · rw [hx]; exact fun hh => hud hh.symm
          · exact hN x hx
    · intro u hu
      simp only [Option.some.injEq] at hu
      subst hu
      by_cases hud : curr = e.dst
      · left
        apply (mem_toList_push P _ _ _).2
        left
        have hcur : setKey st.cost e.dst (wrapInt (st.cost curr + weightOf criteria e)) curr =
            wrapInt (st.cost curr + weightOf criteria e) := by simp [setKey, hud]
        show (setKey st.cost e.dst _ curr, curr) = _
        rw [hcur, Prod.mk.injEq]
        exact ⟨rfl, hud⟩
      · rcases h.cur curr rfl with hQ | hR
        · left
          apply (mem_toList_push P _ _ _).2
          right
          show (setKey st.cost e.dst _ curr, curr) ∈ _
          rw [hne curr hud]; exact hQ
        · right
          intro x hx
          rcases List.mem_append.1 hx with hx | hx
          · exact relaxed_mono hR (hne curr hud) hle x hx
          · simp only [List.mem_singleton] at hx
            subst hx
            show ¬ wrapInt (setKey st.cost x.dst _ curr + _) < setKey st.cost x.dst _ x.dst
            rw [hne curr hud, hkey]
            omega
  · simp only [relaxEdges, hc, if_false]
    refine ⟨h.keys, h.settled, ?_⟩
    intro u hu
    rcases h.cur u hu with hQ | hR
    · exact Or.inl hQ
    · right
      simp only [Option.some.injEq] at hu
      subst hu
      intro x hx
      rcases List.mem_append.1 hx with hx | hx
      · exact hR x hx
      · simp only [List.mem_singleton] at hx
        subst hx
        exact hc

theorem lazyInv_relax {P : MinQueue} {g : Graph} {criteria curr : String} :
    ∀ (es doneEs : List Edge) (st : DState P),
      LazyInv P g criteria (some curr) doneEs st →
      LazyInv P g criteria (some curr) (doneEs ++ es) (relaxEdges P criteria curr es st) := by
  intro es
  induction es with
  | nil => intro doneEs st h; simpa [relaxEdges] using h
  | cons e es ih =>
    intro doneEs st h
    rw [relaxEdges_cons]
    have := ih (doneEs ++ [e]) _ (lazyInv_relax_one e h)
    simpa using this

theorem lazyInv_pop {P : MinQueue} {g : Graph} {criteria : String} {st : DState P}
    {top : Int × String} {rest : P.Q} (h : LazyInv P g criteria none [] st)
    (hpop : P.pop st.pq = some (top, rest)) :
    LazyInv P g criteria (some top.2) [] { st with pq := rest } := by
  constructor
  · intro x hx
    exact h.keys x ((mem_toList_pop hpop x).2 (Or.inr hx))
  · intro u hu
    have hut : top.2 ≠ u := fun hh => hu (by rw [hh])
    rcases h.settled u (by simp) with hP | hQ | hN
    · exact Or.inl hP
    · right; left
      rcases (mem_toList_pop hpop _).1 hQ with hq | hq
      · exact absurd (by rw [← hq]) hut
      · exact hq
    · right; right
      intro x hx
      exact hN x ((mem_toList_pop hpop x).2 (Or.inr hx))
  · intro u _
    right
    intro e he
    simp at he

theorem lazyInv_finish {P : MinQueue} {g : Graph} {criteria curr : String}
    {st : DState P} (h : LazyInv P g criteria (some curr) (graphAt g curr) st) :
    LazyInv P g criteria none [] st := by
  refine ⟨h.keys, ?_, fun u hu => by simp at hu⟩
  intro u _
  by_cases hu : u = curr
  · subst hu
    rcases h.cur u rfl with hQ | hR
    · exact Or.inr (Or.inl hQ)
    · exact Or.inl hR
  · exact h.settled u (fun hh => hu (by simp only [Option.some.injEq] at hh; exact hh.symm))

theorem lazyInv_init (P : MinQueue) (g : Graph) (criteria start : String) :
    LazyInv P g criteria none [] (dijkstraInit P g start) := by
  have hmem : ∀ x, x ∈ P.toList (dijkstraInit P g start).pq ↔ x = (0, start) := by
    intro x
    simp only [dijkstraInit]
    rw [mem_toList_push, P.toList_empty]
    simp
  constructor
  · intro x hx
    rw [(hmem x).1 hx]
    simp [dijkstraInit, setKey]
  · intro u _
    by_cases hu : u = start
    · right; left
      apply (hmem _).2
      simp [dijkstraInit, setKey, hu]
    · right; right
      intro x hx
      rw [(hmem x).1 hx]
      exact fun hh => hu hh.symm
  · intro u hu
    simp at hu

theorem dReach_lazy {P : MinQueue} {g : Graph} {criteria start end_ : String}
    {st : DState P} (h : DReach P g criteria start end_ st) :
    LazyInv P g criteria none [] st := by
  induction h with
  | init => exact lazyInv_init P g criteria start
  | @step st top rest _ hpop _ ih =>
    have := lazyInv_relax (graphAt g top.2) [] _ (lazyInv_pop ih hpop)
    simp only [List.nil_append] at this
    exact lazyInv_finish this


/-! ## The output loop -/

theorem foldl_arrow (z : String) :
    ∀ (l : List String) (out : String), (∀ x ∈ l, x ≠ z) →
      l.foldl (fun out station =>
        if station ≠ z then out ++ station ++ " -> " else out ++ station) out =
      l.foldl (fun out station => out ++ station ++ " -> ") out := by
  intro l
  induction l with
  | nil => intro out _; rfl
  | cons a l ih =>
    intro out h
    simp only [List.foldl_cons]
    rw [if_pos (h a (List.mem_cons_self _ _))]
    exact ih _ (fun x hx => h x (List.mem_cons_of_mem _ hx))

theorem intercalate_go_snoc (s z : String) :
    ∀ (l : List String) (acc : String),
      l.foldl (fun out station => out ++ station ++ s) (acc ++ s) ++ z =
        String.intercalate.go acc s (l ++ [z]) := by
  intro l
  induction l with
  | nil => intro acc; simp [String.intercalate.go]
  | cons a l ih =>
    intro acc
    simp only [List.foldl_cons, List.cons_append, String.intercalate.go]
    exact ih (acc ++ s ++ a)

/-- On a sequence without repetition the output loop prints the stations
separated by `" -> "`. -/
theorem renderPath_nodup (r : List String) (h : r.Nodup) :
    renderPath r = " -> ".intercalate r := by
  rcases List.eq_nil_or_concat r with rfl | ⟨l, z, hr⟩
  · rfl
  · rw [List.concat_eq_append] at hr
    subst hr
    have hl : ∀ x ∈ l, x ≠ z := by
      intro x hx hxz
      rw [List.nodup_append] at h
      exact h.2.2 hx (by simp [hxz])
    unfold renderPath
    have hlast : (l ++ [z]).getLastD "" = z := by simp
    rw [hlast, List.foldl_append, foldl_arrow z l "" hl]
    simp only [List.foldl_cons, List.foldl_nil, ne_eq, not_true_eq_false, if_false]
    cases l with
    | nil => simp [String.intercalate, String.intercalate.go]
    | cons a l =>
      simp only [List.foldl_cons, List.cons_append, String.intercalate]
      have := intercalate_go_snoc " -> " z l a
      simpa using this

theorem nodup_last_only (r : List String) (h : r.Nodup) :
    ∀ (i : Nat) (hi : i < r.length), r.get ⟨i, hi⟩ = r.getLastD "" ↔ i + 1 = r.length := by
  intro i hi
  rcases List.eq_nil_or_concat r with rfl | ⟨l, z, hr⟩
  · simp at hi
  · rw [List.concat_eq_append] at hr
    subst hr
    have hlast : (l ++ [z]).getLastD "" = z := by simp
    rw [hlast]
    rw [List.nodup_append] at h
    simp only [List.length_append, List.length_singleton] at hi ⊢
    by_cases hlt : i < l.length
    · have : (l ++ [z]).get ⟨i, by simp; omega⟩ = l.get ⟨i, hlt⟩ := by
        simp [List.getElem_append_left, hlt]
      rw [this]
      constructor
      · intro hz
        exact absurd (List.get_mem l i hlt) (fun hm => h.2.2 hm (List.mem_singleton.2 hz))
      · intro; omega
    · have hi' : i = l.length := by omega
      subst hi'
      simp


/-! ## Stations whose cost can no longer improve -/

/-- Along the `parent` links of a station there is a walk that weighs at most
what the recorded costs say. -/
theorem treePath_real {g : Graph} {criteria : String} {parent : String → Option String}
    {cost : String → Int} {start v : String} {p : List String}
    (h : TreePath parent start v p)
    (hpar : ∀ v u, parent v = some u →
      v ≠ start ∧ ∃ e ∈ graphAt g u, e.dst = v ∧ cost u + weightOf criteria e ≤ cost v) :
    ∃ es, IsWalk g start es v ∧ walkWeight criteria es + cost start ≤ cost v := by
  induction h with
  | base => exact ⟨[], by simp [IsWalk], by simp [walkWeight]⟩
  | @step v u p _ hpu _ ih =>
    obtain ⟨es, hw, hle⟩ := ih
    obtain ⟨_, e, he, hd, hc⟩ := hpar v u hpu
    refine ⟨es ++ [e], ?_, ?_⟩
    · have := isWalk_snoc hw he
      rw [hd] at this
      exact this
    · rw [walkWeight_append]
      have : walkWeight criteria [e] = weightOf criteria e := by simp [walkWeight]
      rw [this]
      omega

/-- While the connections of `curr` are examined, a station whose recorded
cost is at most the weight of every walk to it keeps its cost and its
predecessor. -/
theorem dInv_relax_frozen {P : MinQueue} {g : Graph} {criteria start curr : String}
    (W : SafeSums criteria g start) (S : String → Prop) (c : String → Int)
    (π : String → Option String)
    (hLB : ∀ v, S v → ∀ es, IsWalk g start es v → c v ≤ walkWeight criteria es) :
    ∀ (es doneEs : List Edge) (st : DState P),
      DInv P g criteria start [curr] doneEs st → (∀ e ∈ es, e ∈ graphAt g curr) →
      (∀ v, S v → st.cost v = c v ∧ st.parent v = π v) →
      ∀ v, S v → (relaxEdges P criteria curr es st).cost v = c v ∧
        (relaxEdges P criteria curr es st).parent v = π v := by
  intro es
  induction es with
  | nil => intro doneEs st _ _ hf; exact hf
  | cons e es ih =>
    intro doneEs st h hes hf
    have he : e ∈ graphAt g curr := hes e (List.mem_cons_self _ _)
    rw [relaxEdges_cons]
    apply ih (doneEs ++ [e]) _ (dInv_relax_one W e h he)
      (fun x hx => hes x (List.mem_cons_of_mem _ hx))
    intro v hv
    by_cases hc : wrapInt (st.cost curr + weightOf criteria e) < st.cost e.dst
    · simp only [relaxEdges, hc, if_true]
      have hvd : v ≠ e.dst := by
        intro hvd
        have hw0 := W.nonneg e (graphAt_subset_allEdges g curr e he)
        have hroom := h.room curr (by simp) e he
        have hc0 := (h.cpos curr).1
        have hwrap : wrapInt (st.cost curr + weightOf criteria e) =
            st.cost curr + weightOf criteria e := by
          apply wrapInt_eq
          unfold inRange
          unfold INT_MAX at hroom
          constructor <;> omega
        obtain ⟨p, hp⟩ := dInv_treePath h curr (h.frontOk curr (by simp))
        obtain ⟨es0, hwalk, hle⟩ := treePath_real hp h.par
        have hwalk' := isWalk_snoc hwalk he
        rw [← hvd] at hwalk'
        have hlb := hLB v hv _ hwalk'
        rw [walkWeight_append] at hlb
        have h1 : walkWeight criteria [e] = weightOf criteria e := by simp [walkWeight]
        have h2 := (hf v hv).1
        have h3 := h.cstart
        rw [hwrap, ← hvd] at hc
        omega
      simp only [setKey, hvd, if_false]
      exact hf v hv
    · simp only [relaxEdges, hc, if_false]
      exact hf v hv

theorem dInv_step_frozen {P : MinQueue} {g : Graph} {criteria start : String}
    {st : DState P} {top : Int × String} {rest : P.Q} (W : SafeSums criteria g start)
    (S : String → Prop) (c : String → Int) (π : String → Option String)
    (hLB : ∀ v, S v → ∀ es, IsWalk g start es v → c v ≤ walkWeight criteria es)
    (h : DInv P g criteria start [] [] st) (hpop : P.pop st.pq = some (top, rest))
    (hf : ∀ v, S v → st.cost v = c v ∧ st.parent v = π v) :
    ∀ v, S v →
      (relaxEdges P criteria top.2 (graphAt g top.2) { st with pq := rest }).cost v = c v ∧
      (relaxEdges P criteria top.2 (graphAt g top.2) { st with pq := rest }).parent v = π v :=
  dInv_relax_frozen W S c π hLB (graphAt g top.2) [] _ (dInv_pop W h hpop)
    (fun _ he => he) hf

theorem dReach_dInv {P : MinQueue} {g : Graph} {criteria start end_ : String}
    (W : SafeSums criteria g start) {st : DState P}
    (h : DReach P g criteria start end_ st) : DInv P g criteria start [] [] st := by
  induction h with
  | init => exact dInv_init P g criteria start
  | step _ hpop _ ih => exact dInv_step W ih hpop

/-- A station that is not a key of the map and is not `start` keeps cost 0
and no predecessor in every state of a run, when weights are not negative and
sums stay in range. -/
theorem dReach_unlisted {P : MinQueue} {g : Graph} {criteria start end_ x : String}
    (W : SafeSums criteria g start) (hx : x ∉ graphKeys g) (hxs : x ≠ start)
    {st : DState P} (h : DReach P g criteria start end_ st) :
    st.cost x = 0 ∧ st.parent x = none := by
  have hLB : ∀ v, v = x → ∀ es, IsWalk g start es v →
      (fun _ => (0 : Int)) v ≤ walkWeight criteria es :=
    fun v _ es hw => walkWeight_nonneg W.nonneg es start v hw
  have key : ∀ v, v = x → st.cost v = (fun _ => (0 : Int)) v ∧
      st.parent v = (fun _ => (none : Option String)) v := by
    induction h with
    | init =>
      intro v hv
      subst hv
      simp [dijkstraInit, setKey, hxs, hx]
    | step hr hpop _ ih =>
      exact dInv_step_frozen W (fun v => v = x) (fun _ => 0) (fun _ => none) hLB
        (dReach_dInv W hr) hpop ih
  exact key x rfl

/-- With non-negative weights and sums in range `dijkstra` returns, whether
or not every far end is a key of the map. -/
theorem dijkstra_returns_safe (P : MinQueue) (g : Graph) (criteria start end_ : String)
    (W : SafeSums criteria g start) (fuel : Nat) (hf : dijkstraFuel g ≤ fuel) :
    ∃ r, dijkstra P g fuel start end_ criteria = some r := by
  obtain ⟨st', hl⟩ := dijkstraLoop_returns P g start end_ criteria fuel hf
  obtain ⟨st0, hr, hp, _, _⟩ := dijkstraLoop_reach P g start end_ criteria fuel st' hl
  have hI := dReach_dInv W hr
  unfold dijkstra
  rw [hl]
  simp only
  rw [hp]
  by_cases hR : end_ = start ∨ st0.parent end_ ≠ none
  · obtain ⟨p, hpath⟩ := dInv_treePath hI end_ hR
    have hlen := treePath_length_le hpath (dInv_link hI)
    have hfuel : p.length ≤ fuel := by
      simp only [dijkstraFuel] at hf
      omega
    exact ⟨p, reconstructPath_of_treePath hpath fuel hfuel⟩
  · have hne : end_ ≠ start := fun hh => hR (Or.inl hh)
    have hpar : st0.parent end_ = none := by
      by_contra hh; exact hR (Or.inr hh)
    have hfuel : fuel ≠ 0 := by simp only [dijkstraFuel] at hf; omega
    obtain ⟨n, rfl⟩ := Nat.exists_eq_succ_of_ne_zero hfuel
    exact ⟨[], reconstructPath_dead hne hpar n⟩

theorem reconstructLoop_cycle {parent : String → Option String} {start b c : String}
    (hb : b ≠ start) (hc : c ≠ start) (hbc : parent b = some c) (hcb : parent c = some b) :
    ∀ (fuel : Nat) (path : List String),
      reconstructLoop parent start fuel b path = none ∧
        reconstructLoop parent start fuel c path = none := by
  intro fuel
  induction fuel with
  | zero => intro path; exact ⟨rfl, rfl⟩
  | succ n ih =>
    intro path
    constructor
    · simp only [reconstructLoop, hb, if_false, hbc]
      exact (ih _).2
    · simp only [reconstructLoop, hc, if_false, hcb]
      exact (ih _).1

theorem dijkstraLoop_fuel_add (P : MinQueue) (g : Graph) (end_ criteria : String)
    (st st' : DState P) :
    ∀ (k n : Nat), dijkstraLoop P g end_ criteria n st = some st' →
      dijkstraLoop P g end_ criteria (n + k) st = some st' := by
  intro k
  induction k with
  | zero => intro n h; exact h
  | succ k ih =>
    intro n h
    exact dijkstraLoop_fuel P g end_ criteria (n + k) st st' (ih n h)


/-! ## Order of expansion in `bfsLeastStops` -/

theorem bfsLoopTrace_fst (g : Graph) (end_ : String) :
    ∀ (fuel : Nat) (st : BfsState) (tr : List String),
      (bfsLoopTrace g end_ fuel st tr).map Prod.fst = bfsLoop g end_ fuel st := by
  intro fuel
  induction fuel with
  | zero => intro st tr; rfl
  | succ n ih =>
    intro st tr
    cases hq : st.q with
    | nil => simp [bfsLoopTrace, bfsLoop, hq]
    | cons curr rest =>
      by_cases hc : curr = end_
      · simp [bfsLoopTrace, bfsLoop, hq, hc]
      · simp only [bfsLoopTrace, bfsLoop, hq, hc, if_false]
        exact ih _ _

theorem traceInv_expand {g : Graph} {tr : List String} {c : String} :
    ∀ (es doneEs : List Edge) (st : BfsState),
      TraceInv g tr (some c) doneEs st → (∀ e ∈ es, e ∈ graphAt g c) →
      TraceInv g tr (some c) (doneEs ++ es) (bfsExpand c es st) := by
  intro es
  induction es with
  | nil => intro doneEs st h _; simpa [bfsExpand] using h
  | cons e es ih =>
    intro doneEs st h hes
    have he : e ∈ graphAt g c := hes e (List.mem_cons_self _ _)
    have hes' : ∀ x ∈ es, x ∈ graphAt g c := fun x hx => hes x (List.mem_cons_of_mem _ hx)
    have happ : doneEs ++ e :: es = (doneEs ++ [e]) ++ es := by simp
    rw [happ]
    by_cases hv : st.visited e.dst = true
    · simp only [bfsExpand, hv, if_true]
      apply ih (doneEs ++ [e]) st _ hes'
      refine ⟨h.first, h.seen, ?_⟩
      intro c' hc'
      refine ⟨(h.cur c' hc').1, ?_⟩
      intro x hx
      rcases List.mem_append.1 hx with hx | hx
      · exact (h.cur c' hc').2 x hx
      · simp only [List.mem_singleton] at hx
        rw [hx]; exact hv
    · simp only [bfsExpand, hv]
      apply ih (doneEs ++ [e]) _ _ hes'
      have hmono : ∀ y, st.visited y = true → setKey st.visited e.dst true y = true := by
        intro y hy
        simp only [setKey]
        split
        · rfl
        · exact hy
      constructor
      · intro v u hp
        by_cases hvd : v = e.dst
        · have hu : u = c := by
            simp only [setKey, hvd, if_true, Option.some.injEq] at hp
            exact hp.symm
          subst hu
          refine ⟨⟨e, he, hvd.symm⟩, ?_⟩
          obtain ⟨t1, t2, ht, hnot⟩ := List.eq_append_cons_of_mem (h.cur u rfl).1
          refine ⟨t1, t2, ht, ?_⟩
          intro w hw hl
          have hwt : w ∈ tr := by rw [ht]; exact List.mem_append_left _ hw
          have hwc : (some u : Option String) ≠ some w := by
            intro hh
            simp only [Option.some.injEq] at hh
            exact hnot (hh ▸ hw)
          have := h.seen w hwt hwc v hl
          rw [hvd] at this
          exact hv this
        · have hp' : st.parent v = some u := by
            simpa [setKey, hvd] using hp
          exact h.first v u hp'
      · intro w hw hwc v hl
        exact hmono v (h.seen w hw hwc v hl)
      · intro c' hc'
        refine ⟨(h.cur c' hc').1, ?_⟩
        intro x hx
        rcases List.mem_append.1 hx with hx | hx
        · exact hmono _ ((h.cur c' hc').2 x hx)
        · simp only [List.mem_singleton] at hx
          rw [hx]
          simp [setKey]

theorem traceInv_snoc {g : Graph} {tr : List String} {st : BfsState} (c : String)
    (h : TraceInv g tr none [] st) :
    ∀ v u, st.parent v = some u →
      Linked g u v ∧ ∃ t1 t2, tr ++ [c] = t1 ++ u :: t2 ∧ ∀ w ∈ t1, ¬ Linked g w v := by
  intro v u hp
  obtain ⟨hl, t1, t2, ht, hnot⟩ := h.first v u hp
  exact ⟨hl, t1, t2 ++ [c], by rw [ht]; simp, hnot⟩

theorem traceInv_step {g : Graph} {tr : List String} {st : BfsState} {c : String}
    {rest : List String} (h : TraceInv g tr none [] st) :
    TraceInv g (tr ++ [c]) none []
      (bfsExpand c (graphAt g c) { st with q := rest }) := by
  have h1 : TraceInv g (tr ++ [c]) (some c) [] { st with q := rest } := by
    refine ⟨fun v u hp => traceInv_snoc c h v u hp, ?_, ?_⟩
    · intro w hw hwc v hl
      rcases List.mem_append.1 hw with hw | hw
      · exact h.seen w hw (by simp) v hl
      · simp only [List.mem_singleton] at hw
        exact absurd (by rw [hw]) hwc
    · intro c' hc'
      simp only [Option.some.injEq] at hc'
      subst hc'
      exact ⟨by simp, by simp⟩
  have h2 := traceInv_expand (graphAt g c) [] _ h1 (fun _ he => he)
  simp only [List.nil_append] at h2
  refine ⟨h2.first, ?_, fun c' hc' => by simp at hc'⟩
  intro w hw _ v hl
  by_cases hwc : w = c
  · subst hwc
    obtain ⟨e, he, hd⟩ := hl
    rw [← hd]
    exact (h2.cur w rfl).2 e he
  · exact h2.seen w hw (by simpa using fun hh : c = w => hwc hh.symm) v hl

theorem bfsLoopTrace_first {g : Graph} {end_ : String} :
    ∀ (fuel : Nat) (st st' : BfsState) (tr tr' : List String),
      TraceInv g tr none [] st → bfsLoopTrace g end_ fuel st tr = some (st', tr') →
      ∀ v u, st'.parent v = some u →
        Linked g u v ∧ ∃ t1 t2, tr' = t1 ++ u :: t2 ∧ ∀ w ∈ t1, ¬ Linked g w v := by
  intro fuel
  induction fuel with
  | zero => intro st st' tr tr' _ h; simp [bfsLoopTrace] at h
  | succ n ih =>
    intro st st' tr tr' hI h
    cases hq : st.q with
    | nil =>
      simp only [bfsLoopTrace, hq, Option.some.injEq, Prod.mk.injEq] at h
      obtain ⟨h1, h2⟩ := h
      subst h1 h2
      exact hI.first
    | cons curr rest =>
      by_cases hc : curr = end_
      · simp only [bfsLoopTrace, hq, hc, if_true, Option.some.injEq, Prod.mk.injEq] at h
        obtain ⟨h1, h2⟩ := h
        subst h1 h2
        exact fun v u hp => traceInv_snoc end_ hI v u hp
      · simp only [bfsLoopTrace, hq, hc, if_false] at h
        exact ih _ _ _ _ (traceInv_step hI) h

theorem traceInv_init (g : Graph) (start : String) :
    TraceInv g [] none [] (bfsInit start) :=
  ⟨fun v u hp => by simp [bfsInit] at hp, fun w hw => by simp at hw,
    fun c hc => by simp at hc⟩

theorem chain_pair {α : Type} {R : α → α → Prop} (l1 : List α) (u v : α) (l2 : List α)
    (h : List.Chain' R (l1 ++ u :: v :: l2)) : R u v := by
  rw [List.chain'_append] at h
  exact (List.chain'_cons.1 h.2.1).1

theorem bfsLeastStops_trace {g : Graph} {start end_ : String} {fuel : Nat}
    {r : List String} (h : bfsLeastStops g fuel start end_ = some r) :
    ∃ st' order, bfsLoopTrace g end_ fuel (bfsInit start) [] = some (st', order) ∧
      reconstructPath st'.parent start end_ fuel = some r := by
  unfold bfsLeastStops at h
  have hfst := bfsLoopTrace_fst g end_ fuel (bfsInit start) []
  cases ht : bfsLoopTrace g end_ fuel (bfsInit start) [] with
  | none =>
    rw [ht] at hfst
    simp only [Option.map_none'] at hfst
    rw [← hfst] at h
    simp at h
  | some pr =>
    obtain ⟨st', order⟩ := pr
    rw [ht] at hfst
    simp only [Option.map_some'] at hfst
    rw [← hfst] at h
    exact ⟨st', order, rfl, h⟩


/-! ## The searches without the early exit -/

theorem bfsLoopFull_terminates (g : Graph) :
    ∀ (fuel : Nat) (st : BfsState), bfsMeasure g st < fuel →
      ∃ st', bfsLoopFull g fuel st = some st' := by
  intro fuel
  induction fuel with
  | zero => intro st h; simp at h
  | succ n ih =>
    intro st h
    cases hq : st.q with
    | nil => exact ⟨st, by simp [bfsLoopFull, hq]⟩
    | cons curr rest =>
      simp only [bfsLoopFull, hq]
      apply ih
      refine lt_of_le_of_lt
        (bfsExpand_measure g curr _ _ fun e he => graphAt_subset_allEdges g curr e he) ?_
      simp only [bfsMeasure, hq, List.length_cons] at h ⊢
      omega

theorem bfsExpand_parent_keep (curr : String) :
    ∀ (es : List Edge) (st : BfsState) (x : String), st.visited x = true →
      (bfsExpand curr es st).parent x = st.parent x := by
  intro es
  induction es with
  | nil => intro st x _; rfl
  | cons e es ih =>
    intro st x h
    by_cases hv : st.visited e.dst = true
    · simp only [bfsExpand, hv, if_true]
      exact ih st x h
    · simp only [bfsExpand, hv, Bool.false_eq_true, if_false]
      have hx : x ≠ e.dst := fun hh => hv (hh ▸ h)
      rw [ih _ x (by simp [setKey, hx, h])]
      simp [setKey, hx]

theorem bfsLoopFull_keep (g : Graph) :
    ∀ (fuel : Nat) (st stF : BfsState), bfsLoopFull g fuel st = some stF →
      ∀ x, st.visited x = true → stF.parent x = st.parent x := by
  intro fuel
  induction fuel with
  | zero => intro st stF h; simp [bfsLoopFull] at h
  | succ n ih =>
    intro st stF h x hx
    cases hq : st.q with
    | nil =>
      simp only [bfsLoopFull, hq, Option.some.injEq] at h
      rw [← h]
    | cons curr rest =>
      simp only [bfsLoopFull, hq] at h
      rw [ih _ stF h x (bfsExpand_visited_mono curr _ _ x hx)]
      exact bfsExpand_parent_keep curr _ _ x hx

theorem bfsInv_treePath_visited {g : Graph} {start : String} {lev : String → Nat}
    {st : BfsState} (h : BfsInv g start lev [] [] st) {v : String} {p : List String}
    (hp : TreePath st.parent start v p) : ∀ y ∈ p, st.visited y = true := by
  induction hp with
  | base => intro y hy; simp only [List.mem_singleton] at hy; rw [hy]; exact h.vstart
  | @step v u p _ hpar _ ih =>
    intro y hy
    rcases List.mem_append.1 hy with hy | hy
    · exact ih y hy
    · simp only [List.mem_singleton] at hy
      rw [hy]
      exact (h.par v u hpar).2.1

/-- The loop with the early exit and the loop without it end with the same
`parent` links, or with the same chain of links from `end_` to `start`. -/
theorem bfsLoop_full {g : Graph} {start end_ : String} :
    ∀ (fuel : Nat) (st stE : BfsState), (∃ lev, BfsInv g start lev [] [] st) →
      bfsLoop g end_ fuel st = some stE →
      ∀ (fuel' : Nat) (stF : BfsState), bfsLoopFull g fuel' st = some stF →
      stF.parent = stE.parent ∨
        ∃ p, TreePath stE.parent start end_ p ∧ TreePath stF.parent start end_ p ∧
          p.length ≤ (allEdges g).length + 1 := by
  intro fuel
  induction fuel with
  | zero => intro st stE _ h; simp [bfsLoop] at h
  | succ n ih =>
    intro st stE hinv h fuel' stF hF
    obtain ⟨lev, hI⟩ := hinv
    cases fuel' with
    | zero => simp [bfsLoopFull] at hF
    | succ m =>
      cases hq : st.q with
      | nil =>
        simp only [bfsLoop, hq, Option.some.injEq] at h
        simp only [bfsLoopFull, hq, Option.some.injEq] at hF
        left
        rw [← h, ← hF]
      | cons curr rest =>
        by_cases hc : curr = end_
        · simp only [bfsLoop, hq, hc, if_true, Option.some.injEq] at h
          right
          have hv : st.visited end_ = true := hI.qvis end_ (by simp [hq, hc])
          obtain ⟨p, hp, hlen⟩ := bfsInv_treePath hI (lev end_) end_ rfl hv
          have hvis := bfsInv_treePath_visited hI hp
          have hkeep := bfsLoopFull_keep g (m + 1) st stF hF
          refine ⟨p, by rw [← h]; exact hp, ?_, ?_⟩
          · exact treePath_congr hp (fun y hy _ => hkeep y (hvis y hy))
          · have := hI.bound end_ hv
            omega
        · simp only [bfsLoop, hq, hc, if_false] at h
          simp only [bfsLoopFull, hq] at hF
          obtain ⟨lev', hI'⟩ := bfsInv_expand (graphAt g curr) [] lev _ (bfsInv_pop hI hq)
            (fun e he => he)
          exact ih _ stE ⟨lev', bfsInv_finish (by simpa using hI')⟩ h m stF hF

theorem bfsLeastStopsFull_eq (g : Graph) (start end_ : String) (fuel : Nat)
    (hf : bfsFuel g ≤ fuel) :
    bfsLeastStopsFull g fuel start end_ = bfsLeastStops g fuel start end_ := by
  have hm : bfsMeasure g (bfsInit start) < fuel := by
    have : unvisitedCount g (bfsInit start).visited ≤ (allEdges g).length :=
      List.countP_le_length _
    simp only [bfsMeasure, bfsFuel] at *
    simp only [bfsInit, List.length_singleton] at *
    omega
  obtain ⟨stE, hE⟩ := bfsLoop_terminates g end_ fuel _ hm
  obtain ⟨stF, hF⟩ := bfsLoopFull_terminates g fuel _ hm
  unfold bfsLeastStopsFull bfsLeastStops
  rw [hE, hF]
  simp only
  rcases bfsLoop_full fuel _ stE ⟨_, bfsInv_init g start⟩ hE fuel stF hF with hp | ⟨p, hpE, hpF, hlen⟩
  · rw [hp]
  · have hfuel : p.length ≤ fuel := by
      simp only [bfsFuel] at hf
      omega
    rw [reconstructPath_of_treePath hpE fuel hfuel, reconstructPath_of_treePath hpF fuel hfuel]

theorem dijkstraLoopFull_terminates (P : MinQueue) (g : Graph) (criteria : String) :
    ∀ (fuel : Nat) (st : DState P), DGen P g st → dijkstraMeasure P g st < fuel →
      ∃ st', dijkstraLoopFull P g criteria fuel st = some st' := by
  intro fuel
  induction fuel with
  | zero => intro st _ h; simp at h
  | succ n ih =>
    intro st hgen h
    cases hpop : P.pop st.pq with
    | none => exact ⟨st, by simp [dijkstraLoopFull, hpop]⟩
    | some r =>
      obtain ⟨top, rest⟩ := r
      simp only [dijkstraLoopFull, hpop]
      have hlen := (P.pop_some _ _ _ hpop).1.length_eq
      have hgen' : DGen P g { st with pq := rest } := ⟨hgen.range, hgen.link⟩
      obtain ⟨h1, h2⟩ := relaxEdges_gen P g criteria top.2 (graphAt g top.2)
        { st with pq := rest } (fun e he => he) hgen'
      apply ih _ h1
      refine lt_of_le_of_lt h2 ?_
      simp only [dijkstraMeasure, List.length_cons] at h hlen ⊢
      omega

/-- Invariant rule for the loop without the early exit. -/
theorem dijkstraLoopFull_rule (P : MinQueue) (g : Graph) (criteria : String)
    (I : DState P → Prop)
    (hstep : ∀ st top rest, I st → P.pop st.pq = some (top, rest) →
      I (relaxEdges P criteria top.2 (graphAt g top.2) { st with pq := rest })) :
    ∀ (fuel : Nat) (st st' : DState P), I st →
      dijkstraLoopFull P g criteria fuel st = some st' → I st' := by
  intro fuel
  induction fuel with
  | zero => intro st st' _ h; simp [dijkstraLoopFull] at h
  | succ n ih =>
    intro st st' hI h
    cases hpop : P.pop st.pq with
    | none =>
      simp only [dijkstraLoopFull, hpop, Option.some.injEq] at h
      subst h
      exact hI
    | some r =>
      obtain ⟨top, rest⟩ := r
      simp only [dijkstraLoopFull, hpop] at h
      exact ih _ st' (hstep st top rest hI hpop) h

/-- With non-negative weights and sums in range, the loop with the early exit
and the loop without it end with the same `parent` links, or with the same
chain of links from `end_` to `start`. -/
theorem dijkstraLoop_full {P : MinQueue} {g : Graph} {criteria start end_ : String}
    (W : SafeSums criteria g start) :
    ∀ (fuel : Nat) (st stE : DState P), DInv P g criteria start [] [] st →
      dijkstraLoop P g end_ criteria fuel st = some stE →
      ∀ (fuel' : Nat) (stF : DState P), dijkstraLoopFull P g criteria fuel' st = some stF →
      stF.parent = stE.parent ∨
        ∃ p, TreePath stE.parent start end_ p ∧ TreePath stF.parent start end_ p ∧
          p.length ≤ (allEdges g).length + 1 := by
  intro fuel
  induction fuel with
  | zero => intro st stE _ h; simp [dijkstraLoop] at h
  | succ n ih =>
    intro st stE hI h fuel' stF hF
    cases fuel' with
    | zero => simp [dijkstraLoopFull] at hF
    | succ m =>
      cases hpop : P.pop st.pq with
      | none =>
        simp only [dijkstraLoop, hpop, Option.some.injEq] at h
        simp only [dijkstraLoopFull, hpop, Option.some.injEq] at hF
        left
        rw [← h, ← hF]
      | some r =>
        obtain ⟨top, rest⟩ := r
        by_cases hc : top.2 = end_
        · simp only [dijkstraLoop, hpop, hc, if_true, Option.some.injEq] at h
          right
          have htop : top ∈ P.toList st.pq := (mem_toList_pop hpop top).2 (Or.inl rfl)
          obtain ⟨hk1, _, hk3⟩ := hI.pqle top htop
          rw [hc] at hk1 hk3
          obtain ⟨p, hp⟩ := dInv_treePath hI end_ hk3
          have hle := treePath_cost_le hp hI.par W.nonneg
          have hLB : ∀ v, v ∈ p → ∀ es, IsWalk g start es v →
              st.cost v ≤ walkWeight criteria es := by
            intro v hv es hw
            have h1 := dInv_pop_bound W hI hpop es v hw
            have h2 := hle v hv
            omega
          have hfin := dijkstraLoopFull_rule P g criteria
            (fun s => DInv P g criteria start [] [] s ∧
              ∀ v, v ∈ p → s.cost v = st.cost v ∧ s.parent v = st.parent v)
            (fun s top' rest' hs hpop' =>
              ⟨dInv_step W hs.1 hpop',
                dInv_step_frozen W (fun v => v ∈ p) st.cost st.parent hLB hs.1 hpop' hs.2⟩)
            (m + 1) st stF ⟨hI, fun v _ => ⟨rfl, rfl⟩⟩ hF
          refine ⟨p, by rw [← h]; exact hp, ?_, treePath_length_le hp (dInv_link hI)⟩
          exact treePath_congr hp (fun y hy _ => (hfin.2 y hy).2)
        · simp only [dijkstraLoop, hpop, hc, if_false] at h
          simp only [dijkstraLoopFull, hpop] at hF
          exact ih _ stE (dInv_step W hI hpop) h m stF hF

theorem dijkstraFull_eq (P : MinQueue) (g : Graph) (criteria start end_ : String)
    (W : SafeSums criteria g start) (fuel : Nat) (hf : dijkstraFuel g ≤ fuel) :
    dijkstraFull P g fuel start end_ criteria = dijkstra P g fuel start end_ criteria := by
  obtain ⟨stE, hE⟩ := dijkstraLoop_returns P g start end_ criteria fuel hf
  obtain ⟨stF, hF⟩ := dijkstraLoopFull_terminates P g criteria fuel _ (dGen_init P g start)
    (lt_of_lt_of_le (dijkstraInit_measure P g start) hf)
  unfold dijkstraFull dijkstra
  rw [hE, hF]
  simp only
  rcases dijkstraLoop_full W fuel _ stE (dInv_init P g criteria start) hE fuel stF hF with
    hp | ⟨p, hpE, hpF, hlen⟩
  · rw [hp]
  · have hfuel : p.length ≤ fuel := by
      simp only [dijkstraFuel] at hf
      omega
    rw [reconstructPath_of_treePath hpE fuel hfuel, reconstructPath_of_treePath hpF fuel hfuel]

theorem dijkstraLoopFull_fuel (P : MinQueue) (g : Graph) (criteria : String) :
    ∀ (n : Nat) (st st' : DState P), dijkstraLoopFull P g criteria n st = some st' →
      ∀ k, dijkstraLoopFull P g criteria (n + k) st = some st' := by
  intro n
  induction n with
  | zero => intro st st' h; simp [dijkstraLoopFull] at h
  | succ n ih =>
    intro st st' h k
    have hk : n + 1 + k = (n + k) + 1 := by omega
    rw [hk]
    rw [dijkstraLoopFull] at h ⊢
    cases hp : P.pop st.pq with
    | none => rw [hp] at h; exact h
    | some r =>
      obtain ⟨top, rest⟩ := r
      rw [hp] at h
      exact ih _ st' h k


/-! ## Claims on fields, order and termination -/

/-- Claim C11: two maps with the same stations and, in every adjacency list,
the same far ends in the same order (time, distance, cost and line free to
differ) give the same result of `bfsLeastStops` for every source and
destination, and for every fuel. -/
theorem bfs_reads_only_far_ends (g1 g2 : Graph) (fuel : Nat) (start end_ : String)
    (h : SameShape g1 g2) :
    bfsLeastStops g1 fuel start end_ = bfsLeastStops g2 fuel start end_ :=
  bfsLeastStops_congr fuel start end_ h.2

theorem bfs_reads_only_far_ends_witness :
    SameShape [("A", [⟨"B", 5, 1, 2, "L1"⟩]), ("B", [⟨"A", 5, 1, 2, "L1"⟩])]
      [("A", [⟨"B", 9, 3, 4, "L2"⟩]), ("B", [⟨"A", 7, 8, 6, "L3"⟩])] ∧
    bfsLeastStops [("A", [⟨"B", 5, 1, 2, "L1"⟩]), ("B", [⟨"A", 5, 1, 2, "L1"⟩])] 6 "A" "B" =
      bfsLeastStops [("A", [⟨"B", 9, 3, 4, "L2"⟩]), ("B", [⟨"A", 7, 8, 6, "L3"⟩])] 6 "A" "B" ∧
    bfsLeastStops [("A", [⟨"B", 5, 1, 2, "L1"⟩]), ("B", [⟨"A", 5, 1, 2, "L1"⟩])] 6 "A" "B" =
      some ["A", "B"] := by
  have hs : SameShape [("A", [⟨"B", 5, 1, 2, "L1"⟩]), ("B", [⟨"A", 5, 1, 2, "L1"⟩])]
      [("A", [⟨"B", 9, 3, 4, "L2"⟩]), ("B", [⟨"A", 7, 8, 6, "L3"⟩])] :=
    sameShape_of_map _ _ (by decide)
  exact ⟨hs, bfs_reads_only_far_ends _ _ 6 "A" "B" hs, by decide⟩

/-- Claim C12: two maps that differ only in the distance values of their
connections give the same result of `dijkstra` under every criterion, for
every queue implementation, and the same result of `bfsLeastStops`; the
distance field is read by neither search. -/
theorem search_ignores_distance (P : MinQueue) (g1 g2 : Graph) (fuel : Nat)
    (start end_ criteria : String) (h : SameButDistance g1 g2) :
    dijkstra P g1 fuel start end_ criteria = dijkstra P g2 fuel start end_ criteria ∧
    bfsLeastStops g1 fuel start end_ = bfsLeastStops g2 fuel start end_ := by
  constructor
  · unfold dijkstra
    rw [dijkstraInit_congr P start h.1, dijkstraLoop_congr P end_ criteria h.2]
  · exact bfsLeastStops_congr fuel start end_ (fun x => sansDistance_dst _ _ (h.2 x))

theorem search_ignores_distance_witness :
    SameButDistance (buildGraph (demoRecords 1 2 3 "L1" "L2" "L3"))
      (buildGraph (demoRecords 40 50 60 "L1" "L2" "L3")) ∧
    (dijkstra listQueue (buildGraph (demoRecords 1 2 3 "L1" "L2" "L3")) 9 "A" "C" "time" =
      dijkstra listQueue (buildGraph (demoRecords 40 50 60 "L1" "L2" "L3")) 9 "A" "C" "time" ∧
    bfsLeastStops (buildGraph (demoRecords 1 2 3 "L1" "L2" "L3")) 9 "A" "C" =
      bfsLeastStops (buildGraph (demoRecords 40 50 60 "L1" "L2" "L3")) 9 "A" "C") ∧
    dijkstra listQueue (buildGraph (demoRecords 1 2 3 "L1" "L2" "L3")) 9 "A" "C" "time" =
      some ["A", "B", "C"] :=
  ⟨sameButDistance_of_map _ _ (by decide),
    search_ignores_distance listQueue _ _ 9 "A" "C" "time"
      (sameButDistance_of_map _ _ (by decide)), by decide⟩

/-- Claim C14: in every state that a run of `dijkstra` passes through (on any
graph, with weights of either sign), popping an entry whose recorded cost
differs from the current cost of its station has no effect beyond removing
the entry: the pass through the connections of the station changes no cost,
no predecessor and pushes nothing. -/
theorem stale_entry_changes_nothing (P : MinQueue) (g : Graph)
    (criteria start end_ : String) (st : DState P) (top : Int × String) (rest : P.Q)
    (hr : DReach P g criteria start end_ st) (hpop : P.pop st.pq = some (top, rest))
    (hstale : top.1 ≠ st.cost top.2) :
    relaxEdges P criteria top.2 (graphAt g top.2) { st with pq := rest } =
      { st with pq := rest } := by
  have hJ := dReach_lazy hr
  have htop : top ∈ P.toList st.pq := (mem_toList_pop hpop top).2 (Or.inl rfl)
  apply relaxEdges_of_relaxed
  rcases hJ.settled top.2 (by simp) with hP | hQ | hN
  · exact hP
  · exfalso
    have h1 := (P.pop_some _ _ _ hpop).2 _ hQ
    have h2 := hJ.keys top htop
    simp only at h1
    exact hstale (le_antisymm h1 h2)
  · exact absurd rfl (hN top htop)

theorem stale_entry_changes_nothing_witness :
    DReach listQueue (buildGraph detourRecords) "time" "A" "Z" detourState ∧
    listQueue.pop detourState.pq = some ((5, "B"), []) ∧
    (5 : Int) ≠ detourState.cost "B" ∧
    relaxEdges listQueue "time" "B" (graphAt (buildGraph detourRecords) "B")
      { detourState with pq := [] } = { detourState with pq := [] } := by
  have h0 : DReach listQueue (buildGraph detourRecords) "time" "A" "Z" _ := DReach.init
  have h1 := DReach.step h0 (show listQueue.pop _ = some ((0, "A"), []) from rfl) (by decide)
  have h2 := DReach.step h1 (show listQueue.pop _ = some ((1, "C"), [(5, "B")]) from rfl)
    (by decide)
  have h3 := DReach.step h2 (show listQueue.pop _ = some ((2, "B"), [(5, "B")]) from rfl)
    (by decide)
  have hpop : listQueue.pop detourState.pq = some ((5, "B"), []) := rfl
  have hne : (5 : Int) ≠ detourState.cost "B" := by decide
  exact ⟨h3, hpop, hne,
    stale_entry_changes_nothing listQueue (buildGraph detourRecords) "time" "A" "Z"
      detourState (5, "B") [] h3 hpop hne⟩

/-- Claim C18: whenever the backward walk of the path reconstruction returns:
if the predecessor links from `end_` lead to `start`, the result is that
chain in `start`-to-`end_` order (first element `start`, last element
`end_`, each element the predecessor of the next); if the links run out at a
station other than `start`, the result is empty; and one of the two cases
holds. -/
theorem reconstruct_walk_result (parent : String → Option String) (start end_ : String)
    (fuel : Nat) (r : List String)
    (h : reconstructPath parent start end_ fuel = some r) :
    (∀ p, TreePath parent start end_ p →
      r = p ∧ r.head? = some start ∧ r.getLast? = some end_ ∧
        List.Chain' (fun a b => parent b = some a) r) ∧
    (DeadEnd parent start end_ → r = []) ∧
    ((∃ p, TreePath parent start end_ p) ∨ DeadEnd parent start end_) := by
  refine ⟨?_, ?_, ?_⟩
  · intro p hp
    have hr : r = p := reconstructPath_treePath_some hp h
    subst hr
    exact ⟨rfl, treePath_head hp, treePath_getLast hp, treePath_links hp⟩
  · intro hd
    rcases reconstructLoop_cases fuel end_ [] r h with ⟨p, hp, _⟩ | ⟨_, h0⟩
    · exact absurd hd (treePath_not_deadEnd hp)
    · exact h0
  · rcases reconstructLoop_cases fuel end_ [] r h with ⟨p, hp, _⟩ | ⟨hd, _⟩
    · exact Or.inl ⟨p, hp⟩
    · exact Or.inr hd

theorem reconstruct_walk_result_witness :
    reconstructPath demoParent "A" "C" 5 = some ["A", "B", "C"] ∧
    ((∀ p, TreePath demoParent "A" "C" p →
      ["A", "B", "C"] = p ∧ ["A", "B", "C"].head? = some "A" ∧
        ["A", "B", "C"].getLast? = some "C" ∧
        List.Chain' (fun a b => demoParent b = some a) ["A", "B", "C"]) ∧
    (DeadEnd demoParent "A" "C" → ["A", "B", "C"] = []) ∧
    ((∃ p, TreePath demoParent "A" "C" p) ∨ DeadEnd demoParent "A" "C")) ∧
    reconstructPath demoParent "A" "E" 5 = some [] :=
  ⟨by decide, reconstruct_walk_result demoParent "A" "C" 5 ["A", "B", "C"] (by decide),
    by decide⟩

/-- Claim C19: the sequence returned by `bfsLeastStops`, and the sequence
returned by `dijkstra` (for weights of either sign), holds no station twice;
so in the output loop only the final position equals the last element, and
the loop prints the stations separated by `" -> "`. -/
theorem search_result_simple (P : MinQueue) (g : Graph) (fuel : Nat)
    (start end_ criteria : String) (r : List String)
    (h : bfsLeastStops g fuel start end_ = some r ∨
      dijkstra P g fuel start end_ criteria = some r) :
    r.Nodup ∧
    (∀ (i : Nat) (hi : i < r.length),
      r.get ⟨i, hi⟩ = r.getLastD "" ↔ i + 1 = r.length) ∧
    renderPath r = " -> ".intercalate r := by
  have hn : r.Nodup := by
    rcases h with h | h
    · rcases bfsLeastStops_sound h with ⟨h0, _⟩ | ⟨_, hnd, _⟩
      · rw [h0]; exact List.nodup_nil
      · exact hnd
    · rcases dijkstra_sound h with h0 | ⟨_, hnd⟩
      · rw [h0]; exact List.nodup_nil
      · exact hnd
  exact ⟨hn, nodup_last_only r hn, renderPath_nodup r hn⟩

theorem search_result_simple_witness :
    (bfsLeastStops (buildGraph (demoRecords 1 2 3 "L1" "L2" "L3")) 9 "A" "C" =
        some ["A", "B", "C"] ∨
      dijkstra listQueue (buildGraph (demoRecords 1 2 3 "L1" "L2" "L3")) 9 "A" "C" "time" =
        some ["A", "B", "C"]) ∧
    ["A", "B", "C"].Nodup ∧
    (∀ (i : Nat) (hi : i < ["A", "B", "C"].length),
      ["A", "B", "C"].get ⟨i, hi⟩ = ["A", "B", "C"].getLastD "" ↔
        i + 1 = ["A", "B", "C"].length) ∧
    renderPath ["A", "B", "C"] = " -> ".intercalate ["A", "B", "C"] :=
  ⟨Or.inr (by decide),
    search_result_simple listQueue (buildGraph (demoRecords 1 2 3 "L1" "L2" "L3")) 9
      "A" "C" "time" ["A", "B", "C"] (Or.inr (by decide))⟩

/-- Claim C20: in every state that a run of `dijkstra` passes through, on any
graph, the station of the popped entry has a recorded cost different from
`INT_MAX`, and it keeps one while its connections are examined: every
candidate `cost[curr] + weight` is computed from a cost other than the
sentinel. -/
theorem popped_cost_not_sentinel (P : MinQueue) (g : Graph)
    (criteria start end_ : String) (st : DState P) (top : Int × String) (rest : P.Q)
    (hr : DReach P g criteria start end_ st) (hpop : P.pop st.pq = some (top, rest)) :
    st.cost top.2 ≠ INT_MAX ∧
    ∀ es1 e es2, graphAt g top.2 = es1 ++ e :: es2 →
      (relaxEdges P criteria top.2 es1 { st with pq := rest }).cost top.2 ≠ INT_MAX := by
  have hp := dReach_pushed hr
  have htop : top ∈ P.toList st.pq := (mem_toList_pop hpop top).2 (Or.inl rfl)
  obtain ⟨h1, h2⟩ := hp.2 top htop
  have hlt : st.cost top.2 < INT_MAX := lt_of_le_of_lt h1 h2
  refine ⟨ne_of_lt hlt, ?_⟩
  intro es1 e es2 _
  have := (relaxEdges_pushed P criteria top.2 es1 _ (pushed_pop hp hpop)).2 top.2
  exact ne_of_lt (lt_of_le_of_lt this hlt)

theorem popped_cost_not_sentinel_witness :
    DReach listQueue (buildGraph detourRecords) "time" "A" "Z" detourState ∧
    listQueue.pop detourState.pq = some ((5, "B"), []) ∧
    (detourState.cost "B" ≠ INT_MAX ∧
    ∀ es1 e es2, graphAt (buildGraph detourRecords) "B" = es1 ++ e :: es2 →
      (relaxEdges listQueue "time" "B" es1 { detourState with pq := [] }).cost "B" ≠
        INT_MAX) := by
  have h0 : DReach listQueue (buildGraph detourRecords) "time" "A" "Z" _ := DReach.init
  have h1 := DReach.step h0 (show listQueue.pop _ = some ((0, "A"), []) from rfl) (by decide)
  have h2 := DReach.step h1 (show listQueue.pop _ = some ((1, "C"), [(5, "B")]) from rfl)
    (by decide)
  have h3 := DReach.step h2 (show listQueue.pop _ = some ((2, "B"), [(5, "B")]) from rfl)
    (by decide)
  have hpop : listQueue.pop detourState.pq = some ((5, "B"), []) := rfl
  exact ⟨h3, hpop,
    popped_cost_not_sentinel listQueue (buildGraph detourRecords) "time" "A" "Z"
      detourState (5, "B") [] h3 hpop⟩

/-- What the run on the one-entry map shows holds on every graph with
non-negative weights and sums within the range of `int`: keys of
the map other than `start` begin at `INT_MAX`, a station `x` that is not a
key (and is not `start`) begins at cost 0, keeps cost 0 and no predecessor in
every state of a run, and `dijkstra` from `start` to `x` returns the empty
sequence. -/
theorem dijkstra_unlisted_station (P : MinQueue) (g : Graph)
    (criteria start x : String) (W : SafeSums criteria g start)
    (hx : x ∉ graphKeys g) (hxs : x ≠ start) (fuel : Nat) (hf : dijkstraFuel g ≤ fuel) :
    (∀ v ∈ graphKeys g, v ≠ start → (dijkstraInit P g start).cost v = INT_MAX) ∧
    (dijkstraInit P g start).cost x = 0 ∧
    (∀ end_ st, DReach P g criteria start end_ st → st.cost x = 0 ∧ st.parent x = none) ∧
    dijkstra P g fuel start x criteria = some [] := by
  refine ⟨?_, ?_, ?_, ?_⟩
  · intro v hv hvs
    simp [dijkstraInit, setKey, hvs, hv]
  · simp [dijkstraInit, setKey, hxs, hx]
  · intro end_ st hr
    exact dReach_unlisted W hx hxs hr
  · obtain ⟨st', hl⟩ := dijkstraLoop_returns P g start x criteria fuel hf
    obtain ⟨st0, hr, hp, _, _⟩ := dijkstraLoop_reach P g start x criteria fuel st' hl
    have hpar := (dReach_unlisted W hx hxs hr).2
    have hfuel : fuel ≠ 0 := by simp only [dijkstraFuel] at hf; omega
    obtain ⟨n, rfl⟩ := Nat.exists_eq_succ_of_ne_zero hfuel
    unfold dijkstra
    rw [hl]
    simp only
    rw [hp]
    exact reconstructPath_dead hxs hpar n

theorem dijkstra_unlisted_station_witness :
    SafeSums "time" oneWayGraph "A" ∧ "B" ∉ graphKeys oneWayGraph ∧ "B" ≠ "A" ∧
    dijkstraFuel oneWayGraph ≤ dijkstraFuel oneWayGraph ∧
    ((∀ v ∈ graphKeys oneWayGraph, v ≠ "A" →
        (dijkstraInit listQueue oneWayGraph "A").cost v = INT_MAX) ∧
    (dijkstraInit listQueue oneWayGraph "A").cost "B" = 0 ∧
    (∀ end_ st, DReach listQueue oneWayGraph "time" "A" end_ st →
      st.cost "B" = 0 ∧ st.parent "B" = none) ∧
    dijkstra listQueue oneWayGraph (dijkstraFuel oneWayGraph) "A" "B" "time" = some []) := by
  have hW : SafeSums "time" oneWayGraph "A" := by
    constructor
    · decide
    · intro u _ e he
      by_cases hu : u = "A"
      · subst hu
        refine ⟨[], rfl, ?_⟩
        simp only [oneWayGraph, graphAt, if_true, List.mem_singleton] at he
        subst he
        decide
      · have hu' : ¬ "A" = u := fun h => hu h.symm
        simp [oneWayGraph, graphAt, hu'] at he
  exact ⟨hW, by decide, by decide, le_refl _,
    dijkstra_unlisted_station listQueue oneWayGraph "time" "A" "B" hW (by decide)
      (by decide) _ (le_refl _)⟩

/-- Counterexample to claim C15: on the records `A-B (1)`, `B-C (-1)`,
`C-D (-5)` the search `dijkstra` from `A` to `D` returns for no amount of
fuel: the loop stops with `parent[D] = C`, `parent[C] = B`, `parent[B] = C`,
and the backward walk from `D` goes round `C` and `B` for ever. -/
theorem dijkstra_backward_walk_cycles :
    ¬ ∃ fuel r, dijkstra listQueue (buildGraph sinkRecords) fuel "A" "D" "time" = some r := by
  rintro ⟨fuel, r, h⟩
  have h4 := dijkstra_fuel listQueue (buildGraph sinkRecords) "A" "D" "time" r 4 fuel h
  have hmap : (dijkstraLoop listQueue (buildGraph sinkRecords) "D" "time" 4
      (dijkstraInit listQueue (buildGraph sinkRecords) "A")).map
        (fun st => (st.parent "D", st.parent "C", st.parent "B")) =
      some (some "C", some "B", some "C") := by decide
  obtain ⟨S, hS, hpar⟩ := Option.map_eq_some'.1 hmap
  simp only [Prod.mk.injEq] at hpar
  obtain ⟨hD, hC, hB⟩ := hpar
  have hloop := dijkstraLoop_fuel_add listQueue (buildGraph sinkRecords) "D" "time" _ S
    fuel 4 hS
  rw [Nat.add_comm] at hloop
  unfold dijkstra at h4
  rw [hloop] at h4
  simp only [reconstructPath] at h4
  have hcyc := reconstructLoop_cycle (show "B" ≠ "A" by decide) (show "C" ≠ "A" by decide)
    hB hC (fuel + 3) ["D"]
  have hstep : reconstructLoop S.parent "A" (fuel + 4) "D" [] =
      reconstructLoop S.parent "A" (fuel + 3) "C" ["D"] := by
    simp [reconstructLoop, hD]
  rw [hstep, hcyc.2] at h4
  simp at h4

/-- Claim C15, amended: with sums wrapping round as 32-bit integers, the loop
over the queue in `dijkstra` stops on every graph, source, destination and
criterion, also with negative time or cost values; when the weights are not
negative and the sums stay within the range of `int`, the backward walk stops
as well and `dijkstra` returns. -/
theorem dijkstra_terminates (P : MinQueue) (g : Graph) (start end_ criteria : String)
    (fuel : Nat) (hf : dijkstraFuel g ≤ fuel) :
    (∃ st', dijkstraLoop P g end_ criteria fuel (dijkstraInit P g start) = some st') ∧
    (SafeSums criteria g start → ∃ r, dijkstra P g fuel start end_ criteria = some r) :=
  ⟨dijkstraLoop_returns P g start end_ criteria fuel hf,
    fun W => dijkstra_returns_safe P g criteria start end_ W fuel hf⟩

theorem dijkstra_terminates_witness :
    dijkstraFuel (buildGraph (demoRecords 1 1 2 "L1" "L1" "L2")) ≤
      dijkstraFuel (buildGraph (demoRecords 1 1 2 "L1" "L1" "L2")) ∧
    (∃ st', dijkstraLoop listQueue (buildGraph (demoRecords 1 1 2 "L1" "L1" "L2")) "C" "time"
      (dijkstraFuel (buildGraph (demoRecords 1 1 2 "L1" "L1" "L2")))
      (dijkstraInit listQueue (buildGraph (demoRecords 1 1 2 "L1" "L1" "L2")) "A") =
        some st') ∧
    SafeSums "time" (buildGraph (demoRecords 1 1 2 "L1" "L1" "L2")) "A" ∧
    ∃ r, dijkstra listQueue (buildGraph (demoRecords 1 1 2 "L1" "L1" "L2"))
      (dijkstraFuel (buildGraph (demoRecords 1 1 2 "L1" "L1" "L2"))) "A" "C" "time" =
        some r := by
  have hW := wellWeighted_safe "time" _
    (buildGraph_wellWeighted "time" (demoRecords 1 1 2 "L1" "L1" "L2")
      (by decide) (by decide)) "A"
  have h := dijkstra_terminates listQueue (buildGraph (demoRecords 1 1 2 "L1" "L1" "L2"))
    "A" "C" "time" _ (le_refl _)
  exact ⟨le_refl _, h.1, ⟨hW.nonneg, hW.sums⟩, h.2 ⟨hW.nonneg, hW.sums⟩⟩

/-- Claim C17: on every graph and for stations joined by a walk,
`bfsLeastStops` returns a path with the fewest connections, and on it every
station `v` other than the source is preceded by the first station, in the
order in which stations were taken from the queue, that has a connection to
`v`. -/
theorem bfs_parent_dequeued_first (g : Graph) (start end_ : String) (fuel : Nat)
    (hreach : Reachable g start end_) (hf : bfsFuel g ≤ fuel) :
    ∃ r order, bfsLeastStops g fuel start end_ = some r ∧
      dequeueOrder g fuel start end_ = some order ∧
      IsPath g start end_ r ∧
      (∀ es, IsWalk g start es end_ → r.length ≤ es.length + 1) ∧
      ∀ l1 u v l2, r = l1 ++ u :: v :: l2 →
        Linked g u v ∧ ∃ t1 t2, order = t1 ++ u :: t2 ∧ ∀ w ∈ t1, ¬ Linked g w v := by
  obtain ⟨r, hr⟩ := bfsLeastStops_returns g start end_ fuel hf
  obtain ⟨st', order, ht, hrec⟩ := bfsLeastStops_trace hr
  rcases bfsLeastStops_sound hr with ⟨_, hnr⟩ | ⟨hpath, _, hmin⟩
  · exact absurd hreach hnr
  · refine ⟨r, order, hr, by simp [dequeueOrder, ht], hpath, hmin, ?_⟩
    intro l1 u v l2 hsplit
    rcases reconstructPath_some hrec with h0 | htp
    · rw [h0] at hsplit
      simp at hsplit
    · have hlinks := treePath_links htp
      rw [hsplit] at hlinks
      exact bfsLoopTrace_first fuel _ st' [] order (traceInv_init g start) ht v u
        (chain_pair l1 u v l2 hlinks)

theorem bfs_parent_dequeued_first_witness :
    Reachable (buildGraph diamondRecords) "A" "D" ∧
    bfsFuel (buildGraph diamondRecords) ≤ bfsFuel (buildGraph diamondRecords) ∧
    bfsLeastStops (buildGraph diamondRecords) (bfsFuel (buildGraph diamondRecords)) "A" "D" =
      some ["A", "B", "D"] ∧
    dequeueOrder (buildGraph diamondRecords) (bfsFuel (buildGraph diamondRecords)) "A" "D" =
      some ["A", "B", "C", "D"] ∧
    ∃ r order,
      bfsLeastStops (buildGraph diamondRecords) (bfsFuel (buildGraph diamondRecords)) "A" "D" =
        some r ∧
      dequeueOrder (buildGraph diamondRecords) (bfsFuel (buildGraph diamondRecords)) "A" "D" =
        some order ∧
      IsPath (buildGraph diamondRecords) "A" "D" r ∧
      (∀ es, IsWalk (buildGraph diamondRecords) "A" es "D" → r.length ≤ es.length + 1) ∧
      ∀ l1 u v l2, r = l1 ++ u :: v :: l2 →
        Linked (buildGraph diamondRecords) u v ∧
          ∃ t1 t2, order = t1 ++ u :: t2 ∧
            ∀ w ∈ t1, ¬ Linked (buildGraph diamondRecords) w v :=
  ⟨⟨[⟨"B", 1, 1, 1, "L1"⟩, ⟨"D", 1, 1, 1, "L1"⟩], by simp [IsWalk]; decide⟩, le_refl _,
    by decide, by decide,
    bfs_parent_dequeued_first (buildGraph diamondRecords) "A" "D" _
      ⟨[⟨"B", 1, 1, 1, "L1"⟩, ⟨"D", 1, 1, 1, "L1"⟩], by simp [IsWalk]; decide⟩ (le_refl _)⟩

/-- Counterexample to claim C16: on the records `A-B (1)`, `B-C (INT_MAX)`,
whose weights are not negative, `dijkstra` from `A` to `B` returns `[A, B]`,
while the variant that keeps extracting returns for no amount of fuel: the
sum `1 + INT_MAX` wraps round, the loop ends with `parent[B] = C` and
`parent[C] = B`, and the backward walk never reaches `A`. -/
theorem dijkstra_full_differs_past_int_range :
    dijkstra listQueue (buildGraph brimRecords) 9 "A" "B" "time" = some ["A", "B"] ∧
    ¬ ∃ fuel r, dijkstraFull listQueue (buildGraph brimRecords) fuel "A" "B" "time" =
      some r := by
  refine ⟨by decide, ?_⟩
  rintro ⟨fuel, r, h⟩
  have hmap : (dijkstraLoopFull listQueue (buildGraph brimRecords) "time" 6
      (dijkstraInit listQueue (buildGraph brimRecords) "A")).map
        (fun st => (st.parent "B", st.parent "C")) = some (some "C", some "B") := by decide
  obtain ⟨S, hS, hpar⟩ := Option.map_eq_some'.1 hmap
  simp only [Prod.mk.injEq] at hpar
  obtain ⟨hB, hC⟩ := hpar
  unfold dijkstraFull at h
  cases hl : dijkstraLoopFull listQueue (buildGraph brimRecords) "time" fuel
      (dijkstraInit listQueue (buildGraph brimRecords) "A") with
  | none => rw [hl] at h; simp at h
  | some st' =>
    rw [hl] at h
    simp only at h
    have h1 := dijkstraLoopFull_fuel listQueue _ "time" fuel _ st' hl 6
    have h2 := dijkstraLoopFull_fuel listQueue _ "time" 6 _ S hS fuel
    rw [Nat.add_comm, h1, Option.some.injEq] at h2
    subst h2
    have hcyc := (reconstructLoop_cycle (show "B" ≠ "A" by decide)
      (show "C" ≠ "A" by decide) hB hC fuel []).1
    simp only [reconstructPath] at h
    rw [hcyc] at h
    simp at h

/-- Claim C16, amended: with enough fuel, on every graph `bfsLeastStops`
returns, and the variant without the early exit returns the same sequence;
when the weights are not negative and the sums stay within the range of
`int`, `dijkstra` returns, and the variant that keeps extracting until the
queue is empty returns the same sequence. -/
theorem early_exit_same_result (P : MinQueue) (g : Graph) (start end_ criteria : String)
    (fuel : Nat) (hf : dijkstraFuel g ≤ fuel) :
    (∃ r, bfsLeastStops g fuel start end_ = some r ∧
      bfsLeastStopsFull g fuel start end_ = some r) ∧
    (SafeSums criteria g start →
      ∃ r, dijkstra P g fuel start end_ criteria = some r ∧
        dijkstraFull P g fuel start end_ criteria = some r) := by
  have hb : bfsFuel g ≤ fuel := by
    simp only [bfsFuel, dijkstraFuel] at hf ⊢
    omega
  constructor
  · obtain ⟨r, hr⟩ := bfsLeastStops_returns g start end_ fuel hb
    exact ⟨r, hr, by rw [bfsLeastStopsFull_eq g start end_ fuel hb]; exact hr⟩
  · intro W
    obtain ⟨r, hr⟩ := dijkstra_returns_safe P g criteria start end_ W fuel hf
    exact ⟨r, hr, by rw [dijkstraFull_eq P g criteria start end_ W fuel hf]; exact hr⟩

theorem early_exit_same_result_witness :
    dijkstraFuel (buildGraph (demoRecords 1 1 2 "L1" "L1" "L2")) ≤
      dijkstraFuel (buildGraph (demoRecords 1 1 2 "L1" "L1" "L2")) ∧
    SafeSums "time" (buildGraph (demoRecords 1 1 2 "L1" "L1" "L2")) "A" ∧
    (∃ r, bfsLeastStops (buildGraph (demoRecords 1 1 2 "L1" "L1" "L2"))
        (dijkstraFuel (buildGraph (demoRecords 1 1 2 "L1" "L1" "L2"))) "A" "B" = some r ∧
      bfsLeastStopsFull (buildGraph (demoRecords 1 1 2 "L1" "L1" "L2"))
        (dijkstraFuel (buildGraph (demoRecords 1 1 2 "L1" "L1" "L2"))) "A" "B" = some r) ∧
    (∃ r, dijkstra listQueue (buildGraph (demoRecords 1 1 2 "L1" "L1" "L2"))
        (dijkstraFuel (buildGraph (demoRecords 1 1 2 "L1" "L1" "L2"))) "A" "B" "time" =
          some r ∧
      dijkstraFull listQueue (buildGraph (demoRecords 1 1 2 "L1" "L1" "L2"))
        (dijkstraFuel (buildGraph (demoRecords 1 1 2 "L1" "L1" "L2"))) "A" "B" "time" =
          some r) := by
  have hW := wellWeighted_safe "time" _
    (buildGraph_wellWeighted "time" (demoRecords 1 1 2 "L1" "L1" "L2")
      (by decide) (by decide)) "A"
  have h := early_exit_same_result listQueue
    (buildGraph (demoRecords 1 1 2 "L1" "L1" "L2")) "A" "B" "time" _ (le_refl _)
  exact ⟨le_refl _, ⟨hW.nonneg, hW.sums⟩, h.1, h.2 ⟨hW.nonneg, hW.sums⟩⟩

end MetroFlow
